import Mathlib

/-!
# map-layout: a shallow embedding of `include/map_layout.h`

The registry of `map_layout.h` is embedded as explicit state passing.  Every
template instantiation `register_field<CLASS, FIELD>` / `register_bitfield<CLASS, FIELD>`
touches the two function-local statics of `get_layout<CLASS>` and
`get_type_errors<CLASS>` only, so the state of one class is a `class_state`.

Data model assumed throughout (the usual 64-bit targets): `CHAR_BIT = 8`, `int` and
`unsigned` are 32 bits wide, `size_t`, `uintptr_t` and pointers are 64 bits wide.  What
still differs between such targets is collected in `platform`.
-/

namespace map_layout

/-! ## Machine integers -/

/-- `numeric_limits<size_t>::max()`. -/
def SIZE_MAX : Nat := 2 ^ 64 - 1

/-- `a * b` computed in `size_t`. -/
def size_mul (a b : Nat) : Nat := (a * b) % 2 ^ 64

/-- `a + b` computed in `size_t`. -/
def size_add (a b : Nat) : Nat := (a + b) % 2 ^ 64

/-- `a - b` computed in `size_t` (wraps below zero). -/
def size_sub (a b : Nat) : Nat := (a % 2 ^ 64 + 2 ^ 64 - b % 2 ^ 64) % 2 ^ 64

/-- Conversion of an integer value to a signed two's-complement type of `w` bits. -/
def to_signed (w : Nat) (v : Int) : Int :=
  if v % 2 ^ w < 2 ^ (w - 1) then v % 2 ^ w else v % 2 ^ w - 2 ^ w

/-- Conversion of an integer value to an unsigned type of `w` bits. -/
def to_unsigned (w : Nat) (v : Int) : Int := v % 2 ^ w

/-! ## Primitive types and their traits -/

/-- The arithmetic types of C++ (what `is_arithmetic` accepts). -/
inductive arith_t where
  | bool | char | signed_char | unsigned_char | wchar_t | char16_t | char32_t
  | short | unsigned_short | int | unsigned_int | long | unsigned_long
  | long_long | unsigned_long_long
  | float | double | long_double
  deriving DecidableEq, Repr

/-- What the implementation leaves open on a 64-bit target. `shl_out_of_range n` is the
value the target produces for `1u << n` when `n ≥ 32`, which the language leaves
undefined; it is read modulo `2 ^ 32` because the result is an `unsigned`. -/
structure platform where
  char_is_signed : Bool
  wchar_t_is_signed : Bool
  sizeof_wchar_t : Nat
  sizeof_long : Nat
  sizeof_long_double : Nat
  shl_out_of_range : Nat → Nat

/-- x86-64 Linux (LP64); shift counts are taken modulo 32 by the hardware. -/
def lp64 : platform where
  char_is_signed := true
  wchar_t_is_signed := true
  sizeof_wchar_t := 4
  sizeof_long := 8
  sizeof_long_double := 16
  shl_out_of_range := fun n => 2 ^ (n % 32)

/-- `sizeof(T)` of an arithmetic type. -/
def sizeof_arith (P : platform) : arith_t → Nat
  | .bool => 1 | .char => 1 | .signed_char => 1 | .unsigned_char => 1
  | .wchar_t => P.sizeof_wchar_t | .char16_t => 2 | .char32_t => 4
  | .short => 2 | .unsigned_short => 2 | .int => 4 | .unsigned_int => 4
  | .long => P.sizeof_long | .unsigned_long => P.sizeof_long
  | .long_long => 8 | .unsigned_long_long => 8
  | .float => 4 | .double => 8 | .long_double => P.sizeof_long_double

/-- `is_signed<T>::value`. -/
def is_signed (P : platform) : arith_t → Bool
  | .bool => false | .char => P.char_is_signed | .signed_char => true | .unsigned_char => false
  | .wchar_t => P.wchar_t_is_signed | .char16_t => false | .char32_t => false
  | .short => true | .unsigned_short => false | .int => true | .unsigned_int => false
  | .long => true | .unsigned_long => false
  | .long_long => true | .unsigned_long_long => false
  | .float => true | .double => true | .long_double => true

/-- `is_unsigned<T>::value`: for an arithmetic type, `T(0) < T(-1)`. -/
def is_unsigned (P : platform) (t : arith_t) : Bool := !is_signed P t

/-- `is_floating_point<T>::value`. -/
def is_floating_point : arith_t → Bool
  | .float => true | .double => true | .long_double => true
  | _ => false

/-- `is_integral<T>::value`, which for arithmetic types is also `numeric_limits<T>::is_integer`. -/
def is_integral (t : arith_t) : Bool := !is_floating_point t

/-- The trait `is_one_of<F, S, T...>`. -/
def is_one_of (t : arith_t) (ts : List arith_t) : Bool := ts.contains t

/-! ## Arithmetic flags deduction (`0WZZZYXX`) -/

/-- Overload resolution among SFINAE-guarded overloads without parameters: the call is
well-formed when exactly one candidate is enabled. -/
def select_overload (candidates : List (Bool × Nat)) : Option Nat :=
  match candidates.filter (fun c => c.1) with
  | [c] => some c.2
  | _ => none

def if_bool (t : arith_t) : Bool := decide (t = .bool)
def if_char (t : arith_t) : Bool := is_one_of t [.char, .wchar_t, .char16_t, .char32_t]
def if_charchar (t : arith_t) : Bool := is_one_of t [.unsigned_char, .char, .wchar_t]
def if_charnum (t : arith_t) : Bool := is_one_of t [.char16_t, .char32_t]
def if_no_char (t : arith_t) : Bool :=
  !is_one_of t [.unsigned_char, .char, .wchar_t, .char16_t, .char32_t]
def if_integer (t : arith_t) : Bool :=
  is_integral t && !is_one_of t [.bool, .char, .wchar_t, .char16_t, .char32_t]
def if_sizeof_is (P : platform) (t : arith_t) (s : Nat) : Bool := decide (sizeof_arith P t = s)

def get_arithmetic_type_flags (t : arith_t) : Option Nat :=
  select_overload
    [(if_bool t, 0b00), (if_char t, 0b01), (if_integer t, 0b10), (is_floating_point t, 0b11)]

def get_sign_flags (P : platform) (t : arith_t) : Option Nat :=
  select_overload [(is_signed P t, 0b0 <<< 2), (is_unsigned P t, 0b1 <<< 2)]

def get_size_flags (P : platform) (t : arith_t) : Option Nat :=
  select_overload
    [(if_sizeof_is P t 1, 0b0000 <<< 3), (if_sizeof_is P t 2, 0b0001 <<< 3),
     (if_sizeof_is P t 4, 0b0010 <<< 3), (if_sizeof_is P t 8, 0b0011 <<< 3),
     (if_sizeof_is P t 16, 0b0100 <<< 3)]

def get_char_flags (t : arith_t) : Option Nat :=
  select_overload
    [(if_charchar t, 0b0 <<< 6), (if_charnum t, 0b1 <<< 6), (if_no_char t, 0b0 <<< 6)]

/-- The descriptor byte of an arithmetic type; `none` when one of the four facets has no
viable overload, in which case the instantiation does not compile. -/
def get_encoded_arithmetic (P : platform) (t : arith_t) : Option Nat :=
  match get_arithmetic_type_flags t, get_sign_flags P t, get_size_flags P t, get_char_flags t with
  | some a, some s, some z, some c => some ((a ||| s ||| z ||| c) % 256)
  | _, _, _, _ => none

/-! ## Public data structures -/

inductive item_category where
  | undefined | arithmetic | bitfield | pointer | klass | container
  deriving DecidableEq, Repr

/-- The anonymous union `item_t::data` without the `items` pointer of `container_t`; a
default-constructed item leaves it `indeterminate`. -/
inductive item_data where
  | indeterminate
  | encoded_arithmetic (v : Nat)
  | id (v : Nat)
  | container (count : Nat)
  deriving DecidableEq, Repr

/-- `item_t`; `items` is the array behind `data.container.items` (empty unless the item is
a container). -/
inductive item_t where
  | mk (category : item_category) (data : item_data) (items : List item_t) (ranges : List Nat)
  deriving Repr

def item_t.category : item_t → item_category
  | .mk c _ _ _ => c

def item_t.data : item_t → item_data
  | .mk _ d _ _ => d

def item_t.items : item_t → List item_t
  | .mk _ _ is _ => is

def item_t.ranges : item_t → List Nat
  | .mk _ _ _ r => r

/-- A default-constructed `item_t`. -/
def item_t.default : item_t := .mk .undefined .indeterminate [] []

structure field_info_t where
  user_data : Nat
  item : item_t

/-- A `const char*`: the address it holds and the characters found there. -/
structure c_str where
  addr : Nat
  text : String
  deriving DecidableEq, Repr

/-- `class_layout`; `fields` is the `map<const char*, field_info_t>` kept in iteration
order, which is the order of the key pointers. -/
structure class_layout where
  name : String
  id : Nat
  firstbit : Nat
  lastbit : Nat
  fields : List (c_str × field_info_t)

/-- `tuple<const char*, size_t, string>`: file, line, message. -/
abbrev error_entry := String × Nat × String

/-- The two function-local statics behind `get_layout<T>()` and `get_type_errors<T>()`. -/
structure class_state where
  layout : class_layout
  errors : List error_entry

/-- Both statics after static initialisation: an empty name, zeroed numbers, no fields,
no errors. -/
def class_state.init : class_state :=
  { layout := { name := "", id := 0, firstbit := 0, lastbit := 0, fields := [] }, errors := [] }

/-- `get_layout<T>()`. -/
def get_layout (st : class_state) : class_layout := st.layout

/-- `get_type_errors<T>()`. -/
def get_type_errors (st : class_state) : List error_entry := st.errors

/-- A class type as the templates see it: `sizeof(CLASS)` and `id_of<CLASS>::value`. -/
structure class_t where
  sizeof : Nat
  id : Nat

/-! ## `std::map<const char*, field_info_t>` -/

/-- `map::find`: keys are compared as pointers. -/
def map_find (k : c_str) : List (c_str × field_info_t) → Option field_info_t
  | [] => none
  | (k1, v1) :: rest => if k1.addr = k.addr then some v1 else map_find k rest

/-- Where `map::insert` links a new node: before the first key that is greater. -/
def map_place (k : c_str) (v : field_info_t) :
    List (c_str × field_info_t) → List (c_str × field_info_t)
  | [] => [(k, v)]
  | (k1, v1) :: rest =>
    if k.addr < k1.addr then (k, v) :: (k1, v1) :: rest else (k1, v1) :: map_place k v rest

/-- `map::insert`: when the key is already there the map is left as it is and the flag is
`false`; otherwise the new node goes to its place in pointer order. -/
def map_insert (k : c_str) (v : field_info_t) (m : List (c_str × field_info_t)) :
    List (c_str × field_info_t) × Bool :=
  if (map_find k m).isSome then (m, false) else (map_place k v m, true)

/-- Assignment to `item` through the `field_info_t*` that `insert` handed out for key `k`. -/
def map_set_item (k : c_str) (item : item_t) :
    List (c_str × field_info_t) → List (c_str × field_info_t)
  | [] => []
  | (k1, v1) :: rest =>
    if k1.addr = k.addr then (k1, { v1 with item := item }) :: rest
    else (k1, v1) :: map_set_item k item rest

/-! ## Error handling -/

/-- The comparison handed to `std::sort` in `add_error`, as a non-strict order on lines. -/
def line_le (a b : error_entry) : Prop := a.2.1 ≤ b.2.1

instance : DecidableRel line_le := fun a b => inferInstanceAs (Decidable (a.2.1 ≤ b.2.1))

/-- `add_error<T>`: `push_back` followed by a sort on the line. `std::sort` does not say
in which order entries of equal line end up; the embedding sorts by insertion, which keeps
them in their order of arrival. -/
def add_error (st : class_state) (_file : String) (_line : Nat) (_message : String) :
    class_state :=
  { st with errors := List.insertionSort line_le (st.errors ++ [(_file, _line, _message)]) }

/-- `add_duplication_error<T>`. -/
def add_duplication_error (st : class_state) (_file : String) (_line : Nat)
    (_classname : String) (_fieldname : c_str) : class_state :=
  add_error st _file _line
    ("Duplicated field registration " ++ _classname ++ "::" ++ _fieldname.text)

/-! ## `get_filtered_classname`

The two regular expressions are matched the way an ECMAScript backtracking matcher
matches them; each is written out as the function it denotes. -/

/-- The class `\w`. -/
def is_word (c : Char) : Bool := c.isAlphanum || c == '_'

/-- The class `\s`. -/
def is_space (c : Char) : Bool :=
  c == ' ' || c == '\t' || c == '\n' || c == '\r' || c == Char.ofNat 11 || c == Char.ofNat 12

/-- What `.` does not match. -/
def is_line_terminator (c : Char) : Bool := c == '\n' || c == '\r'

/-- `strip_literal lit s`: the rest of `s` after the literal `lit`, if `s` starts with it. -/
def strip_literal : List Char → List Char → Option (List Char)
  | [], s => some s
  | _ :: _, [] => none
  | a :: lit, b :: s => if a = b then strip_literal lit s else none

/-- Greedy `(.*)\)` at the start of `s`: `.*` runs to the end of the line and gives back
characters until a `)` follows. Result: the capture and what follows the `)`. -/
def match_dotstar_paren (s : List Char) : Option (List Char × List Char) :=
  let line := s.takeWhile (fun c => !is_line_terminator c)
  match (List.range line.length).reverse.find? (fun i => line.getD i ' ' == ')') with
  | some i => some (line.take i, s.drop (i + 1))
  | none => none

/-- `ML_WRAP\s*\((.*)\)` matched at the start of `s`: the capture `$1` and the unmatched
rest. -/
def match_wrap_here (s : List Char) : Option (List Char × List Char) :=
  match strip_literal "ML_WRAP".toList s with
  | none => none
  | some r =>
    match r.dropWhile is_space with
    | '(' :: r1 => match_dotstar_paren r1
    | _ => none

/-- `regex_replace(s, wrap, "$1")`: every match, taken leftmost first and without
overlap, gives way to its capture. A match consumes at least nine characters, so
`fuel = s.length` is never used up. -/
def replace_wrap : Nat → List Char → List Char
  | 0, s => s
  | _, [] => []
  | fuel + 1, c :: s =>
    match match_wrap_here (c :: s) with
    | some (cap, rest) => cap ++ replace_wrap fuel rest
    | none => c :: replace_wrap fuel s

/-- `regex_search(s, m, wrap)`. -/
def search_wrap : List Char → Bool
  | [] => false
  | c :: s => (match_wrap_here (c :: s)).isSome || search_wrap s

/-- The `do ... while` loop that unwraps `ML_WRAP(...)`. Every pass after the first one
removes a match and so shortens the text; `fuel = s.length` passes are enough. -/
def unwrap_loop : Nat → List Char → List Char
  | 0, s => replace_wrap s.length s
  | fuel + 1, s =>
    let current := replace_wrap s.length s
    if search_wrap current then unwrap_loop fuel current else current

/-- `(\w+\s*(<[^>]+>)?)` matched at the start of `s`, which starts with a word character. -/
def match_find_type_here (s : List Char) : List Char :=
  let w := s.takeWhile is_word
  let r := s.dropWhile is_word
  let sp := r.takeWhile is_space
  let r1 := r.dropWhile is_space
  match r1 with
  | '<' :: r2 =>
    let body := r2.takeWhile (fun c => c != '>')
    match body, r2.dropWhile (fun c => c != '>') with
    | _ :: _, '>' :: _ => w ++ sp ++ ['<'] ++ body ++ ['>']
    | _, _ => w ++ sp
  | _ => w ++ sp

/-- `regex_search(s, m, find_type)` and `m[1]`: the leftmost match starts at the first
word character. -/
def search_find_type : List Char → Option (List Char)
  | [] => none
  | c :: s => if is_word c then some (match_find_type_here (c :: s)) else search_find_type s

def get_filtered_classname (_classname : String) : String :=
  let current := unwrap_loop _classname.length _classname.toList
  match search_find_type current with
  | some m => String.mk m
  | none => _classname

/-! ## Initial setup of class/field -/

/-- `setup_class_field<CLASS, FIELD>`: the returned pointer is `none` for `nullptr`, and
otherwise the `field_info_t` it points to, which lives in the map under `_fieldname`. -/
def setup_class_field (C : class_t) (st : class_state) (_classname : String)
    (_fieldname : c_str) (_user_data : Nat) (_file : String) (_line : Nat) :
    Option field_info_t × class_state :=
  let filtered_classname := get_filtered_classname _classname
  let layout :=
    if st.layout.name = "" then
      { st.layout with
        id := C.id, name := filtered_classname, firstbit := SIZE_MAX, lastbit := 0 }
    else st.layout
  let ret := map_insert _fieldname { user_data := _user_data, item := item_t.default } layout.fields
  if ret.2 then
    (some { user_data := _user_data, item := item_t.default },
      { st with layout := { layout with fields := ret.1 } })
  else
    (none,
      add_duplication_error { st with layout := layout } _file _line filtered_classname _fieldname)

/-- The loop at the end of every registration function: each pair `ranges[i], ranges[i+1]`
is folded into `firstbit` / `lastbit`. -/
def update_extent : List Nat → class_layout → class_layout
  | a :: b :: rest, layout =>
    update_extent rest
      { layout with
        firstbit := if a < layout.firstbit then a else layout.firstbit,
        lastbit := if b > layout.lastbit then b else layout.lastbit }
  | _, layout => layout

/-! ## Field types and `register_field` -/

/-- The static type `FIELD` of a registered field, by the overload of `register_field` it
selects. A class type carries `sizeof(FIELD)` and `id_of<FIELD>::value`; an indexable type
carries, for each index, the offset of `container_elem<I>` inside the compound (the
address difference taken in `register_container`) and the element type. -/
inductive field_t where
  | arithmetic (t : arith_t)
  | pointer
  | klass (sizeof : Nat) (id : Nat)
  | container (elems : List (Nat × field_t))

/-- `sizeof(FIELD)` of a pointer type. -/
def sizeof_pointer : Nat := 8

/-- The bit range `[_offset * 8, ((_offset + sizeof(FIELD)) * 8) - 1]` in `size_t`. -/
def byte_range (_offset size : Nat) : List Nat :=
  [size_mul _offset 8, size_sub (size_mul (size_add _offset size) 8) 1]

/-- `ranges.back() = v`. -/
def set_back (v : Nat) : List Nat → List Nat
  | [] => []
  | [_] => [v]
  | a :: b :: rest => a :: set_back v (b :: rest)

mutual
/-- `get_max_bit` for a non-null `_item`. Reading `ranges.back()` of an empty vector is
undefined; no registration path produces such a leaf and the embedding reads `0` there. -/
def get_max_bit (_val : Nat) : item_t → Nat
  | .mk .container _ items _ => get_max_bit_loop _val items
  | .mk .undefined _ _ ranges => max _val (ranges.getLastD 0)
  | .mk .arithmetic _ _ ranges => max _val (ranges.getLastD 0)
  | .mk .bitfield _ _ ranges => max _val (ranges.getLastD 0)
  | .mk .pointer _ _ ranges => max _val (ranges.getLastD 0)
  | .mk .klass _ _ ranges => max _val (ranges.getLastD 0)
/-- The `for` loop of `get_max_bit` over `data.container.items`. -/
def get_max_bit_loop (_val : Nat) : List item_t → Nat
  | [] => _val
  | it :: rest =>
    get_max_bit_loop (if get_max_bit _val it > _val then get_max_bit _val it else _val) rest
end

mutual
/-- `register_field<CLASS, FIELD>` from the point where `item` is known to be non-null:
the item is classified and its ranges are folded into the layout of `CLASS`. `none` when
the instantiation has no viable descriptor overload. -/
def register_item (P : platform) : field_t → Nat → item_t → class_layout →
    Option (item_t × class_layout)
  | .arithmetic t, _offset, item, layout =>
    match get_encoded_arithmetic P t with
    | none => none
    | some enc =>
      some (.mk .arithmetic (.encoded_arithmetic enc) item.items
              (item.ranges ++ byte_range _offset (sizeof_arith P t)),
            update_extent (item.ranges ++ byte_range _offset (sizeof_arith P t)) layout)
  | .pointer, _offset, item, layout =>
    some (.mk .pointer item.data item.items (item.ranges ++ byte_range _offset sizeof_pointer),
          update_extent (item.ranges ++ byte_range _offset sizeof_pointer) layout)
  | .klass size id, _offset, item, layout =>
    some (.mk .klass (.id id) item.items (item.ranges ++ byte_range _offset size),
          update_extent (item.ranges ++ byte_range _offset size) layout)
  | .container elems, _offset, item, layout =>
    match register_container P elems _offset layout with
    | none => none
    | some (items, layout1) =>
      some (.mk .container (.container elems.length) items
              (set_back
                (get_max_bit 0 (.mk .container (.container elems.length) items
                  (item.ranges ++ [size_mul _offset 8, size_mul _offset 8])))
                (item.ranges ++ [size_mul _offset 8, size_mul _offset 8])),
            update_extent
              (set_back
                (get_max_bit 0 (.mk .container (.container elems.length) items
                  (item.ranges ++ [size_mul _offset 8, size_mul _offset 8])))
                (item.ranges ++ [size_mul _offset 8, size_mul _offset 8]))
              layout1)
/-- `register_container<CLASS, FIELD, IDX, SIZE>` from `IDX` on: each element is
registered into its own fresh child item at `_offset + item_offset`. -/
def register_container (P : platform) : List (Nat × field_t) → Nat → class_layout →
    Option (List item_t × class_layout)
  | [], _, layout => some ([], layout)
  | (item_offset, t) :: rest, _offset, layout =>
    match register_item P t (size_add _offset item_offset) item_t.default layout with
    | none => none
    | some (child, layout1) =>
      match register_container P rest _offset layout1 with
      | none => none
      | some (children, layout2) => some (child :: children, layout2)
end

/-- `register_field<CLASS, FIELD>` as the macros call it, with `_item = nullptr`. -/
def register_field (P : platform) (C : class_t) (F : field_t) (st : class_state)
    (_offset : Nat) (_classname : String) (_fieldname : c_str) (_user_data : Nat)
    (_file : String) (_line : Nat) : Option (Bool × class_state) :=
  match setup_class_field C st _classname _fieldname _user_data _file _line with
  | (none, st1) => some (false, st1)
  | (some field, st1) =>
    match register_item P F _offset field.item st1.layout with
    | none => none
    | some (item, layout) =>
      some (true,
        { st1 with layout := { layout with fields := map_set_item _fieldname item layout.fields } })

/-! ## Bit-field registration -/

/-- The inner loop of `get_first_bit_position`: the first `i < CHAR_BIT` with
`val & (1 << i)`. -/
def first_bit_of_byte (val : Nat) : Option Nat :=
  (List.range 8).find? (fun i => val &&& (1 <<< i) != 0)

/-- The outer loop of `get_first_bit_position` at byte `pc`, with `left` bytes still to
scan. The scan never leaves the buffer, whose length is `sizeof(CLASS)`. -/
def scan_bytes : List Nat → Nat → Nat → Int
  | _, _, 0 => -1
  | [], _, _ + 1 => -1
  | val :: rest, pc, left + 1 =>
    if val ≠ 0 then
      match first_bit_of_byte val with
      | some i => (pc : Int) * 8 + (i : Int)
      | none => scan_bytes rest (pc + 1) left
    else scan_bytes rest (pc + 1) left

/-- The local function `get_first_bit_position(_addr, _max_bytes_scan)`; the byte count is
an `int`. -/
def get_first_bit_position (_addr : List Nat) (_max_bytes_scan : Int) : Int :=
  scan_bytes _addr 0 _max_bytes_scan.toNat

/-- `static_cast<T>(v)` for an integral type `T`. -/
def static_cast (P : platform) (t : arith_t) (v : Int) : Int :=
  if t = .bool then (if v = 0 then 0 else 1)
  else if is_signed P t then to_signed (8 * sizeof_arith P t) v
  else to_unsigned (8 * sizeof_arith P t) v

/-- `1u << offset`, an `unsigned`. -/
def shl_one (P : platform) (offset : Nat) : Nat :=
  if offset < 32 then 2 ^ offset else P.shl_out_of_range offset % 2 ^ 32

/-- The locals `curr_bit`, `last_bit` and `field->item.ranges` of `register_bitfield`. -/
structure probe_state where
  curr_bit : Nat
  last_bit : Nat
  ranges : List Nat
  deriving DecidableEq, Repr

/-- The instance after `memset` to zero. -/
def zeroed (C : class_t) : List Nat := List.replicate C.sizeof 0

/-- The instance after `memset` and `_setter(*instance, static_cast<FIELD>(expected))`
with `expected = 1u << offset`. -/
def probe_write (P : platform) (C : class_t) (F : arith_t)
    (_setter : List Nat → Int → List Nat) (offset : Nat) : List Nat :=
  _setter (zeroed C) (static_cast P F (shl_one P offset))

/-- `get_first_bit_position(instance, sizeof(CLASS))` after the write for `offset`. -/
def probe_position (P : platform) (C : class_t) (F : arith_t)
    (_setter : List Nat → Int → List Nat) (offset : Nat) : Int :=
  get_first_bit_position (probe_write P C F _setter offset) (to_signed 32 C.sizeof)

/-- The test `result != static_cast<decltype(result)>(expected) && static_cast<int>(result) >= 0`
that ends the scan. -/
def width_exceeded (P : platform) (C : class_t) (F : arith_t) (_getter : List Nat → Int)
    (_setter : List Nat → Int → List Nat) (offset : Nat) : Prop :=
  _getter (probe_write P C F _setter offset) ≠ static_cast P F (shl_one P offset)
    ∧ to_signed 32 (_getter (probe_write P C F _setter offset)) ≥ 0

instance (P : platform) (C : class_t) (F : arith_t) (_getter : List Nat → Int)
    (_setter : List Nat → Int → List Nat) (offset : Nat) :
    Decidable (width_exceeded P C F _getter _setter offset) :=
  inferInstanceAs (Decidable (_ ∧ _))

/-- The `for (offset = 1u; offset < max_num_bits; ++offset)` loop, entered at `offset` with
`left = max_num_bits - offset` iterations to go. `nthbit` is non-negative where it is
converted to `size_t`. -/
def probe_loop (P : platform) (C : class_t) (F : arith_t) (_getter : List Nat → Int)
    (_setter : List Nat → Int → List Nat) : Nat → Nat → probe_state → probe_state
  | 0, _, s => s
  | left + 1, offset, s =>
    if width_exceeded P C F _getter _setter offset then
      { s with ranges := s.ranges ++ [s.curr_bit, s.last_bit] }
    else if probe_position P C F _setter offset ≠ -1 then
      if Int.natAbs (to_signed 64
            (size_sub (probe_position P C F _setter offset).toNat s.last_bit)) > 1 then
        probe_loop P C F _getter _setter left (offset + 1)
          { curr_bit := (probe_position P C F _setter offset).toNat,
            last_bit := (probe_position P C F _setter offset).toNat,
            ranges := s.ranges ++ [s.curr_bit, s.last_bit] }
      else
        probe_loop P C F _getter _setter left (offset + 1)
          { s with last_bit := (probe_position P C F _setter offset).toNat }
    else probe_loop P C F _getter _setter left (offset + 1) s

/-- The ranges of the item after the scan loop and the final
`if (field->item.ranges.size() == 0)`, for a probe whose first bit was found at
`first_bit`. -/
def probe_ranges (P : platform) (C : class_t) (F : arith_t) (_getter : List Nat → Int)
    (_setter : List Nat → Int → List Nat) (first_bit : Nat) : List Nat :=
  let s := probe_loop P C F _getter _setter (8 * sizeof_arith P F - 1) 1
    { curr_bit := first_bit, last_bit := first_bit, ranges := [] }
  if s.ranges.length = 0 then s.ranges ++ [s.curr_bit, s.last_bit] else s.ranges

/-- `register_bitfield<CLASS, FIELD>` for a non-reference `FIELD`. The instance is a
buffer of `sizeof(CLASS)` bytes, lowest address first; `_getter` and `_setter` are the two
`std::function` objects. `none` when a `static_assert` or the descriptor overloads reject
`FIELD`. -/
def register_bitfield (P : platform) (C : class_t) (F : arith_t) (st : class_state)
    (_classname : String) (_fieldname : c_str) (_user_data : Nat)
    (_getter : List Nat → Int) (_setter : List Nat → Int → List Nat)
    (_file : String) (_line : Nat) : Option (Bool × class_state) :=
  if is_integral F = false then none
  else
    match get_encoded_arithmetic P F with
    | none => none
    | some enc =>
      match setup_class_field C st _classname _fieldname _user_data _file _line with
      | (none, st1) => some (false, st1)
      | (some field, st1) =>
        if get_first_bit_position (_setter (zeroed C) (static_cast P F 1))
            (to_signed 32 C.sizeof) = -1 then
          some (false,
            { st1 with
              layout := { st1.layout with
                fields := map_set_item _fieldname
                  (.mk .bitfield (.encoded_arithmetic enc) field.item.items field.item.ranges)
                  st1.layout.fields } })
        else
          some (true,
            { st1 with
              layout := { update_extent
                  (field.item.ranges ++ probe_ranges P C F _getter _setter
                    (get_first_bit_position (_setter (zeroed C) (static_cast P F 1))
                      (to_signed 32 C.sizeof)).toNat)
                  st1.layout with
                fields := map_set_item _fieldname
                  (.mk .bitfield (.encoded_arithmetic enc) field.item.items
                    (field.item.ranges ++ probe_ranges P C F _getter _setter
                      (get_first_bit_position (_setter (zeroed C) (static_cast P F 1))
                        (to_signed 32 C.sizeof)).toNat))
                  st1.layout.fields } })

/-! ## Registration calls -/

/-- One registration call for a class, as one of the sixteen macros issues it. -/
inductive registration where
  | field (F : field_t) (_offset : Nat) (_classname : String) (_fieldname : c_str)
      (_user_data : Nat) (_file : String) (_line : Nat)
  | bitfield (F : arith_t) (_classname : String) (_fieldname : c_str) (_user_data : Nat)
      (_getter : List Nat → Int) (_setter : List Nat → Int → List Nat)
      (_file : String) (_line : Nat)

def registration.fieldname : registration → c_str
  | .field _ _ _ n _ _ _ => n
  | .bitfield _ _ n _ _ _ _ _ => n

/-- The call carried out on the statics of `CLASS`. -/
def registration.run (P : platform) (C : class_t) (st : class_state) :
    registration → Option (Bool × class_state)
  | .field F o cn fn ud file line => register_field P C F st o cn fn ud file line
  | .bitfield F cn fn ud g s file line => register_bitfield P C F st cn fn ud g s file line

/-- A sequence of calls carried out in the given order; the results are listed in the
same order. -/
def run_all (P : platform) (C : class_t) :
    class_state → List registration → Option (List Bool × class_state)
  | st, [] => some ([], st)
  | st, r :: rest =>
    match r.run P C st with
    | none => none
    | some (b, st1) =>
      match run_all P C st1 rest with
      | none => none
      | some (bs, st2) => some (b :: bs, st2)

/-! ## Bit-fields as the compiler lays them out

What a test or an engineer means by accessors that "faithfully" implement a bit-field:
value bit `i` of the field is bit `positions[i]` of the instance, bits being numbered
lowest address first, lowest bit first. -/

/-- The bytes of an instance of `n` bytes whose bits, numbered lowest address first and
lowest bit first, are the binary digits of `x`. -/
def bytes_of : Nat → Nat → List Nat
  | 0, _ => []
  | n + 1, x => x % 256 :: bytes_of n (x / 256)

/-- The number whose binary digits are the bits of the instance. -/
def value_of : List Nat → Nat
  | [] => 0
  | b :: rest => b % 256 + 256 * value_of rest

/-- The instance bits of a field value `v`: bit `i` of `v` goes to bit `positions[i]`. -/
def scatter : List Nat → Nat → Nat
  | [], _ => 0
  | p :: ps, v => (v % 2) * 2 ^ p + scatter ps (v / 2)

/-- The field value held by instance bits `x`. -/
def gather : List Nat → Nat → Nat
  | [], _ => 0
  | p :: ps, x => (x / 2 ^ p) % 2 + 2 * gather ps x

/-- The setter `_inst._field = _b` of a bit-field at `positions`; the converted value is
truncated to the width of the field. Other bits of the instance are kept. -/
def bitfield_setter (positions : List Nat) (inst : List Nat) (v : Int) : List Nat :=
  bytes_of inst.length
    (value_of inst - scatter positions (gather positions (value_of inst))
      + scatter positions (v % 2 ^ positions.length).toNat)

/-- The getter `return _inst._field` of a bit-field at `positions`; a signed field is
sign-extended from its width. -/
def bitfield_getter (signed : Bool) (positions : List Nat) (inst : List Nat) : Int :=
  if signed then to_signed positions.length (gather positions (value_of inst))
  else (gather positions (value_of inst) : Int)

/-- The positions `s, s+1, ..., s+k-1` of a contiguous field. -/
def contiguous (s k : Nat) : List Nat := List.range' s k


/-! ## Reading the registry -/

/-- `sizeof(FIELD)` for the arithmetic, pointer and class overloads of `register_field`. -/
def plain_sizeof (P : platform) : field_t → Option Nat
  | .arithmetic t => some (sizeof_arith P t)
  | .pointer => some sizeof_pointer
  | .klass size _ => some size
  | .container _ => none

/-- The category the arithmetic, pointer and class overloads give to their item. -/
def plain_category : field_t → item_category
  | .arithmetic _ => .arithmetic
  | .pointer => .pointer
  | .klass _ _ => .klass
  | .container _ => .container

/-- The category facet by kind of type: `0` bool, `1` character, `2` integer, `3` real.
`signed char` and `unsigned char` are not in the list of `if_char` and count as integers. -/
def arithmetic_category : arith_t → Nat
  | .bool => 0
  | .char => 1 | .wchar_t => 1 | .char16_t => 1 | .char32_t => 1
  | .float => 3 | .double => 3 | .long_double => 3
  | _ => 2

/-- `get_encoded_arithmetic<T>` as a function of the two traits of `T` that depend on the
target: `is_signed<T>` and `sizeof(T)`. -/
def descriptor_of (t : arith_t) (signed : Bool) (size : Nat) : Option Nat :=
  match get_arithmetic_type_flags t,
      select_overload [(signed, 0b0 <<< 2), (!signed, 0b1 <<< 2)],
      select_overload
        [(decide (size = 1), 0b0000 <<< 3), (decide (size = 2), 0b0001 <<< 3),
         (decide (size = 4), 0b0010 <<< 3), (decide (size = 8), 0b0011 <<< 3),
         (decide (size = 16), 0b0100 <<< 3)],
      get_char_flags t with
  | some a, some s, some z, some c => some ((a ||| s ||| z ||| c) % 256)
  | _, _, _, _ => none

/-- The state a call leaves behind (the initial state when the call is ill-formed). -/
def state_of (r : Option (Bool × class_state)) : class_state :=
  match r with
  | some (_, st) => st
  | none => class_state.init

/-- The flag a call returns (`false` when the call is ill-formed). -/
def flag_of (r : Option (Bool × class_state)) : Bool :=
  match r with
  | some (b, _) => b
  | none => false

/-- The ranges of the item stored under a field name (empty when there is none). -/
def ranges_of (st : class_state) (k : c_str) : List Nat :=
  match map_find k st.layout.fields with
  | some info => info.item.ranges
  | none => []

/-! ## Concrete registrations -/

/-- `struct simple_types` of `example/main.cpp` on x86-64: 32 bytes, no class id. -/
def simple_types : class_t := { sizeof := 32, id := 0 }

/-- `ML_GLOBAL_REGISTER_FIELD(simple_types, b)`, the `unsigned char` at offset 4. -/
def dup_first : registration :=
  .field (.arithmetic .unsigned_char) 4 "simple_types" ⟨4096, "b"⟩ 0 "main.cpp" 204

/-- A second registration under the same name with another type, offset and user data. -/
def dup_second : registration :=
  .field (.arithmetic .double) 16 "simple_types" ⟨4096, "b"⟩ 7 "main.cpp" 205

/-- `struct with_bitfields` of `example/main.cpp` on x86-64: 4 bytes. -/
def with_bitfields : class_t := { sizeof := 4, id := 0 }

/-! ## Faithful accessors, arithmetically -/

/-- `static_cast<T>(v)` for an integral `T` other than `bool`, by signedness and width. -/
def cast_to (signed : Bool) (w : Nat) (v : Int) : Int :=
  if signed then to_signed w v else to_unsigned w v

/-- What a bit-field of `k` bits gives back after `v` was assigned to it: the low `k` bits,
sign-extended when the field is signed. -/
def read_back (signed : Bool) (k : Nat) (v : Int) : Int :=
  if signed then to_signed k (v % 2 ^ k) else v % 2 ^ k

/-- The stop test of the scan for a faithful field of `k` bits in storage of `w` bits, at
`expected = 2 ^ i`. -/
def stops (signed : Bool) (w k i : Nat) : Prop :=
  read_back signed k (cast_to signed w (2 ^ i)) ≠ cast_to signed w (2 ^ i)
    ∧ to_signed 32 (read_back signed k (cast_to signed w (2 ^ i))) ≥ 0

instance (signed : Bool) (w k i : Nat) : Decidable (stops signed w k i) :=
  inferInstanceAs (Decidable (_ ∧ _))

/-- Below the width of the field the written bit is bit `i` and the scan goes on; at the
width nothing is written and the scan stops. -/
def probe_arithmetic_check (signed : Bool) (w k i : Nat) : Bool :=
  decide (1 ≤ k → k ≤ w → i < w →
      (i < k → (cast_to signed w (2 ^ i) % 2 ^ k).toNat = 2 ^ i ∧ ¬ stops signed w k i)
      ∧ (i = k → (cast_to signed w (2 ^ i) % 2 ^ k).toNat = 0 ∧ stops signed w k i))

/-! ## The shape of a `ranges` vector -/

/-- The `(start, end)` pairs of a `ranges` vector. -/
def range_pairs : List Nat → List (Nat × Nat)
  | a :: b :: rest => (a, b) :: range_pairs rest
  | _ => []

/-- Every pair has `start ≤ end`, and each pair starts after the end of the pair before
it. -/
def ascending_pairs (r : List Nat) : Prop :=
  (∀ p ∈ range_pairs r, p.1 ≤ p.2) ∧ List.Chain' (fun p q => p.2 < q.1) (range_pairs r)

/-- What `field->item.ranges` holds when `register_bitfield` returns `true`, given the
state in which the scan loop ended. -/
def final_ranges (s : probe_state) : List Nat :=
  if s.ranges.length = 0 then s.ranges ++ [s.curr_bit, s.last_bit] else s.ranges

/-- `struct` of one byte used for accessors that are not those of a bit-field. -/
def one_byte : class_t := { sizeof := 1, id := 0 }

/-- A setter that puts the value `1` on bit 5 and the value `2` on bit 4. -/
def backward_setter (_inst : List Nat) (v : Int) : List Nat :=
  if v = 1 then [32] else if v = 2 then [16] else [0]

/-- The getter that reads back what `backward_setter` wrote. -/
def backward_getter (inst : List Nat) : Int :=
  if inst = [32] then 1 else if inst = [16] then 2 else 0

/-- A 7-bit unsigned field split over bits 0 to 3 and 8 to 10 of a two-byte instance. -/
def split_positions : List Nat := [0, 1, 2, 3, 8, 9, 10]

/-- A `struct` of two bytes holding split bit-fields. -/
def two_bytes : class_t := { sizeof := 2, id := 0 }

/-- `ML_REGISTER_FIELD(simple_types, a, "", "a")`: the `int` at offset 0, announced with an
empty class name. -/
def unnamed_first : registration :=
  .field (.arithmetic .int) 0 "" ⟨4090, "a"⟩ 0 "main.cpp" 203

/-- `ML_REGISTER_FIELD(simple_types, c, "", "c")`: the `short` at offset 6, announced with
an empty class name. -/
def unnamed_second : registration :=
  .field (.arithmetic .short) 6 "" ⟨4100, "c"⟩ 0 "main.cpp" 212

/-- What a test reads off a class after a sequence of calls: the flags returned, the name,
the extent, and the ranges stored under two field names. -/
def extent_report (r : Option (List Bool × class_state)) (k1 k2 : c_str) :
    Option (List Bool × String × Nat × Nat × List Nat × List Nat) :=
  r.map (fun x => (x.1, x.2.layout.name, x.2.layout.firstbit, x.2.layout.lastbit,
    ranges_of x.2 k1, ranges_of x.2 k2))

/-- A setter that leaves the instance untouched. -/
def dead_setter (inst : List Nat) (_v : Int) : List Nat := inst

/-- A getter that always reads zero. -/
def dead_getter (_inst : List Nat) : Int := 0

/-- An 8-bit unsigned field in `unsigned char` storage, split over bits 0 to 3 and 8 to 11
of a two-byte instance. -/
def full_split_positions : List Nat := [0, 1, 2, 3, 8, 9, 10, 11]

/-- A `struct` of eight bytes holding one 64-bit storage unit. -/
def eight_bytes : class_t := { sizeof := 8, id := 0 }

/-! ## The extent of a class -/

/-- `firstbit` / `lastbit` bracket every range pair of every field in the field map. -/
def extent_brackets (l : class_layout) : Prop :=
  ∀ kv ∈ l.fields, ∀ p ∈ range_pairs kv.2.item.ranges, l.firstbit ≤ p.1 ∧ p.2 ≤ l.lastbit

def registration.classname : registration → String
  | .field _ _ cn _ _ _ _ => cn
  | .bitfield _ cn _ _ _ _ _ _ => cn

/-- The layout of `CLASS` after the first-touch test at the head of `setup_class_field`. -/
def first_touch (C : class_t) (l : class_layout) (_classname : String) : class_layout :=
  if l.name = "" then
    { l with
      id := C.id, name := get_filtered_classname _classname, firstbit := SIZE_MAX, lastbit := 0 }
  else l

/-- The class has a display name as soon as it has fields, and its extent brackets the
ranges of its fields. -/
def named_extent (st : class_state) : Prop :=
  (st.layout.name ≠ "" ∨ st.layout.fields = []) ∧ extent_brackets st.layout

/-! ## The wide-char flag -/

/-- Bit 6 of a descriptor byte, as `decode_arithmetic` reads it. -/
def wide_char_flag (enc : Nat) : Nat := (enc &&& 0b01000000) >>> 6

/-! ## The error log -/

/-- A sequence of `add_error<T>` calls, carried out in the given order. -/
def add_errors (st : class_state) : List error_entry → class_state
  | [] => st
  | e :: rest => add_errors (add_error st e.1 e.2.1 e.2.2) rest

/-! ## The registry of all types -/

/-- A template argument: a type, by its spelling, or a value. -/
inductive template_arg where
  | type (spelling : String)
  | value (v : Nat)
  deriving DecidableEq, Repr

/-- The identity of a C++ type: the name of the class or class template and its template
arguments. `class2<double, int, 2>` and `class2<double, int, 9>` differ in their last
argument. -/
structure type_id where
  name : String
  arguments : List template_arg
  deriving DecidableEq, Repr

/-- The function-local statics of `get_layout<T>()` and `get_type_errors<T>()`, one pair per
instantiation `T`. -/
abbrev registry := type_id → class_state

/-- The registry after static initialisation. -/
def registry.init : registry := fun _ => class_state.init

/-- Assignment to the statics of `T`. -/
def registry.set (reg : registry) (T : type_id) (st : class_state) : registry :=
  fun U => if U = T then st else reg U

/-- A registration call `register_field<CLASS, ...>` / `register_bitfield<CLASS, ...>` on
the registry: the functions reach their statics through `get_layout_mod<CLASS>()` and
`get_type_errors_mod<CLASS>()` only. `classes` gives `sizeof` and `id_of` of each type. -/
def registry.run (P : platform) (classes : type_id → class_t) (reg : registry)
    (CLASS : type_id) (r : registration) : Option (Bool × registry) :=
  match r.run P (classes CLASS) (reg CLASS) with
  | none => none
  | some (b, st) => some (b, reg.set CLASS st)

/-- `err_iterator<TS...>::operator()(_out)`: the errors of the head type are copied to the
back of `_out`, then the rest of the list is visited. -/
def err_iterator (reg : registry) : List type_id → List error_entry → List error_entry
  | [], _out => _out
  | T :: TS, _out => err_iterator reg TS (_out ++ get_type_errors (reg T))

/-- `gather_all_errors<TS...>()`. -/
def gather_all_errors (reg : registry) (TS : List type_id) : List error_entry :=
  err_iterator reg TS []

/-- `class2<double, int, 2>` of `example/main.cpp`. -/
def class2_double_int_2 : type_id :=
  { name := "class2", arguments := [.type "double", .type "int", .value 2] }

/-- `class2<double, int, 9>` of `example/main.cpp`. -/
def class2_double_int_9 : type_id :=
  { name := "class2", arguments := [.type "double", .type "int", .value 9] }

/-- `sizeof` and `id_of` of the two instantiations of `class2` on x86-64 (the conditional
class ids of `example/main.cpp`), and of any other type an 8-byte class without id. -/
def example_classes (T : type_id) : class_t :=
  if T = class2_double_int_2 then { sizeof := 24, id := 0x10000001 }
  else if T = class2_double_int_9 then { sizeof := 80, id := 0x1000000F }
  else { sizeof := 8, id := 0 }

/-- `ML_GLOBAL_REGISTER_FIELD(ML_WRAP(class2<double, int, 2>), a)`: the `double` at
offset 0. -/
def class2_a : registration :=
  .field (.arithmetic .double) 0 "ML_WRAP(class2<double, int, 2>)" ⟨4700, "a"⟩ 0 "main.cpp" 256

/-- The registry a call leaves behind (the initial registry when the call is ill-formed). -/
def registry_of (r : Option (Bool × registry)) : registry :=
  match r with
  | some (_, reg) => reg
  | none => registry.init

/-! ## Class ids: the specialisations of `id_of` -/

/-- One specialisation of `id_of`. `ML_REGISTER_CLASSID(T, id)` without template
parameters is the explicit specialisation `id_of<T>`. `ML_REGISTER_CLASSID_CODITIONAL`,
and `ML_REGISTER_CLASSID` with template parameters, give a partial specialisation;
`applies` tells for which types its pattern matches and its condition holds. -/
inductive id_binding where
  | exact (T : type_id) (id : Nat)
  | conditional (applies : type_id → Bool) (id : Nat)

/-- The ids of the explicit specialisations for `T`, in declaration order. -/
def exact_ids (table : List id_binding) (T : type_id) : List Nat :=
  table.filterMap (fun b =>
    match b with
    | .exact U id => if U = T then some id else none
    | .conditional _ _ => none)

/-- The ids of the partial specialisations that match `T`, in declaration order. -/
def conditional_ids (table : List id_binding) (T : type_id) : List Nat :=
  table.filterMap (fun b =>
    match b with
    | .exact _ _ => none
    | .conditional applies id => if applies T then some id else none)

/-- `id_of<T>::value` as the compiler selects it: the explicit specialisation if there is
one, else the matching partial specialisation, else the primary template with value 0.
`none` when the program is ill-formed: an explicit specialisation defined twice, or
several matching partial specialisations, which are taken to be unordered (as are those
that differ in their condition only). -/
def id_of (table : List id_binding) (T : type_id) : Option Nat :=
  match exact_ids table T with
  | [id] => some id
  | _ :: _ :: _ => none
  | [] =>
    match conditional_ids table T with
    | [] => some 0
    | [id] => some id
    | _ :: _ :: _ => none

/-- The static type `FIELD = F` of a field of non-indexable class type, as
`register_field` sees it: `sizeof(F)` and `id_of<F>::value`. -/
def klass_field (table : List id_binding) (sizes : type_id → Nat) (F : type_id) :
    Option field_t :=
  (id_of table F).map (fun id => .klass (sizes F) id)

/-- The last template argument `N` of `class2<T, U, N>`. -/
def class2_length (T : type_id) : Option Nat :=
  match T.name, T.arguments with
  | "class2", [_, _, .value n] => some n
  | _, _ => none

/-- `class3<double>` of `example/main.cpp`. -/
def class3_double : type_id := { name := "class3", arguments := [.type "double"] }

/-- `class3<int>` of `example/main.cpp`. -/
def class3_int : type_id := { name := "class3", arguments := [.type "int"] }

/-- The class ids declared in `example/main.cpp`: two conditional ids for `class2<T, U, N>`
(`N <= 2` and `N > 2`) and four explicit ones. -/
def example_ids : List id_binding :=
  [ .conditional (fun T => match class2_length T with
      | some n => decide (n ≤ 2)
      | none => false) 0x10000001,
    .conditional (fun T => match class2_length T with
      | some n => decide (n > 2)
      | none => false) 0x1000000F,
    .exact class3_double 0x10000002,
    .exact { name := "identified_struct", arguments := [] } 0x10000666,
    .exact { name := "with_private_fields", arguments := [] } 0x10000003,
    .exact { name := "all_mixed", arguments := [] } 0xABAC0 ]

/-- `sizeof` of the class types of `example/main.cpp` that occur as fields (x86-64). -/
def example_sizes (T : type_id) : Nat :=
  if T = class3_double then 8 else if T = class3_int then 4 else 8

/-- `struct with_classes` of `example/main.cpp` on x86-64: 104 bytes, no class id. -/
def with_classes : class_t := { sizeof := 104, id := 0 }

/-- `ML_GLOBAL_REGISTER_FIELD(simple_types, b, "simple_types", "other_b_name")`: the same
`unsigned char` at offset 4 under a second display name. -/
def other_b_name : registration :=
  .field (.arithmetic .unsigned_char) 4 "simple_types" ⟨4800, "other_b_name"⟩ 0 "main.cpp" 206

/-- What a test reads off a layout: name, id, `firstbit`, `lastbit`, number of fields. -/
def layout_summary (st : class_state) : String × Nat × Nat × Nat × Nat :=
  (st.layout.name, st.layout.id, st.layout.firstbit, st.layout.lastbit,
    st.layout.fields.length)

/-- The states after each call of a sequence, in order. -/
def trace_all (P : platform) (C : class_t) : class_state → List registration → List class_state
  | _, [] => []
  | st, r :: rest => state_of (r.run P C st) :: trace_all P C (state_of (r.run P C st)) rest

/-- `ML_REGISTER_FIELD(simple_types, c, "simple_types", "c")`: the `short` at offset 6,
announced with the name of the class. -/
def named_second : registration :=
  .field (.arithmetic .short) 6 "simple_types" ⟨4100, "c"⟩ 0 "main.cpp" 212

/-! ## Indexable items -/

/-- The end bit of an item: the last entry of its `ranges`. -/
def item_t.end_bit (it : item_t) : Nat := it.ranges.getLastD 0

mutual
/-- All items below an item: its children, their children, and so on. -/
def item_t.descendants : item_t → List item_t
  | .mk _ _ items _ => descendants_of items
/-- The items of a list together with everything below them. -/
def descendants_of : List item_t → List item_t
  | [] => []
  | it :: rest => it :: (item_t.descendants it ++ descendants_of rest)
end

/-- The maximum end bit over a list of items (0 for the empty list). -/
def max_end_bit (its : List item_t) : Nat := (its.map item_t.end_bit).foldr max 0

mutual
/-- The shape of the item produced for a field of static type `F`, at every nesting depth:
an indexable type of arity `N` gives a `container` item with count `N`, `N` children, one
range pair, and an end bit that is the maximum end bit over everything below it; its
children have the shape of their own element types. -/
def indexable_shape : field_t → item_t → Prop
  | .container elems, it =>
    it.category = .container ∧ it.data = .container elems.length
      ∧ it.items.length = elems.length ∧ it.ranges.length = 2
      ∧ it.end_bit = max_end_bit it.descendants
      ∧ indexable_shapes elems it.items
  | .arithmetic _, _ => True
  | .pointer, _ => True
  | .klass _ _, _ => True
/-- Element by element, the children have the shape of the element types. -/
def indexable_shapes : List (Nat × field_t) → List item_t → Prop
  | [], [] => True
  | (_, t) :: es, it :: its => indexable_shape t it ∧ indexable_shapes es its
  | [], _ :: _ => False
  | _ :: _, [] => False
end

/-- The elements of a fixed array of `N` elements of arithmetic type `t` and size `s`:
element `i` lies `i * s` bytes into the array. -/
def array_elems (N s : Nat) (t : arith_t) : List (Nat × field_t) :=
  (List.range N).map (fun i => (i * s, .arithmetic t))

/-- A `struct` whose only member is `char a[4]`: 4 bytes. -/
def four_chars : class_t := { sizeof := 4, id := 0 }

/-- `pair<tuple<char, float, double>, tuple<short>>`, the type of `complex_types::b`, as
libstdc++ lays it out on x86-64: the first tuple stores its elements in reverse order. -/
def pair_of_tuples : field_t :=
  .container
    [ (0, .container [(12, .arithmetic .char), (8, .arithmetic .float), (0, .arithmetic .double)]),
      (16, .container [(0, .arithmetic .short)]) ]

/-- `struct complex_types` of `example/main.cpp` on x86-64: 88 bytes, no class id. -/
def complex_types : class_t := { sizeof := 88, id := 0 }

/-! ## Class ids that overlap -/

/-- Two conditional class ids for `class2<T, U, N>` whose conditions overlap, declared in
this order: `N <= 2` with id `0x10000001`, then `N <= 5` with id `0x1000000F`. -/
def overlapping_ids : List id_binding :=
  [ .conditional (fun T => match class2_length T with
      | some n => decide (n ≤ 2)
      | none => false) 0x10000001,
    .conditional (fun T => match class2_length T with
      | some n => decide (n ≤ 5)
      | none => false) 0x1000000F ]

/-- The conditional id of `class2<T, U, N>` for `N <= 2`, followed by an explicit id for
`class2<double, int, 2>`. -/
def exact_after_conditional : List id_binding :=
  [ .conditional (fun T => match class2_length T with
      | some n => decide (n ≤ 2)
      | none => false) 0x10000001,
    .exact class2_double_int_2 0x10000777 ]

/-! ## Counting the calls of the probe -/

/-- The scan loop of `register_bitfield` with a counter: the state the loop ends in, and
the number of iterations that were entered. Each iteration calls `_setter` once and
`_getter` once. -/
def probe_loop_counted (P : platform) (C : class_t) (F : arith_t) (_getter : List Nat → Int)
    (_setter : List Nat → Int → List Nat) : Nat → Nat → probe_state → probe_state × Nat
  | 0, _, s => (s, 0)
  | left + 1, offset, s =>
    if width_exceeded P C F _getter _setter offset then
      ({ s with ranges := s.ranges ++ [s.curr_bit, s.last_bit] }, 1)
    else if probe_position P C F _setter offset ≠ -1 then
      if Int.natAbs (to_signed 64
            (size_sub (probe_position P C F _setter offset).toNat s.last_bit)) > 1 then
        ((probe_loop_counted P C F _getter _setter left (offset + 1)
            { curr_bit := (probe_position P C F _setter offset).toNat,
              last_bit := (probe_position P C F _setter offset).toNat,
              ranges := s.ranges ++ [s.curr_bit, s.last_bit] }).1,
          (probe_loop_counted P C F _getter _setter left (offset + 1)
            { curr_bit := (probe_position P C F _setter offset).toNat,
              last_bit := (probe_position P C F _setter offset).toNat,
              ranges := s.ranges ++ [s.curr_bit, s.last_bit] }).2 + 1)
      else
        ((probe_loop_counted P C F _getter _setter left (offset + 1)
            { s with last_bit := (probe_position P C F _setter offset).toNat }).1,
          (probe_loop_counted P C F _getter _setter left (offset + 1)
            { s with last_bit := (probe_position P C F _setter offset).toNat }).2 + 1)
    else
      ((probe_loop_counted P C F _getter _setter left (offset + 1) s).1,
        (probe_loop_counted P C F _getter _setter left (offset + 1) s).2 + 1)

/-- What one call of `register_bitfield` costs: iterations of the scan loop, calls of
`_setter`, calls of `_getter`. -/
structure probe_calls where
  iterations : Nat
  setter_calls : Nat
  getter_calls : Nat
  deriving DecidableEq, Repr

/-- The calls made by one `register_bitfield<CLASS, FIELD>`: none when the name is a
duplicate, one `_setter` call when the first write sets no bit, and otherwise that call
plus one `_setter` and one `_getter` call for every iteration of the scan loop. -/
def register_bitfield_calls (P : platform) (C : class_t) (F : arith_t) (st : class_state)
    (_classname : String) (_fieldname : c_str) (_user_data : Nat)
    (_getter : List Nat → Int) (_setter : List Nat → Int → List Nat)
    (_file : String) (_line : Nat) : probe_calls :=
  match setup_class_field C st _classname _fieldname _user_data _file _line with
  | (none, _) => { iterations := 0, setter_calls := 0, getter_calls := 0 }
  | (some _, _) =>
    if get_first_bit_position (_setter (zeroed C) (static_cast P F 1))
        (to_signed 32 C.sizeof) = -1 then
      { iterations := 0, setter_calls := 1, getter_calls := 0 }
    else
      { iterations := (probe_loop_counted P C F _getter _setter (8 * sizeof_arith P F - 1) 1
          { curr_bit := (get_first_bit_position (_setter (zeroed C) (static_cast P F 1))
              (to_signed 32 C.sizeof)).toNat,
            last_bit := (get_first_bit_position (_setter (zeroed C) (static_cast P F 1))
              (to_signed 32 C.sizeof)).toNat,
            ranges := [] }).2,
        setter_calls := 1 + (probe_loop_counted P C F _getter _setter
          (8 * sizeof_arith P F - 1) 1
          { curr_bit := (get_first_bit_position (_setter (zeroed C) (static_cast P F 1))
              (to_signed 32 C.sizeof)).toNat,
            last_bit := (get_first_bit_position (_setter (zeroed C) (static_cast P F 1))
              (to_signed 32 C.sizeof)).toNat,
            ranges := [] }).2,
        getter_calls := (probe_loop_counted P C F _getter _setter (8 * sizeof_arith P F - 1) 1
          { curr_bit := (get_first_bit_position (_setter (zeroed C) (static_cast P F 1))
              (to_signed 32 C.sizeof)).toNat,
            last_bit := (get_first_bit_position (_setter (zeroed C) (static_cast P F 1))
              (to_signed 32 C.sizeof)).toNat,
            ranges := [] }).2 }

/-! ## Members declared as references -/

/-- `decltype(CLASS::field)`, which the macros pass on as `FIELD`: the type of the member,
or a reference to it when the member is declared as a reference. -/
inductive declared_t (α : Type) where
  | object (F : α)
  | reference (F : α)

/-- `is_reference<FIELD>::value`. -/
def is_reference {α : Type} : declared_t α → Bool
  | .object _ => false
  | .reference _ => true

/-- The `if_ref` overload of `register_field<CLASS, FIELD>`. Its body is
`static_assert(!is_reference<FIELD>::value, ...); return false;` and uses none of the
parameters: where the assertion fails there is no instantiation (`none`). -/
def register_field_ref (D : declared_t field_t) (st : class_state) :
    Option (Bool × class_state) :=
  if is_reference D = false then some (false, st) else none

/-- `register_field<CLASS, FIELD>` for a `FIELD` as declared: overload resolution takes a
reference to the `if_ref` overload and every other type to the overload of its kind. -/
def register_field_declared (P : platform) (C : class_t) (D : declared_t field_t)
    (st : class_state) (_offset : Nat) (_classname : String) (_fieldname : c_str)
    (_user_data : Nat) (_file : String) (_line : Nat) : Option (Bool × class_state) :=
  match D with
  | .object F => register_field P C F st _offset _classname _fieldname _user_data _file _line
  | .reference F => register_field_ref (.reference F) st

/-- The `if_ref` overload of `register_bitfield<CLASS, FIELD>`. Its body consists of two
assertions and has no `return` statement; the second assertion,
`!is_reference<FIELD>::value`, fails for every `FIELD` that selects the overload, so there
is no instantiation and no value. -/
def register_bitfield_ref (_D : declared_t arith_t) : Option (Bool × class_state) := none

/-- `register_bitfield<CLASS, FIELD>` for a `FIELD` as declared. -/
def register_bitfield_declared (P : platform) (C : class_t) (D : declared_t arith_t)
    (st : class_state) (_classname : String) (_fieldname : c_str) (_user_data : Nat)
    (_getter : List Nat → Int) (_setter : List Nat → Int → List Nat)
    (_file : String) (_line : Nat) : Option (Bool × class_state) :=
  match D with
  | .object F =>
    register_bitfield P C F st _classname _fieldname _user_data _getter _setter _file _line
  | .reference F => register_bitfield_ref (.reference F)

/-- A `struct` with the members `int a; int& r;` on x86-64: 16 bytes. -/
def with_reference : class_t := { sizeof := 16, id := 0 }

/-! ## `decode_arithmetic` -/

/-- `decode_arithmetic(_enc)`; a `switch` that matches no `case` falls through to
`return "undefined"`. -/
def decode_arithmetic (_enc : Nat) : String :=
  let XX := _enc &&& 0b00000011
  let Y := (_enc &&& 0b00000100) >>> 2
  let ZZZ := (_enc &&& 0b00111000) >>> 3
  let W := (_enc &&& 0b01000000) >>> 6
  match XX with
  | 0 => "bool"
  | 1 =>
    if ZZZ = 0 then
      if W ≠ 0 then "char8_t"
      else
        match Y with
        | 0 => "char"
        | 1 => "unsigned char"
        | _ => "undefined"
    else
      if W = 0 then "wchar_t"
      else
        match ZZZ with
        | 1 => "char16_t"
        | 2 => "char32_t"
        | _ => "undefined"
  | 2 =>
    match ZZZ with
    | 0 => if Y ≠ 0 then "uint8_t" else "int8_t"
    | 1 => if Y ≠ 0 then "uint16_t" else "int16_t"
    | 2 => if Y ≠ 0 then "uint32_t" else "int32_t"
    | 3 => if Y ≠ 0 then "uint64_t" else "int64_t"
    | _ => "undefined"
  | 3 =>
    match ZZZ with
    | 2 => "float"
    | 3 => "double"
    | 4 => "long double"
    | _ => "undefined"
  | _ => "undefined"

/-- The name under which a type is expected to come back from `decode_arithmetic`, given
its signedness and size on the target: the integer types, `signed char` and `unsigned
char` among them, by size and sign; plain `char` as `char` or `unsigned char`; a real type
by its size. -/
def decoded_name (t : arith_t) (signed : Bool) (size : Nat) : String :=
  match t with
  | .bool => "bool"
  | .char => if signed then "char" else "unsigned char"
  | .wchar_t => "wchar_t"
  | .char16_t => "char16_t"
  | .char32_t => "char32_t"
  | .float | .double | .long_double =>
    if size = 4 then "float" else if size = 8 then "double" else "long double"
  | _ =>
    if size = 1 then (if signed then "int8_t" else "uint8_t")
    else if size = 2 then (if signed then "int16_t" else "uint16_t")
    else if size = 4 then (if signed then "int32_t" else "uint32_t")
    else (if signed then "int64_t" else "uint64_t")

/-- The sizes the 64-bit targets give to the three types whose size they choose: a
`wchar_t` of 2 or 4 bytes, a `long` of 4 or 8 bytes, a `long double` of 8 or 16 bytes. -/
def usual_sizes (P : platform) : Prop :=
  (P.sizeof_wchar_t = 2 ∨ P.sizeof_wchar_t = 4) ∧ (P.sizeof_long = 4 ∨ P.sizeof_long = 8)
    ∧ (P.sizeof_long_double = 8 ∨ P.sizeof_long_double = 16)

instance (P : platform) : Decidable (usual_sizes P) := inferInstanceAs (Decidable (_ ∧ _))

/-- AArch64 Linux: plain `char` and `wchar_t` are unsigned. -/
def aarch64 : platform where
  char_is_signed := false
  wchar_t_is_signed := false
  sizeof_wchar_t := 4
  sizeof_long := 8
  sizeof_long_double := 16
  shl_out_of_range := fun n => 2 ^ (n % 32)

/-- The sizes a type can have on a target with `usual_sizes`. -/
def admissible_size (t : arith_t) (size : Nat) : Bool :=
  match t with
  | .bool | .char | .signed_char | .unsigned_char => size == 1
  | .wchar_t => size == 2 || size == 4
  | .char16_t | .short | .unsigned_short => size == 2
  | .char32_t | .int | .unsigned_int | .float => size == 4
  | .long | .unsigned_long => size == 4 || size == 8
  | .long_long | .unsigned_long_long | .double => size == 8
  | .long_double => size == 8 || size == 16

/-- The arithmetic types, in the order of their declaration. -/
def all_arith : List arith_t :=
  [.bool, .char, .signed_char, .unsigned_char, .wchar_t, .char16_t, .char32_t,
   .short, .unsigned_short, .int, .unsigned_int, .long, .unsigned_long,
   .long_long, .unsigned_long_long, .float, .double, .long_double]

/-! ## Bits of a buffer -/

/-- Bit `k` of a byte buffer, bits being numbered lowest address first and, inside a byte,
lowest bit first: bit `k % 8` of byte `k / 8`. -/
def bit_set (buf : List Nat) (k : Nat) : Bool := (buf.getD (k / 8) 0).testBit (k % 8)

/-- What the inner loop of `get_first_bit_position` finds in a byte: nothing in a zero
byte, and otherwise the lowest bit that is set. -/
def byte_scan_ok (val : Nat) : Bool :=
  match first_bit_of_byte val with
  | none => val == 0
  | some i => val != 0 && val.testBit i && (List.range i).all (fun j => !val.testBit j)

/-! ## More registrations of `example/main.cpp` -/

/-- `ML_REGISTER_BITFIELD(with_bitfields, a)`: the bit-field `int a : 2`, which GCC puts on
bits 0 and 1 of the instance. -/
def bitfield_a : registration :=
  .bitfield .int "with_bitfields" ⟨4300, "a"⟩ 0 (bitfield_getter true (contiguous 0 2))
    (bitfield_setter (contiguous 0 2)) "main.cpp" 214

/-- A bit-field registration for `with_bitfields` under the name `z` whose setter leaves
the instance untouched. -/
def dead_z : registration :=
  .bitfield .int "with_bitfields" ⟨4500, "z"⟩ 0 dead_getter dead_setter "main.cpp" 3

/-- What a test reads off a field map: for each entry the characters of its name, its
user data, and the category and ranges of its item. -/
def field_summary (st : class_state) : List (String × Nat × item_category × List Nat) :=
  st.layout.fields.map (fun kv => (kv.1.text, kv.2.user_data, kv.2.item.category,
    kv.2.item.ranges))

def registration.user_data : registration → Nat
  | .field _ _ _ _ ud _ _ => ud
  | .bitfield _ _ _ ud _ _ _ _ => ud

def registration.file : registration → String
  | .field _ _ _ _ _ file _ => file
  | .bitfield _ _ _ _ _ _ file _ => file

def registration.line : registration → Nat
  | .field _ _ _ _ _ _ line => line
  | .bitfield _ _ _ _ _ _ _ line => line

/-- `struct all_mixed` of `example/main.cpp`. -/
def all_mixed_id : type_id := { name := "all_mixed", arguments := [] }

/-- `sizeof(all_mixed)` on x86-64 with libstdc++ (624 bytes) and its class id, declared by
`ML_REGISTER_CLASSID(all_mixed, 0xABAC0)`. -/
def all_mixed : class_t := { sizeof := 624, id := 0xABAC0 }

/-- `ML_GLOBAL_REGISTER_FIELD(all_mixed, g)`: the `class2<simple_types, double, 2>` of 48
bytes at offset 152, whose class id is the conditional one for `N <= 2`. -/
def all_mixed_g : registration :=
  .field (.klass 48 0x10000001) 152 "all_mixed" ⟨5300, "g"⟩ 0 "main.cpp" 290

/-- `ML_GLOBAL_REGISTER_FIELD(all_mixed, h, 0xfabada)`: the `class2<simple_types, double, 4>`
of 64 bytes at offset 200, whose class id is the conditional one for `N > 2`. -/
def all_mixed_h : registration :=
  .field (.klass 64 0x1000000F) 200 "all_mixed" ⟨5310, "h"⟩ 0xfabada "main.cpp" 291

/-- `struct with_unions` of `example/main.cpp` on x86-64: 32 bytes, the union at offset 16. -/
def with_unions : class_t := { sizeof := 32, id := 0 }

/-- `ML_GLOBAL_REGISTER_FIELD(with_unions, b.f2)` on line 247: the `long double` at
offset 16. -/
def with_unions_f2 : registration :=
  .field (.arithmetic .long_double) 16 "with_unions" ⟨5400, "b.f2"⟩ 0 "main.cpp" 247

/-- The same announcement repeated on line 249; the compiler stores the two equal string
literals once, so the name is the same pointer. -/
def with_unions_f2_again : registration :=
  .field (.arithmetic .long_double) 16 "with_unions" ⟨5400, "b.f2"⟩ 0 "main.cpp" 249

/-- The message `add_duplication_error` builds for a rejected call. -/
def duplication_message (r : registration) : String :=
  "Duplicated field registration " ++ get_filtered_classname r.classname ++ "::"
    ++ r.fieldname.text

/-- A registration of `simple_types::b` whose name has the characters of the name used by
`dup_first` and lies at another address, as a string built at run time or a literal of
another translation unit does. -/
def dup_elsewhere : registration :=
  .field (.arithmetic .unsigned_char) 4 "simple_types" ⟨8192, "b"⟩ 0 "other.cpp" 10

/-- What a test reads off a sequence of calls: the flags returned, the entries of the field
map and the number of errors. -/
def calls_report (r : Option (List Bool × class_state)) :
    Option (List Bool × List (String × Nat × item_category × List Nat) × Nat) :=
  r.map (fun x => (x.1, field_summary x.2, x.2.errors.length))

/-- A `struct` with the members `int a; std::tuple<> t;` on x86-64: 8 bytes, the empty
tuple at offset 4. -/
def with_empty_tuple : class_t := { sizeof := 8, id := 0 }

/-- `ML_REGISTER_FIELD(with_empty_tuple, t)`: `std::tuple<>` is an indexable type with
`container_size` 0. -/
def empty_tuple_t : registration :=
  .field (.container []) 4 "with_empty_tuple" ⟨5500, "t"⟩ 0 "main.cpp" 1

/-! ## The maximum over one level -/

/-- The maximum, over the direct children of an item, of the end bit each child has stored
for itself (0 when there are no children). -/
def one_level_max (it : item_t) : Nat := max_end_bit it.items

/-! ## `example/tojson.cpp` -/

/-- `get_arithmetic_type(_enc)` of `tojson.cpp`; a `switch` that matches no `case` falls
through to `return "undefined"`. -/
def get_arithmetic_type (_enc : Nat) : String :=
  let XX := _enc &&& 0b00000011
  let Y := (_enc &&& 0b00000100) >>> 2
  let ZZZ := (_enc &&& 0b00111000) >>> 3
  let W := (_enc &&& 0b01000000) >>> 6
  match XX with
  | 0 => "bool"
  | 1 =>
    if ZZZ = 0 then
      if W ≠ 0 then "char8_t"
      else
        match Y with
        | 0 => "char"
        | 1 => "unsigned char"
        | _ => "undefined"
    else
      if W = 0 then "wchar_t"
      else
        match ZZZ with
        | 1 => "char16_t"
        | 2 => "char32_t"
        | _ => "undefined"
  | 2 =>
    match ZZZ with
    | 0 => if Y ≠ 0 then "uint8_t" else "int8_t"
    | 1 => if Y ≠ 0 then "uint16_t" else "int16_t"
    | 2 => if Y ≠ 0 then "uint32_t" else "int32_t"
    | 3 => if Y ≠ 0 then "uint64_t" else "int64_t"
    | _ => "undefined"
  | 3 =>
    match ZZZ with
    | 2 => "float"
    | 3 => "double"
    | 4 => "long double"
    | _ => "undefined"
  | _ => "undefined"

/-- What a loop that indexes a vector comes to: a value, a read at an index the vector
does not have (which is undefined), or no end within the iterations allowed. -/
inductive read_result (α : Type) where
  | value (v : α)
  | out_of_bounds (index : Nat)
  | unfinished
  deriving DecidableEq, Repr

/-- The first loop of `to_json(const item_t&)`,
`for (auto i = 0u; i < nranges - 1; i += 2) size += ranges[i+1] - ranges[i] + 1;`
entered at `i` with `size`. `nranges - 1` is computed in `size_t`, `i` is an `unsigned`.
`fuel` bounds the number of iterations. -/
def size_loop (ranges : List Nat) : Nat → Nat → Nat → read_result Nat
  | 0, i, size => if i < size_sub ranges.length 1 then .unfinished else .value size
  | fuel + 1, i, size =>
    if i < size_sub ranges.length 1 then
      match ranges[i + 1]?, ranges[i]? with
      | some e, some s =>
        size_loop ranges fuel ((i + 2) % 2 ^ 32) (size_add size (size_add (size_sub e s) 1))
      | none, _ => .out_of_bounds (i + 1)
      | some _, none => .out_of_bounds i
    else .value size

/-- The size `to_json(const item_t&)` prints for an item, with the key it prints it under:
`"bits"` for a bit-field, and `"bytes"` with the size divided by 8 for everything else. The
loop is given one iteration more than the vector has entries. -/
def to_json_size (it : item_t) : read_result (String × Nat) :=
  match size_loop it.ranges (it.ranges.length + 1) 0 0 with
  | .value size => .value (if it.category = .bitfield then ("bits", size) else ("bytes", size / 8))
  | .out_of_bounds i => .out_of_bounds i
  | .unfinished => .unfinished

/-- The item stored under a field name, if there is one. -/
def item_of (st : class_state) (k : c_str) : Option item_t :=
  (map_find k st.layout.fields).map (fun info => info.item)

/-- One thing `type_iterator` appends to the report: the object `to_json(layout)` of a
class, given by the name of the layout, or the separator `", "`. -/
inductive report_piece where
  | class_object (name : String)
  | separator
  deriving DecidableEq, Repr

/-- `type_iterator<T, TS...>::operator()(_out)` of `tojson.h`: what it appends to `_out`
for the type list `T, TS...`. -/
def type_iterator (reg : registry) : List type_id → List report_piece
  | [] => []
  | T :: TS =>
    (if (get_layout (reg T)).name ≠ "" then
      report_piece.class_object (get_layout (reg T)).name
        :: (if TS.length ≠ 0 then [report_piece.separator] else [])
    else []) ++ type_iterator reg TS

/-- `struct simple_types` of `example/main.cpp`. -/
def simple_types_id : type_id := { name := "simple_types", arguments := [] }

/-- `struct anonymous_struct` of `example/main.cpp`. -/
def anonymous_struct_id : type_id := { name := "anonymous_struct", arguments := [] }

/-- `sizeof` and `id_of` of `simple_types` (32 bytes) and `anonymous_struct` (4 bytes) on
x86-64; every other type counts as a 4-byte class without id. -/
def report_classes (T : type_id) : class_t :=
  if T = simple_types_id then simple_types else { sizeof := 4, id := 0 }

/-- The registry after `ML_GLOBAL_REGISTER_FIELD(simple_types, b)` and no call for any
other type. -/
def only_simple_types : registry :=
  registry_of (registry.run lp64 report_classes registry.init simple_types_id dup_first)

/-- The pieces that are class objects. -/
def class_objects (ps : List report_piece) : List String :=
  ps.filterMap (fun p =>
    match p with
    | .class_object n => some n
    | .separator => none)

/-! ## Class ids: partial specialisations that are ordered -/

/-- The conditional ids of a table that match `T`, from position `i` of the table on: for
each one its position in the table and its id. -/
def matching_from (T : type_id) : Nat → List id_binding → List (Nat × Nat)
  | _, [] => []
  | i, .exact _ _ :: rest => matching_from T (i + 1) rest
  | i, .conditional applies id :: rest =>
    if applies T then (i, id) :: matching_from T (i + 1) rest
    else matching_from T (i + 1) rest

/-- The partial specialisations of `id_of` that match `T`, by position in the table. -/
def matching_positions (table : List id_binding) (T : type_id) : List (Nat × Nat) :=
  matching_from T 0 table

/-- Among the matching partial specialisations, those that are more specialised than all
the others. `more_specialized i j` is the partial ordering the compiler derives from the
patterns of the specialisations at positions `i` and `j` of the table. -/
def most_specialized (more_specialized : Nat → Nat → Bool) (cands : List (Nat × Nat)) :
    List (Nat × Nat) :=
  cands.filter (fun c => cands.all (fun d => d.1 == c.1 || more_specialized c.1 d.1))

/-- `id_of<T>::value` as the compiler selects it when partial specialisations may be
ordered: the explicit specialisation if there is one; else, with no matching partial
specialisation, the primary template with value 0; else the matching partial
specialisation that is more specialised than all the other matching ones. `none` when the
program is ill-formed: an explicit specialisation defined twice, or no matching partial
specialisation that is more specialised than all the others. -/
def id_of_ordered (more_specialized : Nat → Nat → Bool) (table : List id_binding)
    (T : type_id) : Option Nat :=
  match exact_ids table T with
  | [id] => some id
  | _ :: _ :: _ => none
  | [] =>
    match matching_positions table T with
    | [] => some 0
    | c :: cs =>
      match most_specialized more_specialized (c :: cs) with
      | [m] => some m.2
      | _ => none

/-- A table in which no partial specialisation is more specialised than another, as when
they differ in their condition only. -/
def unordered (_i _j : Nat) : Bool := false

/-- `class3<int*>`. -/
def class3_int_ptr : type_id := { name := "class3", arguments := [.type "int*"] }

/-- `ML_REGISTER_CLASSID(class3<T>, 0x30000001, typename T)` followed by
`ML_REGISTER_CLASSID(class3<T*>, 0x30000002, typename T)`: two partial specialisations of
`id_of` that both match `class3<int*>`. -/
def class3_ids : List id_binding :=
  [ .conditional (fun T => match T.name, T.arguments with
      | "class3", [.type _] => true
      | _, _ => false) 0x30000001,
    .conditional (fun T => match T.name, T.arguments with
      | "class3", [.type s] => s.toList.getLast? == some '*'
      | _, _ => false) 0x30000002 ]

/-- The partial ordering of `class3_ids`: the pattern `class3<T*>` at position 1 is more
specialised than the pattern `class3<T>` at position 0. -/
def class3_order (i j : Nat) : Bool := i == 1 && j == 0

/-! ## Duplicates announced under other texts -/

/-- A second registration for `simple_types` under a name with the characters `b` that lies
at another address than the name of `dup_first`: the `double` at offset 8, with user data
7. -/
def dup_other_address : registration :=
  .field (.arithmetic .double) 8 "simple_types" ⟨8200, "b"⟩ 7 "other.cpp" 11

/-- `ML_GLOBAL_REGISTER_FIELD(simple_types, b, "other_name", "b")`: `simple_types::b`
announced again under the name of `dup_first` (the same pointer) with another class-name
text. -/
def dup_other_classname : registration :=
  .field (.arithmetic .unsigned_char) 4 "other_name" ⟨4096, "b"⟩ 0 "main.cpp" 205

/-! ## The field map -/

theorem map_find_place_self (k : c_str) (v : field_info_t) (m : List (c_str × field_info_t))
    (h : map_find k m = none) : map_find k (map_place k v m) = some v := by
  induction m with
  | nil => simp [map_place, map_find]
  | cons e rest ih =>
    obtain ⟨k1, v1⟩ := e
    simp only [map_find] at h
    by_cases h1 : k1.addr = k.addr
    · simp [h1] at h
    · simp only [h1, if_false] at h
      simp only [map_place]
      by_cases h2 : k.addr < k1.addr
      · simp [h2, map_find]
      · simp [h2, map_find, h1, ih h]

theorem map_find_place_other (k k1 : c_str) (v : field_info_t)
    (m : List (c_str × field_info_t)) (h : k1.addr ≠ k.addr) :
    map_find k (map_place k1 v m) = map_find k m := by
  induction m with
  | nil => simp [map_place, map_find, h]
  | cons e rest ih =>
    obtain ⟨k2, v2⟩ := e
    simp only [map_place]
    by_cases h2 : k1.addr < k2.addr
    · simp [h2, map_find, h]
    · simp [h2, map_find, ih]

theorem map_find_addr (k k1 : c_str) (m : List (c_str × field_info_t))
    (h : k1.addr = k.addr) : map_find k1 m = map_find k m := by
  induction m with
  | nil => rfl
  | cons e rest ih => simp [map_find, h, ih]

theorem map_find_set_other (k k1 : c_str) (it : item_t) (m : List (c_str × field_info_t))
    (h : k1.addr ≠ k.addr) : map_find k (map_set_item k1 it m) = map_find k m := by
  induction m with
  | nil => rfl
  | cons e rest ih =>
    obtain ⟨k2, v2⟩ := e
    simp only [map_set_item]
    by_cases h2 : k2.addr = k1.addr
    · have h3 : k2.addr ≠ k.addr := by omega
      rw [if_pos h2]
      simp only [map_find, if_neg h3]
    · rw [if_neg h2]
      by_cases h3 : k2.addr = k.addr
      · simp only [map_find, if_pos h3]
      · simp only [map_find, if_neg h3, ih]

theorem map_find_set_self (k : c_str) (it : item_t) (m : List (c_str × field_info_t))
    (v : field_info_t) (h : map_find k m = some v) :
    map_find k (map_set_item k it m) = some { v with item := it } := by
  induction m with
  | nil => simp [map_find] at h
  | cons e rest ih =>
    obtain ⟨k2, v2⟩ := e
    simp only [map_find] at h
    simp only [map_set_item]
    by_cases h2 : k2.addr = k.addr
    · simp only [h2, if_true] at h
      cases h
      simp [h2, map_find]
    · simp only [h2, if_false] at h
      simp [h2, map_find, ih h]

theorem update_extent_fields (r : List Nat) (l : class_layout) :
    (update_extent r l).fields = l.fields := by
  induction r, l using update_extent.induct with
  | case1 a b rest layout ih => rw [update_extent, ih]
  | case2 r layout h => rw [update_extent]; intro a b rest hr; exact h a b rest hr

theorem update_extent_name (r : List Nat) (l : class_layout) :
    (update_extent r l).name = l.name := by
  induction r, l using update_extent.induct with
  | case1 a b rest layout ih => rw [update_extent, ih]
  | case2 r layout h => rw [update_extent]; intro a b rest hr; exact h a b rest hr

theorem update_extent_id (r : List Nat) (l : class_layout) :
    (update_extent r l).id = l.id := by
  induction r, l using update_extent.induct with
  | case1 a b rest layout ih => rw [update_extent, ih]
  | case2 r layout h => rw [update_extent]; intro a b rest hr; exact h a b rest hr

/-! ## Registration and the field map -/

mutual
theorem register_item_fields (P : platform) :
    ∀ (F : field_t) (o : Nat) (it : item_t) (l : class_layout) (it1 : item_t)
      (l1 : class_layout), register_item P F o it l = some (it1, l1) → l1.fields = l.fields
  | .arithmetic t, o, it, l, it1, l1, h => by
    simp only [register_item] at h
    split at h
    · cases h
    · cases h; exact update_extent_fields _ _
  | .pointer, o, it, l, it1, l1, h => by
    simp only [register_item] at h
    cases h; exact update_extent_fields _ _
  | .klass sz id, o, it, l, it1, l1, h => by
    simp only [register_item] at h
    cases h; exact update_extent_fields _ _
  | .container elems, o, it, l, it1, l1, h => by
    simp only [register_item] at h
    split at h
    · cases h
    · rename_i items l2 hc
      cases h
      rw [update_extent_fields]
      exact register_container_fields P elems o l items l2 hc
theorem register_container_fields (P : platform) :
    ∀ (es : List (Nat × field_t)) (o : Nat) (l : class_layout) (its : List item_t)
      (l1 : class_layout), register_container P es o l = some (its, l1) → l1.fields = l.fields
  | [], o, l, its, l1, h => by
    simp only [register_container] at h
    cases h; rfl
  | (eo, t) :: rest, o, l, its, l1, h => by
    simp only [register_container] at h
    split at h
    · cases h
    · rename_i child l2 hi
      split at h
      · cases h
      · rename_i children l3 hr
        cases h
        rw [register_container_fields P rest o l2 children l1 hr]
        exact register_item_fields P t _ _ l child l2 hi
end

theorem setup_class_field_present (C : class_t) (st : class_state) (cn : String) (fn : c_str)
    (ud : Nat) (file : String) (line : Nat) (v : field_info_t)
    (h : map_find fn st.layout.fields = some v) :
    ∃ st1, setup_class_field C st cn fn ud file line = (none, st1)
      ∧ st1.layout.fields = st.layout.fields
      ∧ st1.errors = List.insertionSort line_le (st.errors ++
          [(file, line,
            "Duplicated field registration " ++ get_filtered_classname cn ++ "::" ++ fn.text)]) := by
  unfold setup_class_field
  by_cases hn : st.layout.name = ""
  · simp [hn, map_insert, h, add_duplication_error, add_error]
  · simp [hn, map_insert, h, add_duplication_error, add_error]

theorem setup_class_field_absent (C : class_t) (st : class_state) (cn : String) (fn : c_str)
    (ud : Nat) (file : String) (line : Nat)
    (h : map_find fn st.layout.fields = none) :
    ∃ st1, setup_class_field C st cn fn ud file line
        = (some { user_data := ud, item := item_t.default }, st1)
      ∧ st1.layout.fields
          = map_place fn { user_data := ud, item := item_t.default } st.layout.fields
      ∧ st1.errors = st.errors := by
  unfold setup_class_field
  by_cases hn : st.layout.name = ""
  · simp [hn, map_insert, h]
  · simp [hn, map_insert, h]

theorem run_present (P : platform) (C : class_t) (st st1 : class_state) (r : registration)
    (b : Bool) (v : field_info_t) (hrun : r.run P C st = some (b, st1))
    (h : map_find r.fieldname st.layout.fields = some v) :
    b = false ∧ st1.layout.fields = st.layout.fields
      ∧ ∃ e, st1.errors = List.insertionSort line_le (st.errors ++ [e]) := by
  cases r with
  | field F o cn fn ud file line =>
    obtain ⟨st2, h1, h2, h3⟩ := setup_class_field_present C st cn fn ud file line v h
    simp only [registration.run, register_field, h1] at hrun
    cases hrun
    exact ⟨rfl, h2, _, h3⟩
  | bitfield F cn fn ud g s file line =>
    obtain ⟨st2, h1, h2, h3⟩ := setup_class_field_present C st cn fn ud file line v h
    simp only [registration.run, register_bitfield] at hrun
    split at hrun
    · cases hrun
    · split at hrun
      · cases hrun
      · simp only [h1] at hrun
        cases hrun
        exact ⟨rfl, h2, _, h3⟩

theorem run_find_other (P : platform) (C : class_t) (st st1 : class_state) (r : registration)
    (b : Bool) (k : c_str) (hrun : r.run P C st = some (b, st1))
    (hk : r.fieldname.addr ≠ k.addr) :
    map_find k st1.layout.fields = map_find k st.layout.fields := by
  cases hf : map_find r.fieldname st.layout.fields with
  | some v =>
    rw [(run_present P C st st1 r b v hrun hf).2.1]
  | none =>
    cases r with
    | field F o cn fn ud file line =>
      obtain ⟨st2, h1, h2, h3⟩ := setup_class_field_absent C st cn fn ud file line hf
      simp only [registration.run, register_field, h1] at hrun
      split at hrun
      · cases hrun
      · rename_i it l hi
        cases hrun
        simp only
        rw [map_find_set_other k fn _ _ hk, register_item_fields P F _ _ _ _ _ hi, h2,
          map_find_place_other k fn _ _ hk]
    | bitfield F cn fn ud g s file line =>
      obtain ⟨st2, h1, h2, h3⟩ := setup_class_field_absent C st cn fn ud file line hf
      simp only [registration.run, register_bitfield] at hrun
      split at hrun
      · cases hrun
      · split at hrun
        · cases hrun
        · simp only [h1] at hrun
          split at hrun
          · cases hrun
            simp only
            rw [map_find_set_other k fn _ _ hk, h2, map_find_place_other k fn _ _ hk]
          · cases hrun
            simp only
            rw [map_find_set_other k fn _ _ hk, h2, map_find_place_other k fn _ _ hk]

theorem run_find_self (P : platform) (C : class_t) (st st1 : class_state) (r : registration)
    (b : Bool) (hrun : r.run P C st = some (b, st1)) :
    ∃ v, map_find r.fieldname st1.layout.fields = some v := by
  cases hf : map_find r.fieldname st.layout.fields with
  | some v =>
    rw [(run_present P C st st1 r b v hrun hf).2.1]
    exact ⟨v, hf⟩
  | none =>
    cases r with
    | field F o cn fn ud file line =>
      obtain ⟨st2, h1, h2, h3⟩ := setup_class_field_absent C st cn fn ud file line hf
      simp only [registration.run, register_field, h1] at hrun
      split at hrun
      · cases hrun
      · rename_i it l hi
        cases hrun
        refine ⟨_, map_find_set_self fn _ _ { user_data := ud, item := item_t.default } ?_⟩
        rw [register_item_fields P F _ _ _ _ _ hi, h2]
        exact map_find_place_self fn _ _ hf
    | bitfield F cn fn ud g s file line =>
      obtain ⟨st2, h1, h2, h3⟩ := setup_class_field_absent C st cn fn ud file line hf
      simp only [registration.run, register_bitfield] at hrun
      split at hrun
      · cases hrun
      · split at hrun
        · cases hrun
        · simp only [h1] at hrun
          split at hrun
          · cases hrun
            refine ⟨_, map_find_set_self fn _ _ { user_data := ud, item := item_t.default } ?_⟩
            simp only [h2]
            exact map_find_place_self fn _ _ hf
          · cases hrun
            refine ⟨_, map_find_set_self fn _ _ { user_data := ud, item := item_t.default } ?_⟩
            simp only [h2]
            exact map_find_place_self fn _ _ hf

theorem run_keeps (P : platform) (C : class_t) (st st1 : class_state) (r : registration)
    (b : Bool) (k : c_str) (v : field_info_t) (hrun : r.run P C st = some (b, st1))
    (h : map_find k st.layout.fields = some v) :
    map_find k st1.layout.fields = some v := by
  by_cases hk : r.fieldname.addr = k.addr
  · have h1 : map_find r.fieldname st.layout.fields = some v := by
      rw [map_find_addr k r.fieldname _ hk]; exact h
    rw [(run_present P C st st1 r b v hrun h1).2.1]
    exact h
  · rw [run_find_other P C st st1 r b k hrun hk]
    exact h

theorem run_all_keeps (P : platform) (C : class_t) (rs : List registration) :
    ∀ (st st1 : class_state) (bs : List Bool) (k : c_str) (v : field_info_t),
      run_all P C st rs = some (bs, st1) → map_find k st.layout.fields = some v →
      map_find k st1.layout.fields = some v := by
  induction rs with
  | nil =>
    intro st st1 bs k v h hk
    simp only [run_all] at h
    cases h
    exact hk
  | cons r rest ih =>
    intro st st1 bs k v h hk
    simp only [run_all] at h
    split at h
    · cases h
    · rename_i b st2 hr
      split at h
      · cases h
      · rename_i bs2 st3 hrest
        cases h
        exact ih st2 st1 bs2 k v hrest (run_keeps P C st st2 r b k v hr hk)

/-! ## C1: duplicate rejection -/

/-- Duplicate rejection where the code performs it: two registration calls for the same
class whose field name is the same `_fieldname` pointer, which is what the map compares,
with any calls in between and whatever type, offset or user data the second one carries.
The second call returns `false`, the error list grows by exactly one entry, the field map
is left as it was, and the `field_info_t` found under the name is the one that was there
after the first call. -/
theorem duplicate_registration_rejected (P : platform) (C : class_t)
    (st0 st1 st2 st3 : class_state) (first second : registration)
    (between : List registration) (b1 b3 : Bool) (bs : List Bool)
    (hname : second.fieldname.addr = first.fieldname.addr)
    (h1 : first.run P C st0 = some (b1, st1))
    (h2 : run_all P C st1 between = some (bs, st2))
    (h3 : second.run P C st2 = some (b3, st3)) :
    b3 = false
      ∧ st3.errors.length = st2.errors.length + 1
      ∧ (∃ e, List.Perm st3.errors (st2.errors ++ [e]))
      ∧ st3.layout.fields = st2.layout.fields
      ∧ ∃ info, map_find first.fieldname st1.layout.fields = some info
          ∧ map_find first.fieldname st3.layout.fields = some info := by
  obtain ⟨info, hinfo⟩ := run_find_self P C st0 st1 first b1 h1
  have hmid := run_all_keeps P C between st1 st2 bs first.fieldname info h2 hinfo
  have hsec : map_find second.fieldname st2.layout.fields = some info := by
    rw [map_find_addr first.fieldname second.fieldname _ hname]; exact hmid
  obtain ⟨hb, hfields, e, herr⟩ := run_present P C st2 st3 second b3 info h3 hsec
  refine ⟨hb, ?_, ⟨e, ?_⟩, hfields, info, hinfo, ?_⟩
  · rw [herr, List.length_insertionSort]; simp
  · rw [herr]; exact List.perm_insertionSort _ _
  · rw [hfields]; exact hmid

set_option maxRecDepth 100000 in
/-- The rejection of a duplicate under the same pointer, at `simple_types::b` registered
twice, the second time as a `double` at offset 16 with user data 7. -/
theorem duplicate_registration_rejected_witness :
    false = false
      ∧ (state_of (dup_second.run lp64 simple_types
            (state_of (dup_first.run lp64 simple_types class_state.init)))).errors.length
          = (state_of (dup_first.run lp64 simple_types class_state.init)).errors.length + 1
      ∧ (∃ e, List.Perm
          (state_of (dup_second.run lp64 simple_types
            (state_of (dup_first.run lp64 simple_types class_state.init)))).errors
          ((state_of (dup_first.run lp64 simple_types class_state.init)).errors ++ [e]))
      ∧ (state_of (dup_second.run lp64 simple_types
            (state_of (dup_first.run lp64 simple_types class_state.init)))).layout.fields
          = (state_of (dup_first.run lp64 simple_types class_state.init)).layout.fields
      ∧ ∃ info,
          map_find dup_first.fieldname
              (state_of (dup_first.run lp64 simple_types class_state.init)).layout.fields
            = some info
          ∧ map_find dup_first.fieldname
              (state_of (dup_second.run lp64 simple_types
                (state_of (dup_first.run lp64 simple_types class_state.init)))).layout.fields
            = some info :=
  duplicate_registration_rejected lp64 simple_types class_state.init
    (state_of (dup_first.run lp64 simple_types class_state.init))
    (state_of (dup_first.run lp64 simple_types class_state.init))
    (state_of (dup_second.run lp64 simple_types
      (state_of (dup_first.run lp64 simple_types class_state.init))))
    dup_first dup_second [] true false [] rfl rfl rfl rfl

set_option maxRecDepth 100000 in
/-- C1 fails on the code: `simple_types::b` is registered, and then a `double` at offset 8
with user data 7 is registered for the same class under a name that has the same
characters `b` and lies at another address. The second call returns `true`, no error is
logged, and the field map holds a second entry named `b` with the item and the user data
of the second call. -/
theorem equal_name_at_other_address_accepted :
    dup_other_address.fieldname.text = dup_first.fieldname.text
      ∧ dup_other_address.fieldname.addr ≠ dup_first.fieldname.addr
      ∧ calls_report (run_all lp64 simple_types class_state.init [dup_first, dup_other_address])
        = some ([true, true],
            [("b", 0, .arithmetic, [32, 39]), ("b", 7, .arithmetic, [64, 127])], 0) := by
  refine ⟨rfl, by decide, rfl⟩

/-! ## C9, C10: plain fields and the descriptor byte -/

theorem byte_range_eq (o s : Nat) (hs : 1 ≤ s) (hfit : 8 * (o + s) ≤ 2 ^ 64) :
    byte_range o s = [8 * o, 8 * o + 8 * s - 1] := by
  simp only [byte_range, size_mul, size_add, size_sub]
  norm_num at hfit ⊢
  constructor <;> omega

theorem register_item_plain (P : platform) (F : field_t) (o s : Nat) (l l1 : class_layout)
    (it : item_t) (hs : plain_sizeof P F = some s)
    (h : register_item P F o item_t.default l = some (it, l1)) :
    it.ranges = byte_range o s ∧ it.category = plain_category F := by
  cases F with
  | arithmetic t =>
    simp only [plain_sizeof, Option.some.injEq] at hs
    simp only [register_item] at h
    split at h
    · cases h
    · cases h
      simp [item_t.ranges, item_t.category, item_t.default, plain_category, hs]
  | pointer =>
    simp only [plain_sizeof, Option.some.injEq] at hs
    simp only [register_item] at h
    cases h
    simp [item_t.ranges, item_t.category, item_t.default, plain_category, hs]
  | klass sz id =>
    simp only [plain_sizeof, Option.some.injEq] at hs
    simp only [register_item] at h
    cases h
    simp [item_t.ranges, item_t.category, item_t.default, plain_category, hs]
  | container es => simp [plain_sizeof] at hs

/-- C9. A field of arithmetic, pointer or non-indexable class type of `s ≥ 1` bytes,
registered successfully at byte offset `o` (the field ending inside the `2 ^ 64` bits a
`size_t` can number): the stored item has the single range `[8*o, 8*o + 8*s - 1]`, whose
end is not below its start, and the category of its overload; for a pointer `s` is
`sizeof_pointer`. -/
theorem single_range_rule (P : platform) (C : class_t) (F : field_t) (st st1 : class_state)
    (o s : Nat) (cn : String) (fn : c_str) (ud : Nat) (file : String) (line : Nat)
    (hsize : plain_sizeof P F = some s) (hs : 1 ≤ s) (hfit : 8 * (o + s) ≤ 2 ^ 64)
    (hrun : register_field P C F st o cn fn ud file line = some (true, st1)) :
    ∃ info, map_find fn st1.layout.fields = some info
      ∧ info.item.ranges = [8 * o, 8 * o + 8 * s - 1]
      ∧ 8 * o ≤ 8 * o + 8 * s - 1
      ∧ info.item.category = plain_category F
      ∧ (F = .pointer → s = sizeof_pointer) := by
  cases hf : map_find fn st.layout.fields with
  | some v =>
    obtain ⟨st2, h1, -, -⟩ := setup_class_field_present C st cn fn ud file line v hf
    simp [register_field, h1] at hrun
  | none =>
    obtain ⟨st2, h1, h2, -⟩ := setup_class_field_absent C st cn fn ud file line hf
    simp only [register_field, h1] at hrun
    split at hrun
    · cases hrun
    · rename_i it l hi
      cases hrun
      obtain ⟨hr, hc⟩ := register_item_plain P F o s _ _ it hsize hi
      refine ⟨{ user_data := ud, item := it }, ?_, ?_, by omega, hc, ?_⟩
      · have := map_find_set_self fn it l.fields { user_data := ud, item := item_t.default }
          (by rw [register_item_fields P F _ _ _ _ _ hi, h2]
              exact map_find_place_self fn _ _ hf)
        simpa using this
      · simp only [hr]; exact byte_range_eq o s hs hfit
      · intro hp; subst hp; simp [plain_sizeof] at hsize; omega

/-- `ML_GLOBAL_REGISTER_FIELD(with_pointers, b)`: the `int**` at offset 8. -/
theorem single_range_rule_witness :
    ∃ info, map_find ⟨4100, "b"⟩
        (state_of (register_field lp64 ⟨16, 0⟩ .pointer class_state.init 8 "with_pointers"
          ⟨4100, "b"⟩ 0 "main.cpp" 236)).layout.fields = some info
      ∧ info.item.ranges = [8 * 8, 8 * 8 + 8 * 8 - 1]
      ∧ 8 * 8 ≤ 8 * 8 + 8 * 8 - 1
      ∧ info.item.category = plain_category .pointer
      ∧ (field_t.pointer = .pointer → 8 = sizeof_pointer) :=
  single_range_rule lp64 ⟨16, 0⟩ .pointer class_state.init
    (state_of (register_field lp64 ⟨16, 0⟩ .pointer class_state.init 8 "with_pointers"
      ⟨4100, "b"⟩ 0 "main.cpp" 236))
    8 8 "with_pointers" ⟨4100, "b"⟩ 0 "main.cpp" 236 rfl (by decide) (by decide) rfl

theorem get_encoded_arithmetic_eq (P : platform) (t : arith_t) :
    get_encoded_arithmetic P t = descriptor_of t (is_signed P t) (sizeof_arith P t) := rfl

theorem descriptor_of_layout (t : arith_t) (signed : Bool) (size : Nat)
    (hsize : size ∈ [1, 2, 4, 8, 16]) :
    ∃ enc idx wide, descriptor_of t signed size = some enc
      ∧ 2 ^ idx = size ∧ wide ≤ 1
      ∧ enc = arithmetic_category t ||| ((if signed then 0 else 1) <<< 2)
                ||| (idx <<< 3) ||| (wide <<< 6)
      ∧ enc &&& 0b00000011 = arithmetic_category t
      ∧ (enc &&& 0b00000100) >>> 2 = (if signed then 0 else 1)
      ∧ (enc &&& 0b00111000) >>> 3 = idx
      ∧ (enc &&& 0b01000000) >>> 6 = wide
      ∧ enc &&& 0b10000000 = 0 := by
  refine ⟨(descriptor_of t signed size).getD 0,
    ((descriptor_of t signed size).getD 0 &&& 0b00111000) >>> 3,
    ((descriptor_of t signed size).getD 0 &&& 0b01000000) >>> 6, ?_⟩
  simp only [List.mem_cons, List.mem_singleton, List.not_mem_nil, or_false] at hsize
  rcases hsize with h | h | h | h | h <;> subst h <;> cases t <;> cases signed <;> decide

/-- C10. For every arithmetic type whose size is 1, 2, 4, 8 or 16 bytes the descriptor is
`category | (sign << 2) | (sizeIndex << 3) | (wide << 6)` with the category of the kind of
type, `sign = 0` for signed and `1` for unsigned types, `2 ^ sizeIndex = sizeof(T)` and
`wide` a single bit; the masks of `decode_arithmetic` give each facet back and bit 7 is
clear. -/
theorem descriptor_layout (P : platform) (t : arith_t)
    (hsize : sizeof_arith P t ∈ [1, 2, 4, 8, 16]) :
    ∃ enc idx wide, get_encoded_arithmetic P t = some enc
      ∧ 2 ^ idx = sizeof_arith P t ∧ wide ≤ 1
      ∧ enc = arithmetic_category t ||| ((if is_signed P t then 0 else 1) <<< 2)
                ||| (idx <<< 3) ||| (wide <<< 6)
      ∧ enc &&& 0b00000011 = arithmetic_category t
      ∧ (enc &&& 0b00000100) >>> 2 = (if is_signed P t then 0 else 1)
      ∧ (enc &&& 0b00111000) >>> 3 = idx
      ∧ (enc &&& 0b01000000) >>> 6 = wide
      ∧ enc &&& 0b10000000 = 0 := by
  rw [get_encoded_arithmetic_eq]
  exact descriptor_of_layout t (is_signed P t) (sizeof_arith P t) hsize

/-- C10 at `int` on x86-64, together with the registration of a 4-byte signed `int` at
offset 0: one arithmetic item with ranges `[0, 31]` and descriptor `0b00010010`. -/
theorem descriptor_layout_witness :
    (∃ enc idx wide, get_encoded_arithmetic lp64 .int = some enc
      ∧ 2 ^ idx = sizeof_arith lp64 .int ∧ wide ≤ 1
      ∧ enc = arithmetic_category .int ||| ((if is_signed lp64 .int then 0 else 1) <<< 2)
                ||| (idx <<< 3) ||| (wide <<< 6)
      ∧ enc &&& 0b00000011 = arithmetic_category .int
      ∧ (enc &&& 0b00000100) >>> 2 = (if is_signed lp64 .int then 0 else 1)
      ∧ (enc &&& 0b00111000) >>> 3 = idx
      ∧ (enc &&& 0b01000000) >>> 6 = wide
      ∧ enc &&& 0b10000000 = 0)
    ∧ get_encoded_arithmetic lp64 .int = some 0b00010010
    ∧ (state_of (register_field lp64 simple_types (.arithmetic .int) class_state.init 0
          "simple_types" ⟨4090, "a"⟩ 0 "main.cpp" 203)).layout.fields.map
        (fun kv => (kv.2.item.category, kv.2.item.data, kv.2.item.ranges))
      = [(.arithmetic, .encoded_arithmetic 0b00010010, [0, 31])] :=
  ⟨descriptor_layout lp64 .int (by decide), by decide, by decide⟩

/-! ## The first-set-bit scan -/

theorem to_signed_of_small (w : Nat) (n : Nat) (h : n < 2 ^ (w - 1)) (hw : 1 ≤ w) :
    to_signed w (n : Int) = n := by
  have h2 : (2 : Int) ^ w = 2 * 2 ^ (w - 1) := by
    have : w = (w - 1) + 1 := by omega
    conv_lhs => rw [this, pow_succ]
    ring
  have h3 : ((n : Int)) < 2 ^ (w - 1) := by exact_mod_cast h
  have h4 : (n : Int) % 2 ^ w = n := by
    apply Int.emod_eq_of_lt (by positivity)
    have : (0 : Int) < 2 ^ (w - 1) := by positivity
    omega
  simp only [to_signed, h4, h3, if_true]

theorem first_bit_of_byte_pow (r : Nat) (h : r < 8) : first_bit_of_byte (2 ^ r) = some r := by
  interval_cases r <;> decide

theorem scan_bytes_zero (n : Nat) : ∀ pc left : Nat, scan_bytes (bytes_of n 0) pc left = -1 := by
  induction n with
  | zero => intro pc left; cases left <;> simp [bytes_of, scan_bytes]
  | succ n ih =>
    intro pc left
    cases left with
    | zero => simp [scan_bytes]
    | succ left => simp [bytes_of, scan_bytes, ih]

theorem scan_bytes_pow (n : Nat) :
    ∀ (pc m : Nat), m < 8 * n → scan_bytes (bytes_of n (2 ^ m)) pc n = (pc : Int) * 8 + m := by
  induction n with
  | zero => intro pc m h; omega
  | succ n ih =>
    intro pc m h
    by_cases hm : m < 8
    · have h1 : 2 ^ m % 256 = 2 ^ m := by
        apply Nat.mod_eq_of_lt
        calc 2 ^ m < 2 ^ 8 := Nat.pow_lt_pow_right (by norm_num) hm
          _ = 256 := by norm_num
      have h2 : (2 : Nat) ^ m ≠ 0 := by positivity
      simp only [bytes_of, scan_bytes, h1, ne_eq, h2, not_false_eq_true, if_true,
        first_bit_of_byte_pow m hm]
    · have h1 : (2 : Nat) ^ m = 256 * 2 ^ (m - 8) := by
        have : m = 8 + (m - 8) := by omega
        conv_lhs => rw [this, pow_add]
        norm_num
      have h2 : 2 ^ m % 256 = 0 := by rw [h1]; exact Nat.mul_mod_right _ _
      have h3 : 2 ^ m / 256 = 2 ^ (m - 8) := by
        rw [h1]; exact Nat.mul_div_cancel_left _ (by norm_num)
      simp only [bytes_of, scan_bytes, h2, h3, ne_eq, not_true_eq_false, if_false]
      rw [ih (pc + 1) (m - 8) (by omega)]
      push_cast
      omega

theorem get_first_bit_position_pow (n m : Nat) (hn : n < 2 ^ 31) (hm : m < 8 * n) :
    get_first_bit_position (bytes_of n (2 ^ m)) (to_signed 32 (n : Int)) = m := by
  rw [to_signed_of_small 32 n (by simpa using hn) (by norm_num)]
  simp only [get_first_bit_position, Int.toNat_ofNat]
  rw [scan_bytes_pow n 0 m hm]
  simp

theorem get_first_bit_position_zero (n : Nat) (x : Int) :
    get_first_bit_position (bytes_of n 0) x = -1 := by
  simp only [get_first_bit_position, scan_bytes_zero]

theorem natAbs_distance (a b : Nat) (ha : a < 2 ^ 62) (hb : b < 2 ^ 62) :
    Int.natAbs (to_signed 64 ((size_sub a b : Nat) : Int)) = if b ≤ a then a - b else b - a := by
  simp only [to_signed, size_sub]
  norm_num at ha hb ⊢
  split <;> split <;> omega

/-! ## C3: contiguous bit-fields in storage of up to 32 bits -/

set_option maxRecDepth 1000000 in
theorem probe_arithmetic :
    ∀ w ∈ [8, 16, 32], ∀ signed ∈ [true, false], ∀ k < 33, ∀ i < 33,
      probe_arithmetic_check signed w k i = true := by
  decide

theorem probe_arithmetic_facts (signed : Bool) (w k i : Nat) (hw : w ∈ [8, 16, 32])
    (hk : 1 ≤ k) (hkw : k ≤ w) (hi : i < w) :
    (i < k → (cast_to signed w (2 ^ i) % 2 ^ k).toNat = 2 ^ i ∧ ¬ stops signed w k i)
      ∧ (i = k → (cast_to signed w (2 ^ i) % 2 ^ k).toNat = 0 ∧ stops signed w k i) := by
  have hw32 : w ≤ 32 := by
    simp only [List.mem_cons, List.mem_singleton, List.not_mem_nil, or_false] at hw
    omega
  have hs : signed ∈ [true, false] := by cases signed <;> simp
  have h := probe_arithmetic w hw signed hs k (by omega) i (by omega)
  exact of_decide_eq_true h hk hkw hi

theorem static_cast_eq (P : platform) (F : arith_t) (v : Int) (hF : F ≠ .bool) :
    static_cast P F v = cast_to (is_signed P F) (8 * sizeof_arith P F) v := by
  simp only [static_cast, cast_to, hF, if_false]

theorem shl_one_lt (P : platform) (i : Nat) (h : i < 32) : shl_one P i = 2 ^ i := by
  simp [shl_one, h]

/-- The scan over a field whose bit `i` is found at `s + i` for `i < k` and whose width is
noticed at `k`, when `k` is below the storage width `w`. -/
theorem probe_loop_contiguous (P : platform) (C : class_t) (F : arith_t)
    (g : List Nat → Int) (st : List Nat → Int → List Nat) (s k w : Nat)
    (hkw : k ≤ w) (hsmall : s + k < 2 ^ 62)
    (hgo : ∀ i, 1 ≤ i → i < k →
      ¬ width_exceeded P C F g st i ∧ probe_position P C F st i = ((s + i : Nat) : Int))
    (hstop : k < w → width_exceeded P C F g st k) :
    ∀ d i, k - i = d → 1 ≤ i → i ≤ k →
      (if (probe_loop P C F g st (w - i) i ⟨s, s + i - 1, []⟩).ranges.length = 0 then
          (probe_loop P C F g st (w - i) i ⟨s, s + i - 1, []⟩).ranges
            ++ [(probe_loop P C F g st (w - i) i ⟨s, s + i - 1, []⟩).curr_bit,
                (probe_loop P C F g st (w - i) i ⟨s, s + i - 1, []⟩).last_bit]
        else (probe_loop P C F g st (w - i) i ⟨s, s + i - 1, []⟩).ranges)
        = [s, s + k - 1] := by
  intro d
  induction d with
  | zero =>
    intro i hd h1 hik
    have hi : i = k := by omega
    subst hi
    by_cases hlt : i < w
    · obtain ⟨left, hleft⟩ : ∃ left, w - i = left + 1 := ⟨w - i - 1, by omega⟩
      rw [hleft]
      simp [probe_loop, hstop hlt]
    · have hz : w - i = 0 := by omega
      rw [hz]
      simp [probe_loop]
  | succ d ih =>
    intro i hd h1 hik
    have hlt : i < k := by omega
    obtain ⟨left, hleft⟩ : ∃ left, w - i = left + 1 := ⟨w - i - 1, by omega⟩
    obtain ⟨hno, hpos⟩ := hgo i h1 hlt
    have hne : probe_position P C F st i ≠ -1 := by rw [hpos]; omega
    have hdist : ¬ Int.natAbs (to_signed 64
        ((size_sub (probe_position P C F st i).toNat (s + i - 1) : Nat) : Int)) > 1 := by
      rw [hpos, Int.toNat_ofNat, natAbs_distance _ _ (by omega) (by omega)]
      split <;> omega
    have hnext := ih (i + 1) (by omega) (by omega) (by omega)
    have hl : w - (i + 1) = left := by omega
    rw [hl] at hnext
    rw [hleft]
    rw [probe_loop]
    simp only [hno, if_false, hne, ne_eq, not_false_eq_true, if_true, hdist]
    rw [hpos, Int.toNat_ofNat]
    have he : s + (i + 1) - 1 = s + i := by omega
    rw [he] at hnext
    exact hnext

theorem probe_ranges_contiguous (P : platform) (C : class_t) (F : arith_t)
    (g : List Nat → Int) (set : List Nat → Int → List Nat) (s k : Nat)
    (hF : F ≠ .bool) (hw : sizeof_arith P F ∈ [1, 2, 4])
    (hk : 1 ≤ k) (hkw : k ≤ 8 * sizeof_arith P F)
    (hfit : s + k ≤ 8 * C.sizeof) (hC : C.sizeof < 2 ^ 31)
    (hset : ∀ v, set (zeroed C) v = bytes_of C.sizeof ((v % 2 ^ k).toNat * 2 ^ s))
    (hget : ∀ v, g (set (zeroed C) v) = read_back (is_signed P F) k v) :
    get_first_bit_position (set (zeroed C) (static_cast P F 1)) (to_signed 32 C.sizeof) = s
      ∧ probe_ranges P C F g set s = [s, s + k - 1] := by
  have hW : 8 * sizeof_arith P F ∈ [8, 16, 32] := by
    simp only [List.mem_cons, List.mem_singleton, List.not_mem_nil, or_false] at hw ⊢
    omega
  have hW32 : 8 * sizeof_arith P F ≤ 32 := by
    simp only [List.mem_cons, List.mem_singleton, List.not_mem_nil, or_false] at hw
    omega
  have hn : C.sizeof < 2 ^ 31 := hC
  norm_num at hn
  have hcast : ∀ i, i < 8 * sizeof_arith P F →
      static_cast P F ((shl_one P i : Nat) : Int)
        = cast_to (is_signed P F) (8 * sizeof_arith P F) (2 ^ i) := by
    intro i hi
    rw [static_cast_eq P F _ hF, shl_one_lt P i (by omega)]
    push_cast
    rfl
  have hwrite : ∀ i, i < k → i < 8 * sizeof_arith P F →
      probe_write P C F set i = bytes_of C.sizeof (2 ^ (s + i)) := by
    intro i hik hi
    have hf := (probe_arithmetic_facts (is_signed P F) _ k i hW hk hkw hi).1 hik
    simp only [probe_write, hset, hcast i hi, hf.1]
    congr 1
    rw [pow_add, mul_comm]
  have hexc : ∀ i, i < 8 * sizeof_arith P F →
      (width_exceeded P C F g set i ↔ stops (is_signed P F) (8 * sizeof_arith P F) k i) := by
    intro i hi
    simp only [width_exceeded, probe_write, hget, hcast i hi, stops]
  have hgo : ∀ i, 1 ≤ i → i < k →
      ¬ width_exceeded P C F g set i ∧ probe_position P C F set i = ((s + i : Nat) : Int) := by
    intro i _ hik
    have hi : i < 8 * sizeof_arith P F := by omega
    have hf := (probe_arithmetic_facts (is_signed P F) _ k i hW hk hkw hi).1 hik
    refine ⟨fun h => hf.2 ((hexc i hi).1 h), ?_⟩
    simp only [probe_position, hwrite i hik hi]
    exact get_first_bit_position_pow C.sizeof (s + i) hC (by omega)
  have hstop : k < 8 * sizeof_arith P F → width_exceeded P C F g set k := by
    intro hlt
    have hf := (probe_arithmetic_facts (is_signed P F) _ k k hW hk hkw hlt).2 rfl
    exact (hexc k hlt).2 hf.2
  constructor
  · have h0 := hwrite 0 (by omega) (by omega)
    simp only [probe_write, shl_one_lt P 0 (by norm_num), pow_zero, Nat.cast_one,
      Nat.add_zero] at h0
    rw [h0]
    exact get_first_bit_position_pow C.sizeof s hC (by omega)
  · have h := probe_loop_contiguous P C F g set s k (8 * sizeof_arith P F) hkw
      (by norm_num; omega) hgo hstop (k - 1) 1 rfl (le_refl 1) hk
    simp only [Nat.add_sub_cancel] at h
    simp only [probe_ranges]
    exact h

theorem mod_eight_cases (v : Int) :
    ∃ u : Nat, u < 8 ∧ v % 2 ^ 3 = (u : Int) := by
  refine ⟨(v % 2 ^ 3).toNat, ?_, ?_⟩
  · have h1 : v % 2 ^ 3 < 2 ^ 3 := Int.emod_lt_of_pos v (by norm_num)
    have h2 : 0 ≤ v % 2 ^ 3 := Int.emod_nonneg v (by norm_num)
    omega
  · have h2 : 0 ≤ v % 2 ^ 3 := Int.emod_nonneg v (by norm_num)
    omega

theorem three_bit_setter (v : Int) :
    bitfield_setter (contiguous 2 3) (zeroed with_bitfields) v
      = bytes_of with_bitfields.sizeof ((v % 2 ^ 3).toNat * 2 ^ 2) := by
  obtain ⟨u, hu, hv⟩ := mod_eight_cases v
  have hl : (contiguous 2 3).length = 3 := rfl
  simp only [bitfield_setter, hl, hv, Int.toNat_ofNat]
  interval_cases u <;> rfl

theorem three_bit_getter (v : Int) :
    bitfield_getter false (contiguous 2 3)
        (bitfield_setter (contiguous 2 3) (zeroed with_bitfields) v)
      = read_back (is_signed lp64 .unsigned_char) 3 v := by
  obtain ⟨u, hu, hv⟩ := mod_eight_cases v
  have hl : (contiguous 2 3).length = 3 := rfl
  have hs : is_signed lp64 .unsigned_char = false := rfl
  simp only [bitfield_getter, bitfield_setter, hl, hv, Int.toNat_ofNat, read_back, hs,
    Bool.false_eq_true, if_false]
  interval_cases u <;> rfl

theorem range_pairs_append (r : List Nat) (a b : Nat) :
    r.length % 2 = 0 → range_pairs (r ++ [a, b]) = range_pairs r ++ [(a, b)] := by
  induction r using range_pairs.induct with
  | case1 x y rest ih =>
    intro h
    have h1 : rest.length % 2 = 0 := by simp only [List.length_cons] at h; omega
    simp [range_pairs, ih h1]
  | case2 r hr =>
    intro h
    match r, hr, h with
    | [], _, _ => simp [range_pairs]
    | [x], _, h => simp at h
    | x :: y :: rest, hr, _ => exact absurd rfl (hr x y rest)

theorem first_bit_of_byte_lt (val i : Nat) (h : first_bit_of_byte val = some i) : i < 8 := by
  have := List.mem_of_find?_eq_some h
  simpa using this

theorem scan_bytes_bound (l : List Nat) :
    ∀ pc left : Nat, scan_bytes l pc left = -1
      ∨ (0 ≤ scan_bytes l pc left ∧ scan_bytes l pc left < ((pc + left : Nat) : Int) * 8) := by
  induction l with
  | nil => intro pc left; cases left <;> simp [scan_bytes]
  | cons val rest ih =>
    intro pc left
    cases left with
    | zero => simp [scan_bytes]
    | succ left =>
      simp only [scan_bytes]
      have hrec := ih (pc + 1) left
      split
      · split
        · rename_i i hi
          have := first_bit_of_byte_lt val i hi
          right
          constructor
          · positivity
          · push_cast; omega
        · rcases hrec with h | ⟨h1, h2⟩
          · exact Or.inl h
          · right; refine ⟨h1, ?_⟩; push_cast at h2 ⊢; omega
      · rcases hrec with h | ⟨h1, h2⟩
        · exact Or.inl h
        · right; refine ⟨h1, ?_⟩; push_cast at h2 ⊢; omega

theorem to_signed_32_lt (v : Int) : to_signed 32 v < 2 ^ 31 := by
  have h1 : v % 2 ^ 32 < 2 ^ 32 := Int.emod_lt_of_pos v (by norm_num)
  simp only [to_signed]
  norm_num at h1 ⊢
  split <;> omega

theorem probe_position_bound (P : platform) (C : class_t) (F : arith_t)
    (set : List Nat → Int → List Nat) (i : Nat) (h : probe_position P C F set i ≠ -1) :
    0 ≤ probe_position P C F set i ∧ probe_position P C F set i < 2 ^ 34 := by
  have hb := scan_bytes_bound (probe_write P C F set i) 0 (to_signed 32 (C.sizeof : Int)).toNat
  have hlt := to_signed_32_lt (C.sizeof : Int)
  simp only [probe_position, get_first_bit_position] at h ⊢
  rcases hb with h1 | ⟨h1, h2⟩
  · exact absurd h1 h
  · refine ⟨h1, ?_⟩
    norm_num at hlt h2 ⊢
    omega

theorem probe_loop_even (P : platform) (C : class_t) (F : arith_t) (g : List Nat → Int)
    (set : List Nat → Int → List Nat) :
    ∀ (left offset : Nat) (s : probe_state), s.ranges.length % 2 = 0 →
      (probe_loop P C F g set left offset s).ranges.length % 2 = 0 := by
  intro left
  induction left with
  | zero => intro offset s h; simpa [probe_loop] using h
  | succ left ih =>
    intro offset s h
    rw [probe_loop]
    split
    · simp only [List.length_append, List.length_cons, List.length_nil]; omega
    · split
      · split
        · apply ih
          simp only [List.length_append, List.length_cons, List.length_nil]; omega
        · exact ih _ _ h
      · exact ih _ _ h

/-- The loop invariant of the scan when located positions never decrease. -/
theorem probe_loop_ascending (P : platform) (C : class_t) (F : arith_t) (g : List Nat → Int)
    (set : List Nat → Int → List Nat) (w : Nat)
    (hmono : ∀ j, j < w → ∀ i, i ≤ j → probe_position P C F set i ≠ -1 →
      probe_position P C F set j ≠ -1 →
      probe_position P C F set i ≤ probe_position P C F set j) :
    ∀ (left offset : Nat) (s : probe_state), offset + left = w →
      s.ranges.length % 2 = 0 →
      (∀ p ∈ range_pairs s.ranges, p.1 ≤ p.2) →
      List.Chain' (fun p q : Nat × Nat => p.2 < q.1)
        (range_pairs s.ranges ++ [(s.curr_bit, s.last_bit)]) →
      s.curr_bit ≤ s.last_bit →
      (∃ i, i < offset ∧ probe_position P C F set i = (s.last_bit : Int)) →
      ascending_pairs (final_ranges (probe_loop P C F g set left offset s)) := by
  intro left
  induction left with
  | zero =>
    intro offset s _ heven hpairs hchain hle _
    simp only [probe_loop, final_ranges]
    split
    · rename_i h0
      have hnil : s.ranges = [] := List.eq_nil_of_length_eq_zero h0
      simp only [hnil, List.nil_append, ascending_pairs, range_pairs, List.mem_singleton,
        List.chain'_singleton, and_true]
      intro p hp; subst hp; exact hle
    · exact ⟨hpairs, (List.chain'_append.1 hchain).1⟩
  | succ left ih =>
    intro offset s hw heven hpairs hchain hle hlast
    obtain ⟨i0, hi0, hlastpos⟩ := hlast
    rw [probe_loop]
    split
    · -- the width is exceeded: the open range is closed and the scan ends
      simp only [final_ranges, List.length_append, List.length_cons, List.length_nil]
      rw [if_neg (by omega)]
      simp only [ascending_pairs, range_pairs_append _ _ _ heven]
      refine ⟨?_, hchain⟩
      intro p hp
      rcases List.mem_append.1 hp with h | h
      · exact hpairs p h
      · simp only [List.mem_singleton] at h; subst h; exact hle
    · split
      · rename_i hfound
        obtain ⟨hpos0, hpos34⟩ := probe_position_bound P C F set offset hfound
        have hlastne : probe_position P C F set i0 ≠ -1 := by rw [hlastpos]; omega
        have hlast34 := (probe_position_bound P C F set i0 hlastne).2
        rw [hlastpos] at hlast34
        have hge : (s.last_bit : Int) ≤ probe_position P C F set offset := by
          rw [← hlastpos]
          exact hmono offset (by omega) i0 (by omega) hlastne hfound
        have hidx : ((probe_position P C F set offset).toNat : Int)
            = probe_position P C F set offset := Int.toNat_of_nonneg hpos0
        have hnat : s.last_bit ≤ (probe_position P C F set offset).toNat := by omega
        have hnext : ∃ i, i < offset + 1
            ∧ probe_position P C F set i = ((probe_position P C F set offset).toNat : Int) :=
          ⟨offset, by omega, hidx.symm⟩
        split
        · rename_i hfar
          rw [natAbs_distance _ _ (by norm_num at hpos34 ⊢; omega)
            (by norm_num at hlast34 ⊢; omega)] at hfar
          rw [if_pos hnat] at hfar
          apply ih (offset + 1) _ (by omega)
          · simp only [List.length_append, List.length_cons, List.length_nil]; omega
          · simp only [range_pairs_append _ _ _ heven]
            intro p hp
            rcases List.mem_append.1 hp with h | h
            · exact hpairs p h
            · simp only [List.mem_singleton] at h; subst h; exact hle
          · simp only [range_pairs_append _ _ _ heven]
            refine List.chain'_append.2 ⟨hchain, List.chain'_singleton _, ?_⟩
            intro x hx y hy
            simp only [List.getLast?_append, List.getLast?_singleton, Option.or,
              Option.mem_def, Option.some.injEq] at hx
            simp only [List.head?_cons, Option.mem_def, Option.some.injEq] at hy
            subst hx; subst hy
            show s.last_bit < (probe_position P C F set offset).toNat
            omega
          · exact le_refl _
          · exact hnext
        · refine ih (offset + 1)
            { s with last_bit := (probe_position P C F set offset).toNat }
            (by omega) heven hpairs ?_ ?_ hnext
          · obtain ⟨h1, -, h3⟩ := List.chain'_append.1 hchain
            refine List.chain'_append.2 ⟨h1, List.chain'_singleton _, ?_⟩
            intro x hx y hy
            simp only [List.head?_cons, Option.mem_def, Option.some.injEq] at hy
            subst hy
            exact h3 x hx (s.curr_bit, s.last_bit) (by simp)
          · show s.curr_bit ≤ (probe_position P C F set offset).toNat
            omega
      · exact ih (offset + 1) s (by omega) heven hpairs hchain hle ⟨i0, by omega, hlastpos⟩

/-- C6 as stated fails: accessors that put the value 1 on bit 5 and the value 2 on bit 4
are accepted, and the item gets the single pair `(5, 4)`, whose start is above its end. -/
theorem probe_shape_counterexample :
    flag_of (register_bitfield lp64 one_byte .unsigned_char class_state.init "packed"
        ⟨4300, "x"⟩ 0 backward_getter backward_setter "main.cpp" 1) = true
      ∧ ranges_of (state_of (register_bitfield lp64 one_byte .unsigned_char class_state.init
          "packed" ⟨4300, "x"⟩ 0 backward_getter backward_setter "main.cpp" 1)) ⟨4300, "x"⟩
        = [5, 4]
      ∧ ¬ ascending_pairs (ranges_of (state_of (register_bitfield lp64 one_byte .unsigned_char
          class_state.init "packed" ⟨4300, "x"⟩ 0 backward_getter backward_setter
          "main.cpp" 1)) ⟨4300, "x"⟩) := by
  have h : ranges_of (state_of (register_bitfield lp64 one_byte .unsigned_char class_state.init
      "packed" ⟨4300, "x"⟩ 0 backward_getter backward_setter "main.cpp" 1)) ⟨4300, "x"⟩
      = [5, 4] := by decide
  refine ⟨by decide, h, ?_⟩
  rw [h]
  intro hasc
  have := hasc.1 (5, 4) (by simp [range_pairs])
  omega

/-- C6, amended. Whenever `register_bitfield` returns `true`, for any getter and setter,
the stored item has at least one pair and an even number of entries; when moreover the
positions located by the successive writes never decrease, every pair has `start ≤ end`
and each pair starts after the end of the pair before it. -/
theorem probe_result_shape (P : platform) (C : class_t) (F : arith_t)
    (st st1 : class_state) (cn : String) (fn : c_str) (ud : Nat)
    (g : List Nat → Int) (set : List Nat → Int → List Nat) (file : String) (line : Nat)
    (hrun : register_bitfield P C F st cn fn ud g set file line = some (true, st1)) :
    ∃ info, map_find fn st1.layout.fields = some info
      ∧ 2 ≤ info.item.ranges.length
      ∧ info.item.ranges.length % 2 = 0
      ∧ ((∀ j, j < 8 * sizeof_arith P F → ∀ i, i ≤ j →
            probe_position P C F set i ≠ -1 → probe_position P C F set j ≠ -1 →
            probe_position P C F set i ≤ probe_position P C F set j) →
          ascending_pairs info.item.ranges) := by
  cases hf : map_find fn st.layout.fields with
  | some v =>
    obtain ⟨st2, h1, -, -⟩ := setup_class_field_present C st cn fn ud file line v hf
    simp only [register_bitfield] at hrun
    split at hrun
    · cases hrun
    · split at hrun
      · cases hrun
      · simp [h1] at hrun
  | none =>
    obtain ⟨st2, h1, h2, -⟩ := setup_class_field_absent C st cn fn ud file line hf
    simp only [register_bitfield] at hrun
    split at hrun
    · cases hrun
    · split at hrun
      · cases hrun
      · rename_i enc henc
        simp only [h1] at hrun
        split at hrun
        · simp at hrun
        · rename_i hfirst
          cases hrun
          have hfind := map_find_set_self fn
            (.mk .bitfield (.encoded_arithmetic enc) []
              (probe_ranges P C F g set
                (get_first_bit_position (set (zeroed C) (static_cast P F 1))
                  (to_signed 32 C.sizeof)).toNat))
            st2.layout.fields { user_data := ud, item := item_t.default }
            (by rw [h2]; exact map_find_place_self fn _ _ hf)
          refine ⟨_, by simpa [item_t.default, item_t.items, item_t.ranges] using hfind, ?_⟩
          have heven := probe_loop_even P C F g set (8 * sizeof_arith P F - 1) 1
            ⟨(get_first_bit_position (set (zeroed C) (static_cast P F 1))
                (to_signed 32 C.sizeof)).toNat,
              (get_first_bit_position (set (zeroed C) (static_cast P F 1))
                (to_signed 32 C.sizeof)).toNat, []⟩ rfl
          have hpos0 : probe_position P C F set 0
              = get_first_bit_position (set (zeroed C) (static_cast P F 1))
                  (to_signed 32 C.sizeof) := by
            simp [probe_position, probe_write, shl_one]
          refine ⟨?_, ?_, ?_⟩
          · simp only [item_t.ranges, probe_ranges]
            split
            · simp
            · omega
          · simp only [item_t.ranges, probe_ranges]
            split
            · simp only [List.length_append, List.length_cons, List.length_nil]; omega
            · exact heven
          · intro hmono
            by_cases hw : 8 * sizeof_arith P F = 0
            · simp only [item_t.ranges, probe_ranges, hw, Nat.zero_sub, probe_loop,
                List.length_nil, if_true, List.nil_append, ascending_pairs, range_pairs,
                List.mem_singleton, List.chain'_singleton, and_true]
              intro p hp; subst hp; exact le_refl _
            · have hb := probe_position_bound P C F set 0 (by rw [hpos0]; exact hfirst)
              exact probe_loop_ascending P C F g set (8 * sizeof_arith P F) hmono
                (8 * sizeof_arith P F - 1) 1 _ (by omega) rfl
                (by intro p hp; simp [range_pairs] at hp)
                (by simp [range_pairs]) (le_refl _)
                ⟨0, by omega, by rw [hpos0]; exact (Int.toNat_of_nonneg (hpos0 ▸ hb.1)).symm⟩

set_option maxRecDepth 1000000 in
/-- C6, amended, at a 7-bit unsigned field split over bits 0 to 3 and 8 to 10: the
located positions never decrease and the ranges `[0, 3, 8, 10]` are two ascending
pairs. -/
theorem probe_result_shape_witness :
    ∃ info,
      map_find ⟨4400, "f"⟩ (state_of (register_bitfield lp64 two_bytes .unsigned_char
          class_state.init "packed" ⟨4400, "f"⟩ 0 (bitfield_getter false split_positions)
          (bitfield_setter split_positions) "main.cpp" 2)).layout.fields = some info
      ∧ 2 ≤ info.item.ranges.length
      ∧ info.item.ranges.length % 2 = 0
      ∧ ascending_pairs info.item.ranges :=
  (probe_result_shape lp64 two_bytes .unsigned_char class_state.init
      (state_of (register_bitfield lp64 two_bytes .unsigned_char
          class_state.init "packed" ⟨4400, "f"⟩ 0 (bitfield_getter false split_positions)
          (bitfield_setter split_positions) "main.cpp" 2))
      "packed" ⟨4400, "f"⟩ 0 (bitfield_getter false split_positions)
      (bitfield_setter split_positions) "main.cpp" 2 rfl).imp
    (fun _ h => ⟨h.1, h.2.1, h.2.2.1, h.2.2.2 (by decide)⟩)

/-! ## C2, C4, C5, C7, C8: where the code leaves the specification -/

/-- C2 fails on the code: two accepted registrations announced with the empty class name
leave `firstbit = 48` although field `a` occupies `[0, 31]`; the layout name is still
empty at the second call, which therefore resets the extent. With the class name
`simple_types` the same two calls give the extent `[0, 63]`. -/
theorem extent_reset_by_empty_classname :
    extent_report (run_all lp64 simple_types class_state.init [unnamed_first, unnamed_second])
        ⟨4090, "a"⟩ ⟨4100, "c"⟩
      = some ([true, true], "", 48, 63, [0, 31], [48, 63])
    ∧ extent_report (run_all lp64 simple_types class_state.init
          [.field (.arithmetic .int) 0 "simple_types" ⟨4090, "a"⟩ 0 "main.cpp" 203,
           .field (.arithmetic .short) 6 "simple_types" ⟨4100, "c"⟩ 0 "main.cpp" 212])
        ⟨4090, "a"⟩ ⟨4100, "c"⟩
      = some ([true, true], "simple_types", 0, 63, [0, 31], [48, 63]) :=
  ⟨rfl, rfl⟩

set_option maxRecDepth 1000000 in
/-- C4 fails on the code: an 8-bit field that fills its 8-bit storage and is split over
bits 0 to 3 and 8 to 11 is reported as `[0, 3]` only. The scan never stops early, the
run `[8, 11]` is still open when the loop ends, and the final close is skipped because a
range was already recorded. -/
theorem last_run_dropped_at_full_width :
    flag_of (register_bitfield lp64 two_bytes .unsigned_char class_state.init "packed"
        ⟨4400, "f"⟩ 0 (bitfield_getter false full_split_positions)
        (bitfield_setter full_split_positions) "main.cpp" 2) = true
      ∧ ranges_of (state_of (register_bitfield lp64 two_bytes .unsigned_char class_state.init
          "packed" ⟨4400, "f"⟩ 0 (bitfield_getter false full_split_positions)
          (bitfield_setter full_split_positions) "main.cpp" 2)) ⟨4400, "f"⟩ = [0, 3] := by
  constructor <;> decide

theorem shl_one_lt_two_pow_32 (P : platform) (i : Nat) : shl_one P i < 2 ^ 32 := by
  simp only [shl_one]
  split
  · exact Nat.pow_lt_pow_right (by norm_num) (by assumption)
  · exact Nat.mod_lt _ (by norm_num)

set_option maxRecDepth 1000000 in
/-- C5 fails on the code: `expected` is an `unsigned`, so on every platform the value
written in iteration `32 + i` is below `2 ^ 32` and is not `2 ^ (32 + i)`; on x86-64 a
faithful contiguous 40-bit field at bit 0 of 64-bit storage is reported as `[0, 31]`. -/
theorem wide_storage_probe_truncated :
    (∀ (P : platform) (i : Nat),
        static_cast P .unsigned_long_long (shl_one P (32 + i)) < 2 ^ 32
        ∧ static_cast P .unsigned_long_long (shl_one P (32 + i)) ≠ 2 ^ (32 + i))
      ∧ flag_of (register_bitfield lp64 eight_bytes .unsigned_long_long class_state.init
          "wide" ⟨4600, "w"⟩ 0 (bitfield_getter false (contiguous 0 40))
          (bitfield_setter (contiguous 0 40)) "main.cpp" 4) = true
      ∧ ranges_of (state_of (register_bitfield lp64 eight_bytes .unsigned_long_long
          class_state.init "wide" ⟨4600, "w"⟩ 0 (bitfield_getter false (contiguous 0 40))
          (bitfield_setter (contiguous 0 40)) "main.cpp" 4)) ⟨4600, "w"⟩ = [0, 31] := by
  refine ⟨?_, by decide, by decide⟩
  intro P i
  have h1 := shl_one_lt_two_pow_32 P (32 + i)
  have h4 : (shl_one P (32 + i) : Int) < 2 ^ 32 := by exact_mod_cast h1
  have h2 : static_cast P .unsigned_long_long (shl_one P (32 + i))
      = (shl_one P (32 + i) : Int) := by
    have hsz : 8 * sizeof_arith P .unsigned_long_long = 64 := rfl
    have hsg : is_signed P .unsigned_long_long = false := rfl
    rw [static_cast_eq P _ _ (by decide)]
    simp only [cast_to, hsg, hsz, to_unsigned, Bool.false_eq_true, if_false]
    apply Int.emod_eq_of_lt (by positivity)
    omega
  have h3 : (2 : Int) ^ 32 ≤ 2 ^ (32 + i) := pow_le_pow_right₀ (by norm_num) (by omega)
  rw [h2]
  constructor <;> omega

/-- C7 fails on the code: when the probe finds no set bit after writing 1, the call
returns `false` but the item stays in the field map with category `bitfield` and no
range. -/
theorem inconclusive_probe_leaves_item :
    flag_of (register_bitfield lp64 with_bitfields .int class_state.init "with_bitfields"
        ⟨4500, "z"⟩ 0 dead_getter dead_setter "main.cpp" 3) = false
      ∧ (state_of (register_bitfield lp64 with_bitfields .int class_state.init
          "with_bitfields" ⟨4500, "z"⟩ 0 dead_getter dead_setter "main.cpp" 3)).layout.fields.map
          (fun kv => (kv.1, kv.2.item.category, kv.2.item.ranges))
        = [(⟨4500, "z"⟩, .bitfield, [])] := by
  constructor <;> decide

/-- C8 fails on the code: after a single registration attempt that returned `false`
(probe inconclusive) the layout already carries the class name, and the field map has an
entry; no diagnostic is logged. -/
theorem failed_first_attempt_registers_class :
    flag_of (register_bitfield lp64 with_bitfields .int class_state.init "with_bitfields"
        ⟨4500, "z"⟩ 0 dead_getter dead_setter "main.cpp" 3) = false
      ∧ (get_layout (state_of (register_bitfield lp64 with_bitfields .int class_state.init
          "with_bitfields" ⟨4500, "z"⟩ 0 dead_getter dead_setter "main.cpp" 3))).name
        = "with_bitfields"
      ∧ (get_layout (state_of (register_bitfield lp64 with_bitfields .int class_state.init
          "with_bitfields" ⟨4500, "z"⟩ 0 dead_getter dead_setter "main.cpp" 3))).fields.length
        = 1
      ∧ (get_type_errors (state_of (register_bitfield lp64 with_bitfields .int
          class_state.init "with_bitfields" ⟨4500, "z"⟩ 0 dead_getter dead_setter
          "main.cpp" 3))).length = 0 := by
  refine ⟨by decide, by decide, by decide, by decide⟩

/-! ## The extent under non-empty class names

The invariant of C2 does hold along every sequence of calls whose class-name texts filter
to a non-empty display name. -/

theorem update_extent_mono (r : List Nat) (l : class_layout) :
    (update_extent r l).firstbit ≤ l.firstbit ∧ l.lastbit ≤ (update_extent r l).lastbit := by
  induction r, l using update_extent.induct with
  | case1 a b rest layout ih =>
    rw [update_extent]
    simp only at ih
    constructor
    · refine le_trans ih.1 ?_; split <;> omega
    · refine le_trans ?_ ih.2; split <;> omega
  | case2 r layout h =>
    rw [update_extent]
    · exact ⟨le_refl _, le_refl _⟩
    · intro a b rest hr; exact h a b rest hr

theorem update_extent_covers (r : List Nat) (l : class_layout) :
    ∀ p ∈ range_pairs r,
      (update_extent r l).firstbit ≤ p.1 ∧ p.2 ≤ (update_extent r l).lastbit := by
  induction r, l using update_extent.induct with
  | case1 a b rest layout ih =>
    intro p hp
    rw [update_extent]
    simp only [range_pairs, List.mem_cons] at hp
    rcases hp with hp | hp
    · subst hp
      have hm := update_extent_mono rest
        { layout with
          firstbit := if a < layout.firstbit then a else layout.firstbit,
          lastbit := if b > layout.lastbit then b else layout.lastbit }
      simp only at hm
      constructor
      · refine le_trans hm.1 ?_; split <;> omega
      · refine le_trans ?_ hm.2; split <;> omega
    · exact ih p hp
  | case2 r layout h =>
    intro p hp
    match r, h, hp with
    | [], _, hp => simp [range_pairs] at hp
    | [x], _, hp => simp [range_pairs] at hp
    | x :: y :: rest, h, _ => exact absurd rfl (h x y rest)

mutual
theorem register_item_extent (P : platform) :
    ∀ (F : field_t) (o : Nat) (l : class_layout) (it1 : item_t) (l1 : class_layout),
      register_item P F o item_t.default l = some (it1, l1) →
      l1.firstbit ≤ l.firstbit ∧ l.lastbit ≤ l1.lastbit
        ∧ ∀ p ∈ range_pairs it1.ranges, l1.firstbit ≤ p.1 ∧ p.2 ≤ l1.lastbit
  | .arithmetic t, o, l, it1, l1, h => by
    simp only [register_item] at h
    split at h
    · cases h
    · cases h
      exact ⟨(update_extent_mono _ _).1, (update_extent_mono _ _).2, update_extent_covers _ _⟩
  | .pointer, o, l, it1, l1, h => by
    simp only [register_item] at h
    cases h
    exact ⟨(update_extent_mono _ _).1, (update_extent_mono _ _).2, update_extent_covers _ _⟩
  | .klass sz id, o, l, it1, l1, h => by
    simp only [register_item] at h
    cases h
    exact ⟨(update_extent_mono _ _).1, (update_extent_mono _ _).2, update_extent_covers _ _⟩
  | .container elems, o, l, it1, l1, h => by
    simp only [register_item] at h
    split at h
    · cases h
    · rename_i items l2 hc
      cases h
      have hch := register_container_extent P elems o l items l2 hc
      exact ⟨le_trans (update_extent_mono _ _).1 hch.1, le_trans hch.2 (update_extent_mono _ _).2,
        update_extent_covers _ _⟩
theorem register_container_extent (P : platform) :
    ∀ (es : List (Nat × field_t)) (o : Nat) (l : class_layout) (its : List item_t)
      (l1 : class_layout), register_container P es o l = some (its, l1) →
      l1.firstbit ≤ l.firstbit ∧ l.lastbit ≤ l1.lastbit
  | [], o, l, its, l1, h => by
    simp only [register_container] at h
    cases h
    exact ⟨le_refl _, le_refl _⟩
  | (eo, t) :: rest, o, l, its, l1, h => by
    simp only [register_container] at h
    split at h
    · cases h
    · rename_i child l2 hi
      split at h
      · cases h
      · rename_i children l3 hr
        cases h
        have h1 := register_item_extent P t _ l child l2 hi
        have h2 := register_container_extent P rest o l2 children l1 hr
        exact ⟨le_trans h2.1 h1.1, le_trans h1.2.1 h2.2⟩
end

theorem mem_map_place (k : c_str) (v : field_info_t) (m : List (c_str × field_info_t))
    (kv : c_str × field_info_t) (h : kv ∈ map_place k v m) : kv = (k, v) ∨ kv ∈ m := by
  induction m with
  | nil => simp only [map_place, List.mem_singleton] at h; exact Or.inl h
  | cons e rest ih =>
    obtain ⟨k1, v1⟩ := e
    simp only [map_place] at h
    split at h
    · simp only [List.mem_cons] at h ⊢
      tauto
    · simp only [List.mem_cons] at h ⊢
      rcases h with h | h
      · exact Or.inr (Or.inl h)
      · rcases ih h with h2 | h2
        · exact Or.inl h2
        · exact Or.inr (Or.inr h2)

theorem mem_map_set_item (k : c_str) (it : item_t) (m : List (c_str × field_info_t))
    (kv : c_str × field_info_t) (h : kv ∈ map_set_item k it m) :
    kv ∈ m ∨ kv.2.item = it := by
  induction m with
  | nil => simp [map_set_item] at h
  | cons e rest ih =>
    obtain ⟨k1, v1⟩ := e
    simp only [map_set_item] at h
    split at h
    · simp only [List.mem_cons] at h ⊢
      rcases h with h | h
      · right; subst h; rfl
      · exact Or.inl (Or.inr h)
    · simp only [List.mem_cons] at h ⊢
      rcases h with h | h
      · exact Or.inl (Or.inl h)
      · rcases ih h with h2 | h2
        · exact Or.inl (Or.inr h2)
        · exact Or.inr h2

theorem extent_brackets_grow (l l1 : class_layout) (it : item_t) (k : c_str) (ud : Nat)
    (hb : extent_brackets l) (hf : l1.firstbit ≤ l.firstbit) (hl : l.lastbit ≤ l1.lastbit)
    (hit : ∀ p ∈ range_pairs it.ranges, l1.firstbit ≤ p.1 ∧ p.2 ≤ l1.lastbit)
    (hfields : l1.fields
      = map_set_item k it (map_place k { user_data := ud, item := item_t.default } l.fields)) :
    extent_brackets l1 := by
  intro kv hkv p hp
  rw [hfields] at hkv
  rcases mem_map_set_item k it _ kv hkv with h | h
  · rcases mem_map_place k _ _ kv h with h2 | h2
    · subst h2
      simp [item_t.default, item_t.ranges, range_pairs] at hp
    · have := hb kv h2 p hp
      omega
  · rw [h] at hp
    exact hit p hp

mutual
theorem register_item_name (P : platform) :
    ∀ (F : field_t) (o : Nat) (it : item_t) (l : class_layout) (it1 : item_t)
      (l1 : class_layout), register_item P F o it l = some (it1, l1) →
      l1.name = l.name ∧ l1.id = l.id
  | .arithmetic t, o, it, l, it1, l1, h => by
    simp only [register_item] at h
    split at h
    · cases h
    · cases h; exact ⟨update_extent_name _ _, update_extent_id _ _⟩
  | .pointer, o, it, l, it1, l1, h => by
    simp only [register_item] at h
    cases h; exact ⟨update_extent_name _ _, update_extent_id _ _⟩
  | .klass sz id, o, it, l, it1, l1, h => by
    simp only [register_item] at h
    cases h; exact ⟨update_extent_name _ _, update_extent_id _ _⟩
  | .container elems, o, it, l, it1, l1, h => by
    simp only [register_item] at h
    split at h
    · cases h
    · rename_i items l2 hc
      cases h
      rw [update_extent_name, update_extent_id]
      exact register_container_name P elems o l items l2 hc
theorem register_container_name (P : platform) :
    ∀ (es : List (Nat × field_t)) (o : Nat) (l : class_layout) (its : List item_t)
      (l1 : class_layout), register_container P es o l = some (its, l1) →
      l1.name = l.name ∧ l1.id = l.id
  | [], o, l, its, l1, h => by
    simp only [register_container] at h
    cases h; exact ⟨rfl, rfl⟩
  | (eo, t) :: rest, o, l, its, l1, h => by
    simp only [register_container] at h
    split at h
    · cases h
    · rename_i child l2 hi
      split at h
      · cases h
      · rename_i children l3 hr
        cases h
        have h1 := register_item_name P t _ _ l child l2 hi
        have h2 := register_container_name P rest o l2 children l1 hr
        exact ⟨h2.1.trans h1.1, h2.2.trans h1.2⟩
end

theorem setup_class_field_absent_layout (C : class_t) (st : class_state) (cn : String)
    (fn : c_str) (ud : Nat) (file : String) (line : Nat)
    (h : map_find fn st.layout.fields = none) :
    setup_class_field C st cn fn ud file line
      = (some { user_data := ud, item := item_t.default },
          { st with layout := { first_touch C st.layout cn with
              fields := map_place fn { user_data := ud, item := item_t.default }
                st.layout.fields } }) := by
  unfold setup_class_field first_touch
  by_cases hn : st.layout.name = ""
  · simp [hn, map_insert, h]
  · simp [hn, map_insert, h]

theorem setup_class_field_present_layout (C : class_t) (st : class_state) (cn : String)
    (fn : c_str) (ud : Nat) (file : String) (line : Nat) (v : field_info_t)
    (h : map_find fn st.layout.fields = some v) :
    setup_class_field C st cn fn ud file line
      = (none, add_duplication_error { st with layout := first_touch C st.layout cn }
          file line (get_filtered_classname cn) fn) := by
  unfold setup_class_field first_touch
  by_cases hn : st.layout.name = ""
  · simp [hn, map_insert, h]
  · simp [hn, map_insert, h]

theorem first_touch_named (C : class_t) (st : class_state) (cn : String)
    (hcn : get_filtered_classname cn ≠ "") (h : named_extent st) :
    (first_touch C st.layout cn).name ≠ ""
      ∧ (first_touch C st.layout cn).fields = st.layout.fields
      ∧ extent_brackets (first_touch C st.layout cn) := by
  unfold first_touch
  by_cases hn : st.layout.name = ""
  · have hnil : st.layout.fields = [] := by
      rcases h.1 with h1 | h1
      · exact absurd hn h1
      · exact h1
    rw [if_pos hn]
    refine ⟨hcn, rfl, ?_⟩
    intro kv hkv
    change kv ∈ st.layout.fields at hkv
    simp only [hnil, List.not_mem_nil] at hkv
  · rw [if_neg hn]
    exact ⟨hn, rfl, h.2⟩

theorem run_named_extent (P : platform) (C : class_t) (st st1 : class_state)
    (r : registration) (b : Bool) (hrun : r.run P C st = some (b, st1))
    (hcn : get_filtered_classname r.classname ≠ "") (h : named_extent st) :
    named_extent st1 := by
  cases r with
  | field F o cn fn ud file line =>
    obtain ⟨hname, hfields, hbr⟩ := first_touch_named C st cn hcn h
    simp only [registration.run, register_field] at hrun
    cases hf : map_find fn st.layout.fields with
    | some v =>
      rw [setup_class_field_present_layout C st cn fn ud file line v hf] at hrun
      cases hrun
      exact ⟨Or.inl hname, hbr⟩
    | none =>
      rw [setup_class_field_absent_layout C st cn fn ud file line hf] at hrun
      simp only at hrun
      split at hrun
      · cases hrun
      · rename_i it l hi
        cases hrun
        have hnm := register_item_name P F _ _ _ _ _ hi
        have hfl := register_item_fields P F _ _ _ _ _ hi
        have hex := register_item_extent P F _ _ _ _ hi
        refine ⟨Or.inl (by simpa [hnm.1] using hname), ?_⟩
        exact extent_brackets_grow (first_touch C st.layout cn) _ it fn ud hbr hex.1 hex.2.1
          hex.2.2 (by simp only [hfl, hfields])
  | bitfield F cn fn ud g s file line =>
    obtain ⟨hname, hfields, hbr⟩ := first_touch_named C st cn hcn h
    simp only [registration.run, register_bitfield] at hrun
    split at hrun
    · cases hrun
    · split at hrun
      · cases hrun
      · rename_i enc henc
        cases hf : map_find fn st.layout.fields with
        | some v =>
          rw [setup_class_field_present_layout C st cn fn ud file line v hf] at hrun
          cases hrun
          exact ⟨Or.inl hname, hbr⟩
        | none =>
          rw [setup_class_field_absent_layout C st cn fn ud file line hf] at hrun
          simp only at hrun
          split at hrun
          · cases hrun
            refine ⟨Or.inl hname, ?_⟩
            exact extent_brackets_grow (first_touch C st.layout cn) _
              (.mk .bitfield (.encoded_arithmetic enc) item_t.default.items
                item_t.default.ranges) fn ud hbr
              (le_refl _) (le_refl _)
              (by intro p hp; simp [item_t.default, item_t.ranges, range_pairs] at hp)
              (by simp only [hfields])
          · cases hrun
            refine ⟨Or.inl (by simpa [update_extent_name] using hname), ?_⟩
            have hm := update_extent_mono
              (item_t.default.ranges ++ probe_ranges P C F g s
                (get_first_bit_position (s (zeroed C) (static_cast P F 1))
                  (to_signed 32 C.sizeof)).toNat)
              { first_touch C st.layout cn with
                fields := map_place fn { user_data := ud, item := item_t.default }
                  st.layout.fields }
            have hc := update_extent_covers
              (item_t.default.ranges ++ probe_ranges P C F g s
                (get_first_bit_position (s (zeroed C) (static_cast P F 1))
                  (to_signed 32 C.sizeof)).toNat)
              { first_touch C st.layout cn with
                fields := map_place fn { user_data := ud, item := item_t.default }
                  st.layout.fields }
            exact extent_brackets_grow (first_touch C st.layout cn) _
              (.mk .bitfield (.encoded_arithmetic enc) item_t.default.items
                (item_t.default.ranges ++ probe_ranges P C F g s
                  (get_first_bit_position (s (zeroed C) (static_cast P F 1))
                    (to_signed 32 C.sizeof)).toNat)) fn ud hbr
              hm.1 hm.2 hc (by simp only [hfields])

/-- Along every sequence of calls whose class-name texts filter to a non-empty display
name, `firstbit` / `lastbit` bracket every range pair of every field in the field map. -/
theorem extent_brackets_named (P : platform) (C : class_t) (rs : List registration) :
    ∀ (st st1 : class_state) (bs : List Bool),
      (∀ r ∈ rs, get_filtered_classname r.classname ≠ "") → named_extent st →
      run_all P C st rs = some (bs, st1) → named_extent st1 := by
  induction rs with
  | nil =>
    intro st st1 bs _ h hrun
    simp only [run_all] at hrun
    cases hrun
    exact h
  | cons r rest ih =>
    intro st st1 bs hn h hrun
    simp only [run_all] at hrun
    split at hrun
    · cases hrun
    · rename_i b st2 hr
      split at hrun
      · cases hrun
      · rename_i bs2 st3 hrest
        cases hrun
        exact ih st2 st1 bs2 (fun r1 h1 => hn r1 (List.mem_cons_of_mem _ h1))
          (run_named_extent P C st st2 r b hr (hn r (List.mem_cons_self _ _)) h) hrest

theorem named_extent_init : named_extent class_state.init :=
  ⟨Or.inr rfl, by intro kv hkv; simp [class_state.init] at hkv⟩

/-! ## C11: the wide-char flag -/

theorem descriptor_of_size (t : arith_t) (signed : Bool) (size enc : Nat)
    (h : descriptor_of t signed size = some enc) : size ∈ [1, 2, 4, 8, 16] := by
  by_contra hn
  simp only [List.mem_cons, List.mem_singleton, List.not_mem_nil, or_false, not_or] at hn
  obtain ⟨h1, h2, h4, h8, h16⟩ := hn
  simp [descriptor_of, select_overload, h1, h2, h4, h8, h16] at h

theorem descriptor_of_wide (t : arith_t) (signed : Bool) (size : Nat)
    (hsize : size ∈ [1, 2, 4, 8, 16]) :
    (descriptor_of t signed size).map wide_char_flag
      = some (if t = .char16_t ∨ t = .char32_t then 1 else 0) := by
  simp only [List.mem_cons, List.mem_singleton, List.not_mem_nil, or_false] at hsize
  rcases hsize with h | h | h | h | h <;> subst h <;> cases t <;> cases signed <;> decide

/-- C11 as stated fails: the descriptor of `wchar_t` has bit 6 clear, on x86-64 (where it
is `0b00010001`) and on every other target. -/
theorem wide_flag_counterexample :
    get_encoded_arithmetic lp64 .wchar_t = some 0b00010001
      ∧ (get_encoded_arithmetic lp64 .wchar_t).map wide_char_flag = some 0
      ∧ ¬ ∃ (P : platform) (enc : Nat),
          get_encoded_arithmetic P .wchar_t = some enc ∧ wide_char_flag enc = 1 := by
  refine ⟨by decide, by decide, ?_⟩
  rintro ⟨P, enc, h, hw⟩
  rw [get_encoded_arithmetic_eq] at h
  have hs := descriptor_of_size _ _ _ _ h
  have := descriptor_of_wide .wchar_t (is_signed P .wchar_t) (sizeof_arith P .wchar_t) hs
  rw [h] at this
  simp only [Option.map_some', Option.some.injEq] at this
  rw [hw] at this
  simp at this

/-- C11, amended. Bit 6 of the descriptor byte is 1 exactly for `char16_t` and `char32_t`;
it is 0 for `char`, `signed char`, `unsigned char`, `wchar_t` and every non-character
arithmetic type. -/
theorem wide_flag_of_descriptor (P : platform) (t : arith_t) (enc : Nat)
    (h : get_encoded_arithmetic P t = some enc) :
    wide_char_flag enc = if t = .char16_t ∨ t = .char32_t then 1 else 0 := by
  rw [get_encoded_arithmetic_eq] at h
  have hs := descriptor_of_size _ _ _ _ h
  have := descriptor_of_wide t (is_signed P t) (sizeof_arith P t) hs
  rw [h] at this
  simpa using this

/-- C11, amended, at `char32_t` (flag 1) on x86-64. -/
theorem wide_flag_of_descriptor_witness :
    wide_char_flag 0b01010101 = if arith_t.char32_t = .char16_t ∨ arith_t.char32_t = .char32_t
      then 1 else 0 :=
  wide_flag_of_descriptor lp64 .char32_t 0b01010101 (by decide)

/-! ## C17: the order of the error log -/

theorem add_errors_sorted_perm (entries : List error_entry) :
    ∀ st : class_state,
      entries ≠ [] → List.Sorted line_le (add_errors st entries).errors := by
  haveI : IsTotal error_entry line_le := ⟨fun a b => Nat.le_total a.2.1 b.2.1⟩
  haveI : IsTrans error_entry line_le := ⟨fun a b c hab hbc => Nat.le_trans hab hbc⟩
  induction entries with
  | nil => intro st h; exact absurd rfl h
  | cons e rest ih =>
    intro st _
    simp only [add_errors]
    cases rest with
    | nil =>
      simp only [add_errors, add_error]
      exact List.sorted_insertionSort line_le _
    | cons e2 rest2 => exact ih _ (by simp)

theorem add_errors_perm (entries : List error_entry) :
    ∀ st : class_state, List.Perm (add_errors st entries).errors (st.errors ++ entries) := by
  induction entries with
  | nil => intro st; simp [add_errors]
  | cons e rest ih =>
    intro st
    simp only [add_errors]
    refine (ih _).trans ?_
    simp only [add_error]
    have h1 := List.perm_insertionSort line_le (st.errors ++ [(e.1, e.2.1, e.2.2)])
    have h2 : st.errors ++ e :: rest = (st.errors ++ [(e.1, e.2.1, e.2.2)]) ++ rest := by simp
    rw [h2]
    exact h1.append_right rest

/-- C17. After any sequence of `add_error` calls on a type, `get_type_errors` is sorted by
line ascending and is a permutation of the entries added; entries added for lines 30, 10,
20 come back in the order 10, 20, 30. -/
theorem error_log_sorted (entries : List error_entry) :
    List.Sorted line_le (get_type_errors (add_errors class_state.init entries))
      ∧ List.Perm (get_type_errors (add_errors class_state.init entries)) entries
      ∧ get_type_errors (add_errors class_state.init
          [("main.cpp", 30, "third"), ("main.cpp", 10, "first"), ("main.cpp", 20, "second")])
        = [("main.cpp", 10, "first"), ("main.cpp", 20, "second"), ("main.cpp", 30, "third")] := by
  refine ⟨?_, ?_, by decide⟩
  · cases entries with
    | nil => simp [add_errors, get_type_errors, class_state.init]
    | cons e rest => exact add_errors_sorted_perm (e :: rest) _ (by simp)
  · simpa [get_type_errors, class_state.init] using add_errors_perm entries class_state.init

/-! ## C18: gathering the errors of a type list -/

theorem err_iterator_eq (reg : registry) (TS : List type_id) :
    ∀ out : List error_entry,
      err_iterator reg TS out = out ++ (TS.map (fun T => get_type_errors (reg T))).flatten := by
  induction TS with
  | nil => intro out; simp [err_iterator]
  | cons T rest ih => intro out; simp [err_iterator, ih]

/-- C18. `gather_all_errors<T1, ..., Tn>()` is `get_type_errors<T1>() ++ ... ++
get_type_errors<Tn>()` in list order; its length is the sum of the lengths, and it is
empty for the empty type list. -/
theorem gather_all_errors_concat (reg : registry) (TS : List type_id) :
    gather_all_errors reg TS = (TS.map (fun T => get_type_errors (reg T))).flatten
      ∧ (gather_all_errors reg TS).length
          = (TS.map (fun T => (get_type_errors (reg T)).length)).sum
      ∧ gather_all_errors reg [] = [] := by
  have h : gather_all_errors reg TS
      = (TS.map (fun T => get_type_errors (reg T))).flatten := by
    simp [gather_all_errors, err_iterator_eq]
  refine ⟨h, ?_, rfl⟩
  rw [h, List.length_flatten, List.map_map]
  rfl

/-! ## C19: per-type isolation -/

/-- C19. A registration call for type `A`, whatever its kind and whether it returns `true`
or `false`, leaves the layout and the error list of every other type `B` as they were. -/
theorem other_types_untouched (P : platform) (classes : type_id → class_t)
    (reg reg1 : registry) (A B : type_id) (r : registration) (b : Bool)
    (hrun : registry.run P classes reg A r = some (b, reg1)) (hAB : B ≠ A) :
    get_layout (reg1 B) = get_layout (reg B)
      ∧ get_type_errors (reg1 B) = get_type_errors (reg B) := by
  simp only [registry.run] at hrun
  split at hrun
  · cases hrun
  · cases hrun
    simp [registry.set, hAB]

set_option maxRecDepth 100000 in
/-- C19 at `class2<double, int, 2>::a`: the layout of `class2<double, int, 9>` stays the
initial one. -/
theorem other_types_untouched_witness :
    get_layout (registry_of (registry.run lp64 example_classes registry.init
          class2_double_int_2 class2_a) class2_double_int_9)
        = get_layout (registry.init class2_double_int_9)
      ∧ get_type_errors (registry_of (registry.run lp64 example_classes registry.init
          class2_double_int_2 class2_a) class2_double_int_9)
        = get_type_errors (registry.init class2_double_int_9) :=
  other_types_untouched lp64 example_classes registry.init
    (registry_of (registry.run lp64 example_classes registry.init class2_double_int_2
      class2_a))
    class2_double_int_2 class2_double_int_9 class2_a true rfl (by decide)

/-! ## C20: the payload of a structured field -/

/-- C20. A field whose static type is the non-indexable class `F`, registered
successfully: the stored item has category `klass` and its payload is `id_of<F>::value`,
which is the id of the specialisation bound to `F` (explicit, or else the matching
partial one) and 0 when `F` has none. -/
theorem structured_payload (P : platform) (C : class_t) (table : List id_binding)
    (sizes : type_id → Nat) (F : type_id) (FT : field_t) (st st1 : class_state) (o : Nat)
    (cn : String) (fn : c_str) (ud : Nat) (file : String) (line : Nat)
    (hF : klass_field table sizes F = some FT)
    (hrun : register_field P C FT st o cn fn ud file line = some (true, st1)) :
    ∃ info id, map_find fn st1.layout.fields = some info
      ∧ info.item.category = .klass
      ∧ info.item.data = .id id
      ∧ id_of table F = some id
      ∧ (∀ v, exact_ids table F = [v] → id = v)
      ∧ (exact_ids table F = [] → ∀ v, conditional_ids table F = [v] → id = v)
      ∧ (exact_ids table F = [] → conditional_ids table F = [] → id = 0) := by
  simp only [klass_field, Option.map_eq_some'] at hF
  obtain ⟨id, hid, hFT⟩ := hF
  subst hFT
  cases hf : map_find fn st.layout.fields with
  | some v =>
    obtain ⟨st2, h1, -, -⟩ := setup_class_field_present C st cn fn ud file line v hf
    simp [register_field, h1] at hrun
  | none =>
    obtain ⟨st2, h1, h2, -⟩ := setup_class_field_absent C st cn fn ud file line hf
    simp only [register_field, h1, register_item] at hrun
    cases hrun
    have hfind := map_find_set_self fn
      (.mk .klass (.id id) item_t.default.items
        (item_t.default.ranges ++ byte_range o (sizes F)))
      (update_extent (item_t.default.ranges ++ byte_range o (sizes F)) st2.layout).fields
      { user_data := ud, item := item_t.default }
      (by rw [update_extent_fields, h2]; exact map_find_place_self fn _ _ hf)
    refine ⟨_, id, hfind, rfl, rfl, hid, ?_, ?_, ?_⟩
    · intro v hv; simp only [id_of, hv] at hid; exact (Option.some.inj hid).symm
    · intro he v hv; simp only [id_of, he, hv] at hid; exact (Option.some.inj hid).symm
    · intro he hc; simp only [id_of, he, hc] at hid; exact (Option.some.inj hid).symm

/-- C20 at `with_classes::e` of type `class3<double>` (offset 96, id `0x10000002`) and at
`with_classes::d` of type `class3<int>` (offset 88, no binding, id 0). -/
theorem structured_payload_witness :
    (∃ info id,
      map_find ⟨4900, "e"⟩ (state_of (register_field lp64 with_classes (.klass 8 0x10000002)
          class_state.init 96 "with_classes" ⟨4900, "e"⟩ 0 "main.cpp" 267)).layout.fields
        = some info
      ∧ info.item.category = .klass
      ∧ info.item.data = .id id
      ∧ id_of example_ids class3_double = some id
      ∧ (∀ v, exact_ids example_ids class3_double = [v] → id = v)
      ∧ (exact_ids example_ids class3_double = [] →
          ∀ v, conditional_ids example_ids class3_double = [v] → id = v)
      ∧ (exact_ids example_ids class3_double = [] →
          conditional_ids example_ids class3_double = [] → id = 0))
    ∧ id_of example_ids class3_double = some 0x10000002
    ∧ id_of example_ids class3_int = some 0
    ∧ klass_field example_ids example_sizes class3_int = some (.klass 4 0) :=
  ⟨structured_payload lp64 with_classes example_ids example_sizes class3_double
      (.klass 8 0x10000002) class_state.init
      (state_of (register_field lp64 with_classes (.klass 8 0x10000002)
          class_state.init 96 "with_classes" ⟨4900, "e"⟩ 0 "main.cpp" 267))
      96 "with_classes" ⟨4900, "e"⟩ 0 "main.cpp" 267 rfl rfl,
    by decide, by decide, rfl⟩

/-! ## C14: one field under two display names -/

mutual
theorem register_item_item (P : platform) :
    ∀ (F : field_t) (o : Nat) (it : item_t) (l l2 : class_layout) (x : item_t)
      (lx : class_layout), register_item P F o it l = some (x, lx) →
      ∃ ly, register_item P F o it l2 = some (x, ly)
  | .arithmetic t, o, it, l, l2, x, lx, h => by
    simp only [register_item] at h ⊢
    split at h
    · cases h
    · rename_i enc henc
      cases h
      simp [henc]
  | .pointer, o, it, l, l2, x, lx, h => by
    simp only [register_item] at h ⊢
    cases h
    simp
  | .klass sz id, o, it, l, l2, x, lx, h => by
    simp only [register_item] at h ⊢
    cases h
    simp
  | .container elems, o, it, l, l2, x, lx, h => by
    simp only [register_item] at h ⊢
    split at h
    · cases h
    · rename_i items l3 hc
      cases h
      obtain ⟨ly, hy⟩ := register_container_items P elems o l l2 items l3 hc
      simp [hy]
theorem register_container_items (P : platform) :
    ∀ (es : List (Nat × field_t)) (o : Nat) (l l2 : class_layout) (xs : List item_t)
      (lx : class_layout), register_container P es o l = some (xs, lx) →
      ∃ ly, register_container P es o l2 = some (xs, ly)
  | [], o, l, l2, xs, lx, h => by
    simp only [register_container] at h ⊢
    cases h
    simp
  | (eo, t) :: rest, o, l, l2, xs, lx, h => by
    simp only [register_container] at h ⊢
    split at h
    · cases h
    · rename_i child l3 hi
      split at h
      · cases h
      · rename_i children l4 hr
        cases h
        obtain ⟨ly, hy⟩ := register_item_item P t _ _ l l2 child l3 hi
        obtain ⟨lz, hz⟩ := register_container_items P rest o l3 ly children lx hr
        simp [hy, hz]
end

theorem map_place_length (k : c_str) (v : field_info_t) (m : List (c_str × field_info_t)) :
    (map_place k v m).length = m.length + 1 := by
  induction m with
  | nil => rfl
  | cons e rest ih =>
    obtain ⟨k1, v1⟩ := e
    simp only [map_place]
    split <;> simp [ih]

theorem map_set_item_length (k : c_str) (it : item_t) (m : List (c_str × field_info_t)) :
    (map_set_item k it m).length = m.length := by
  induction m with
  | nil => rfl
  | cons e rest ih =>
    obtain ⟨k1, v1⟩ := e
    simp only [map_set_item]
    split <;> simp [ih]

/-- A call of `register_field` under a name that is not in the field map yet. -/
theorem register_field_fresh (P : platform) (C : class_t) (F : field_t) (st st1 : class_state)
    (o : Nat) (cn : String) (fn : c_str) (ud : Nat) (file : String) (line : Nat) (b : Bool)
    (hnew : map_find fn st.layout.fields = none)
    (hrun : register_field P C F st o cn fn ud file line = some (b, st1)) :
    b = true ∧ st1.errors = st.errors
      ∧ st1.layout.fields.length = st.layout.fields.length + 1
      ∧ ∃ it l, register_item P F o item_t.default (first_touch C st.layout cn) = some (it, l)
          ∧ map_find fn st1.layout.fields = some { user_data := ud, item := it } := by
  rw [register_field, setup_class_field_absent_layout C st cn fn ud file line hnew] at hrun
  simp only at hrun
  split at hrun
  · cases hrun
  · rename_i it l hi
    cases hrun
    have hfl := register_item_fields P F _ _ _ _ _ hi
    obtain ⟨ly, hy⟩ := register_item_item P F o item_t.default _
      (first_touch C st.layout cn) it l hi
    refine ⟨rfl, rfl, ?_, it, ly, hy, ?_⟩
    · simp only [map_set_item_length, hfl, map_place_length]
    · have := map_find_set_self fn it l.fields { user_data := ud, item := item_t.default }
        (by rw [hfl]; exact map_find_place_self fn _ _ hnew)
      simpa using this

/-- C14. One field (same class, same offset, same static type) registered under two field
names that are both new: both calls return `true`, no error is logged, the field map grows
by two entries, and the two entries carry the user data of their own call and the same
item (category, payload, ranges and children). -/
theorem two_display_names (P : platform) (C : class_t) (F : field_t)
    (st st1 st2 : class_state) (o : Nat) (cn1 cn2 : String) (fn1 fn2 : c_str)
    (ud1 ud2 : Nat) (file1 file2 : String) (line1 line2 : Nat) (b1 b2 : Bool)
    (hne : fn1.addr ≠ fn2.addr)
    (hnew1 : map_find fn1 st.layout.fields = none)
    (hnew2 : map_find fn2 st.layout.fields = none)
    (h1 : register_field P C F st o cn1 fn1 ud1 file1 line1 = some (b1, st1))
    (h2 : register_field P C F st1 o cn2 fn2 ud2 file2 line2 = some (b2, st2)) :
    b1 = true ∧ b2 = true ∧ st2.errors = st.errors
      ∧ st2.layout.fields.length = st.layout.fields.length + 2
      ∧ ∃ it, map_find fn1 st2.layout.fields = some { user_data := ud1, item := it }
          ∧ map_find fn2 st2.layout.fields = some { user_data := ud2, item := it } := by
  obtain ⟨hb1, he1, hl1, it1, l1, hi1, hf1⟩ :=
    register_field_fresh P C F st st1 o cn1 fn1 ud1 file1 line1 b1 hnew1 h1
  have hnew2' : map_find fn2 st1.layout.fields = none := by
    rw [run_find_other P C st st1 (.field F o cn1 fn1 ud1 file1 line1) b1 fn2 h1 hne]
    exact hnew2
  obtain ⟨hb2, he2, hl2, it2, l2, hi2, hf2⟩ :=
    register_field_fresh P C F st1 st2 o cn2 fn2 ud2 file2 line2 b2 hnew2' h2
  obtain ⟨ly, hy⟩ := register_item_item P F o item_t.default _
    (first_touch C st.layout cn1) it2 l2 hi2
  have hit : it2 = it1 := by
    rw [hi1] at hy
    exact ((Prod.mk.inj (Option.some.inj hy)).1).symm
  subst hit
  refine ⟨hb1, hb2, he2.trans he1, by omega, it2, ?_, hf2⟩
  rw [run_find_other P C st1 st2 (.field F o cn2 fn2 ud2 file2 line2) b2 fn1 h2
    (fun h => hne h.symm)]
  exact hf1

set_option maxRecDepth 100000 in
/-- C14 at `simple_types::b`, registered as `b` and as `other_b_name`. -/
theorem two_display_names_witness :
    true = true ∧ true = true
      ∧ (state_of (other_b_name.run lp64 simple_types
          (state_of (dup_first.run lp64 simple_types class_state.init)))).errors
        = class_state.init.errors
      ∧ (state_of (other_b_name.run lp64 simple_types
          (state_of (dup_first.run lp64 simple_types class_state.init)))).layout.fields.length
        = class_state.init.layout.fields.length + 2
      ∧ ∃ it,
          map_find ⟨4096, "b"⟩ (state_of (other_b_name.run lp64 simple_types
              (state_of (dup_first.run lp64 simple_types class_state.init)))).layout.fields
            = some { user_data := 0, item := it }
          ∧ map_find ⟨4800, "other_b_name"⟩ (state_of (other_b_name.run lp64 simple_types
              (state_of (dup_first.run lp64 simple_types class_state.init)))).layout.fields
            = some { user_data := 0, item := it } :=
  two_display_names lp64 simple_types (.arithmetic .unsigned_char) class_state.init
    (state_of (dup_first.run lp64 simple_types class_state.init))
    (state_of (other_b_name.run lp64 simple_types
      (state_of (dup_first.run lp64 simple_types class_state.init))))
    4 "simple_types" "simple_types" ⟨4096, "b"⟩ ⟨4800, "other_b_name"⟩ 0 0
    "main.cpp" "main.cpp" 204 206 true true (by decide) rfl rfl rfl rfl

/-! ## C15, C16: first-touch initialisation and rejected duplicates -/

theorem first_touch_of_named (C : class_t) (l : class_layout) (cn : String)
    (h : l.name ≠ "") : first_touch C l cn = l := by
  simp [first_touch, h]

/-- Once the layout has a non-empty name, a call leaves name and id as they are, does not
raise `firstbit` and does not lower `lastbit`. -/
theorem run_named_monotone (P : platform) (C : class_t) (st st1 : class_state)
    (r : registration) (b : Bool) (hrun : r.run P C st = some (b, st1))
    (hname : st.layout.name ≠ "") :
    st1.layout.name = st.layout.name ∧ st1.layout.id = st.layout.id
      ∧ st1.layout.firstbit ≤ st.layout.firstbit
      ∧ st.layout.lastbit ≤ st1.layout.lastbit := by
  cases r with
  | field F o cn fn ud file line =>
    simp only [registration.run, register_field] at hrun
    cases hf : map_find fn st.layout.fields with
    | some v =>
      rw [setup_class_field_present_layout C st cn fn ud file line v hf,
        first_touch_of_named C _ cn hname] at hrun
      cases hrun
      exact ⟨rfl, rfl, le_refl _, le_refl _⟩
    | none =>
      rw [setup_class_field_absent_layout C st cn fn ud file line hf,
        first_touch_of_named C _ cn hname] at hrun
      simp only at hrun
      split at hrun
      · cases hrun
      · rename_i it l hi
        cases hrun
        have hnm := register_item_name P F _ _ _ _ _ hi
        have hex := register_item_extent P F _ _ _ _ hi
        exact ⟨hnm.1, hnm.2, hex.1, hex.2.1⟩
  | bitfield F cn fn ud g s file line =>
    simp only [registration.run, register_bitfield] at hrun
    split at hrun
    · cases hrun
    · split at hrun
      · cases hrun
      · cases hf : map_find fn st.layout.fields with
        | some v =>
          rw [setup_class_field_present_layout C st cn fn ud file line v hf,
            first_touch_of_named C _ cn hname] at hrun
          cases hrun
          exact ⟨rfl, rfl, le_refl _, le_refl _⟩
        | none =>
          rw [setup_class_field_absent_layout C st cn fn ud file line hf,
            first_touch_of_named C _ cn hname] at hrun
          simp only at hrun
          split at hrun
          · cases hrun
            exact ⟨rfl, rfl, le_refl _, le_refl _⟩
          · cases hrun
            have hm := update_extent_mono
              (item_t.default.ranges ++ probe_ranges P C F g s
                (get_first_bit_position (s (zeroed C) (static_cast P F 1))
                  (to_signed 32 C.sizeof)).toNat)
              { st.layout with
                fields := map_place fn { user_data := ud, item := item_t.default }
                  st.layout.fields }
            exact ⟨update_extent_name _ _, update_extent_id _ _, hm.1, hm.2⟩

/-- A call rejected as a duplicate leaves a layout with a non-empty name exactly as it
was. -/
theorem duplicate_keeps_named_layout (P : platform) (C : class_t) (st st1 : class_state)
    (r : registration) (b : Bool) (v : field_info_t)
    (hrun : r.run P C st = some (b, st1))
    (hdup : map_find r.fieldname st.layout.fields = some v)
    (hname : st.layout.name ≠ "") :
    b = false ∧ st1.layout = st.layout := by
  cases r with
  | field F o cn fn ud file line =>
    simp only [registration.run, register_field] at hrun
    rw [setup_class_field_present_layout C st cn fn ud file line v hdup,
      first_touch_of_named C _ cn hname] at hrun
    cases hrun
    exact ⟨rfl, rfl⟩
  | bitfield F cn fn ud g s file line =>
    simp only [registration.run, register_bitfield] at hrun
    split at hrun
    · cases hrun
    · split at hrun
      · cases hrun
      · rw [setup_class_field_present_layout C st cn fn ud file line v hdup,
          first_touch_of_named C _ cn hname] at hrun
        cases hrun
        exact ⟨rfl, rfl⟩

/-- C15 fails on the code: after two accepted calls announced with the empty class name,
`firstbit` has gone up from 0 to 48, because the second call initialised the layout again;
and when the second call carries the class name, that later call changes the name of the
layout. -/
theorem later_call_initialises_again :
    (trace_all lp64 simple_types class_state.init [unnamed_first, unnamed_second]).map
        layout_summary
      = [("", 0, 0, 31, 1), ("", 0, 48, 63, 2)]
    ∧ (trace_all lp64 simple_types class_state.init [unnamed_first, named_second]).map
        layout_summary
      = [("", 0, 0, 31, 1), ("simple_types", 0, 48, 63, 2)] := by
  constructor <;> rfl

/-- C16 fails on the code: `simple_types::a` announced twice with the empty class name.
The second call is rejected as a duplicate and logs one error, but it has reset the
extent of the layout from `[0, 31]` to `firstbit = SIZE_MAX`, `lastbit = 0`. -/
theorem rejected_duplicate_resets_extent :
    flag_of (unnamed_first.run lp64 simple_types
        (state_of (unnamed_first.run lp64 simple_types class_state.init))) = false
    ∧ (trace_all lp64 simple_types class_state.init [unnamed_first, unnamed_first]).map
        layout_summary
      = [("", 0, 0, 31, 1), ("", 0, SIZE_MAX, 0, 1)]
    ∧ (trace_all lp64 simple_types class_state.init [unnamed_first, unnamed_first]).map
        (fun st => st.errors.length)
      = [0, 1] := by
  refine ⟨rfl, rfl, rfl⟩

/-! ## C12: the shape of indexable items -/

mutual
theorem get_max_bit_max : ∀ (it : item_t) (v : Nat),
    get_max_bit v it = max v (get_max_bit 0 it)
  | .mk .container d items r, v => by
    simp only [get_max_bit]
    exact get_max_bit_loop_max items v
  | .mk .undefined d items r, v => by simp [get_max_bit]
  | .mk .arithmetic d items r, v => by simp [get_max_bit]
  | .mk .bitfield d items r, v => by simp [get_max_bit]
  | .mk .pointer d items r, v => by simp [get_max_bit]
  | .mk .klass d items r, v => by simp [get_max_bit]
theorem get_max_bit_loop_max : ∀ (its : List item_t) (v : Nat),
    get_max_bit_loop v its = max v (get_max_bit_loop 0 its)
  | [], v => by simp [get_max_bit_loop]
  | it :: rest, v => by
    simp only [get_max_bit_loop]
    have h1 := get_max_bit_max it v
    have h2 : (if get_max_bit v it > v then get_max_bit v it else v)
        = max v (get_max_bit 0 it) := by
      rw [h1]; split <;> omega
    have h3 : (if get_max_bit 0 it > 0 then get_max_bit 0 it else 0) = get_max_bit 0 it := by
      split <;> omega
    rw [h2, h3, get_max_bit_loop_max rest (max v (get_max_bit 0 it)),
      get_max_bit_loop_max rest (get_max_bit 0 it)]
    omega
end

theorem max_end_bit_append (a b : List item_t) :
    max_end_bit (a ++ b) = max (max_end_bit a) (max_end_bit b) := by
  induction a with
  | nil => simp [max_end_bit]
  | cons x rest ih =>
    simp only [max_end_bit, List.cons_append, List.map_cons, List.foldr_cons] at ih ⊢
    rw [ih]
    omega

theorem max_end_bit_cons (x : item_t) (a : List item_t) :
    max_end_bit (x :: a) = max x.end_bit (max_end_bit a) := by
  simp [max_end_bit]

theorem set_back_pair (v a b : Nat) : set_back v [a, b] = [a, v] := rfl

mutual
theorem register_item_shape (P : platform) :
    ∀ (F : field_t) (o : Nat) (l : class_layout) (it : item_t) (l1 : class_layout),
      register_item P F o item_t.default l = some (it, l1) →
      indexable_shape F it ∧ get_max_bit 0 it = it.end_bit
        ∧ max_end_bit it.descendants ≤ it.end_bit
  | .arithmetic t, o, l, it, l1, h => by
    simp only [register_item] at h
    split at h
    · cases h
    · cases h
      refine ⟨?_, ?_, ?_⟩
      · simp only [indexable_shape]
      · exact Nat.zero_max _
      · exact Nat.zero_le _
  | .pointer, o, l, it, l1, h => by
    simp only [register_item] at h
    cases h
    refine ⟨?_, ?_, ?_⟩
    · simp only [indexable_shape]
    · exact Nat.zero_max _
    · exact Nat.zero_le _
  | .klass sz id, o, l, it, l1, h => by
    simp only [register_item] at h
    cases h
    refine ⟨?_, ?_, ?_⟩
    · simp only [indexable_shape]
    · exact Nat.zero_max _
    · exact Nat.zero_le _
  | .container elems, o, l, it, l1, h => by
    simp only [register_item] at h
    split at h
    · cases h
    · rename_i items l2 hc
      cases h
      obtain ⟨hshapes, hlen, hmax⟩ := register_container_shape P elems o l items l2 hc
      have hend : (item_t.mk .container (.container elems.length) items
          (set_back (get_max_bit 0 (.mk .container (.container elems.length) items
              (item_t.default.ranges ++ [size_mul o 8, size_mul o 8])))
            (item_t.default.ranges ++ [size_mul o 8, size_mul o 8]))).end_bit
          = get_max_bit_loop 0 items := by
        simp [item_t.end_bit, item_t.ranges, item_t.default, set_back, get_max_bit]
      refine ⟨?_, ?_, ?_⟩
      · simp only [indexable_shape, item_t.category, item_t.data, item_t.items]
        refine ⟨trivial, trivial, hlen, ?_, ?_, hshapes⟩
        · simp [item_t.ranges, item_t.default, set_back]
        · rw [hend, hmax]; rfl
      · rw [hend]; simp [get_max_bit]
      · rw [hend, hmax]
        exact le_of_eq rfl
theorem register_container_shape (P : platform) :
    ∀ (es : List (Nat × field_t)) (o : Nat) (l : class_layout) (its : List item_t)
      (l1 : class_layout), register_container P es o l = some (its, l1) →
      indexable_shapes es its ∧ its.length = es.length
        ∧ get_max_bit_loop 0 its = max_end_bit (descendants_of its)
  | [], o, l, its, l1, h => by
    simp only [register_container] at h
    cases h
    simp [indexable_shapes, get_max_bit_loop, descendants_of, max_end_bit]
  | (eo, t) :: rest, o, l, its, l1, h => by
    simp only [register_container] at h
    split at h
    · cases h
    · rename_i child l2 hi
      split at h
      · cases h
      · rename_i children l3 hr
        cases h
        obtain ⟨hs, hg, hd⟩ := register_item_shape P t _ l child l2 hi
        obtain ⟨hss, hlen, hmax⟩ := register_container_shape P rest o l2 children l1 hr
        refine ⟨⟨hs, hss⟩, by simp [hlen], ?_⟩
        have h3 : (if get_max_bit 0 child > 0 then get_max_bit 0 child else 0)
            = get_max_bit 0 child := by
          split <;> omega
        simp only [get_max_bit_loop, descendants_of]
        rw [h3, get_max_bit_loop_max children (get_max_bit 0 child), hg, hmax,
          max_end_bit_cons, max_end_bit_append]
        omega
end

/-- C12. A field of indexable type with `N` elements, registered successfully: the stored
item has category `container`, count `N`, `N` children, exactly one range pair, and its
end bit is the maximum end bit over all items below it; the same holds for every nested
indexable element, at any depth. -/
theorem indexable_field_shape (P : platform) (C : class_t) (elems : List (Nat × field_t))
    (st st1 : class_state) (o : Nat) (cn : String) (fn : c_str) (ud : Nat) (file : String)
    (line : Nat)
    (hrun : register_field P C (.container elems) st o cn fn ud file line = some (true, st1)) :
    ∃ info, map_find fn st1.layout.fields = some info
      ∧ info.item.category = .container
      ∧ info.item.data = .container elems.length
      ∧ info.item.items.length = elems.length
      ∧ info.item.ranges.length = 2
      ∧ info.item.end_bit = max_end_bit info.item.descendants
      ∧ indexable_shapes elems info.item.items := by
  cases hf : map_find fn st.layout.fields with
  | some v =>
    obtain ⟨st2, h1, -, -⟩ := setup_class_field_present C st cn fn ud file line v hf
    simp [register_field, h1] at hrun
  | none =>
    obtain ⟨-, -, -, it, l, hi, hfind⟩ :=
      register_field_fresh P C _ st st1 o cn fn ud file line true hf hrun
    have hshape := (register_item_shape P (.container elems) o _ it l hi).1
    simp only [indexable_shape] at hshape
    exact ⟨_, hfind, hshape⟩

set_option maxRecDepth 100000 in
/-- C12 at `complex_types::b` of type `pair<tuple<char, float, double>, tuple<short>>` at
offset 24. -/
theorem indexable_field_shape_witness :
    ∃ info,
      map_find ⟨5000, "b"⟩ (state_of (register_field lp64 complex_types pair_of_tuples
          class_state.init 24 "complex_types" ⟨5000, "b"⟩ 0 "main.cpp" 272)).layout.fields
        = some info
      ∧ info.item.category = .container
      ∧ info.item.data = .container 2
      ∧ info.item.items.length = 2
      ∧ info.item.ranges.length = 2
      ∧ info.item.end_bit = max_end_bit info.item.descendants
      ∧ indexable_shapes
          [ (0, .container
              [(12, .arithmetic .char), (8, .arithmetic .float), (0, .arithmetic .double)]),
            (16, .container [(0, .arithmetic .short)]) ]
          info.item.items :=
  indexable_field_shape lp64 complex_types
    [ (0, .container
        [(12, .arithmetic .char), (8, .arithmetic .float), (0, .arithmetic .double)]),
      (16, .container [(0, .arithmetic .short)]) ]
    class_state.init
    (state_of (register_field lp64 complex_types pair_of_tuples
      class_state.init 24 "complex_types" ⟨5000, "b"⟩ 0 "main.cpp" 272))
    24 "complex_types" ⟨5000, "b"⟩ 0 "main.cpp" 272 rfl

/-! ## C13: where the elements of an indexable field are classified -/

theorem register_container_placement (P : platform) :
    ∀ (es : List (Nat × field_t)) (b : Nat) (l l1 : class_layout) (its : List item_t),
      register_container P es b l = some (its, l1) →
      ∀ (i off : Nat) (F : field_t), es[i]? = some (off, F) →
        ∃ child l2 l3, its[i]? = some child
          ∧ register_item P F (size_add b off) item_t.default l2 = some (child, l3) := by
  intro es
  induction es with
  | nil => intro b l l1 its _ i off F hi; simp at hi
  | cons e rest ih =>
    intro b l l1 its h i off F hi
    obtain ⟨eo, t⟩ := e
    simp only [register_container] at h
    split at h
    · cases h
    · rename_i child l2 hc
      split at h
      · cases h
      · rename_i children l3 hr
        cases h
        cases i with
        | zero =>
          simp only [List.getElem?_cons_zero, Option.some.injEq, Prod.mk.injEq] at hi
          obtain ⟨h1, h2⟩ := hi
          subst h1; subst h2
          exact ⟨child, l, l2, by simp, hc⟩
        | succ j =>
          simp only [List.getElem?_cons_succ] at hi
          obtain ⟨c, la, lb, h1, h2⟩ := ih b l2 l1 children hr j off F hi
          exact ⟨c, la, lb, by simpa using h1, h2⟩

theorem register_item_children (P : platform) (es : List (Nat × field_t)) (o : Nat)
    (it x : item_t) (l lx : class_layout)
    (h : register_item P (.container es) o it l = some (x, lx)) :
    ∃ ly, register_container P es o l = some (x.items, ly) := by
  simp only [register_item] at h
  split at h
  · cases h
  · rename_i items l2 hc
    cases h
    exact ⟨l2, hc⟩

theorem array_elems_get (N s : Nat) (t : arith_t) (i : Nat) (h : i < N) :
    (array_elems N s t)[i]? = some (i * s, .arithmetic t) := by
  simp [array_elems, List.getElem?_map, List.getElem?_range h]

/-- The maximum computed by `get_max_bit` over the children of a fixed array of
arithmetic elements that starts with element `k`. -/
theorem array_children_max (P : platform) (t : arith_t) (o : Nat) :
    ∀ (n k : Nat) (l l1 : class_layout) (its : List item_t) (v : Nat),
      8 * (o + (k + n) * sizeof_arith P t) ≤ 2 ^ 64 → 1 ≤ sizeof_arith P t →
      register_container P
        ((List.range' k n).map (fun i => (i * sizeof_arith P t, field_t.arithmetic t))) o l
        = some (its, l1) →
      get_max_bit_loop v its
        = if n = 0 then v else max v (8 * (o + (k + n) * sizeof_arith P t) - 1) := by
  intro n
  induction n with
  | zero =>
    intro k l l1 its v _ _ h
    simp only [List.range'_zero, List.map_nil, register_container] at h
    cases h
    simp [get_max_bit_loop]
  | succ n ih =>
    intro k l l1 its v hfit hs h
    simp only [List.range'_succ, List.map_cons, register_container] at h
    split at h
    · cases h
    · rename_i child l2 hc
      split at h
      · cases h
      · rename_i children l3 hr
        cases h
        have e1 : (k + (n + 1)) * sizeof_arith P t
            = k * sizeof_arith P t + sizeof_arith P t + n * sizeof_arith P t := by ring
        have e2 : (k + 1 + n) * sizeof_arith P t
            = k * sizeof_arith P t + sizeof_arith P t + n * sizeof_arith P t := by ring
        have hoff : size_add o (k * sizeof_arith P t) = o + k * sizeof_arith P t := by
          simp only [size_add]
          apply Nat.mod_eq_of_lt
          norm_num at hfit ⊢
          omega
        obtain ⟨hr1, -⟩ := register_item_plain P (.arithmetic t) _ (sizeof_arith P t) _ _
          child rfl hc
        have hcat : child.category = .arithmetic :=
          (register_item_plain P (.arithmetic t) _ (sizeof_arith P t) _ _ child rfl hc).2
        rw [hoff, byte_range_eq _ _ hs (by rw [e1] at hfit; omega)] at hr1
        have hchild : ∀ w, get_max_bit w child
            = max w (8 * (o + k * sizeof_arith P t) + 8 * sizeof_arith P t - 1) := by
          intro w
          obtain ⟨c, d, is, r⟩ := child
          simp only [item_t.category] at hcat
          simp only [item_t.ranges] at hr1
          subst hcat; subst hr1
          simp [get_max_bit]
        have hnext := ih (k + 1) l2 l1 children
          (max v (8 * (o + k * sizeof_arith P t) + 8 * sizeof_arith P t - 1))
          (by rw [e2]; rw [e1] at hfit; exact hfit) hs hr
        simp only [get_max_bit_loop]
        have hif : (if get_max_bit v child > v then get_max_bit v child else v)
            = max v (8 * (o + k * sizeof_arith P t) + 8 * sizeof_arith P t - 1) := by
          rw [hchild]; split <;> omega
        rw [hif, hnext, if_neg (Nat.succ_ne_zero n)]
        by_cases hn : n = 0
        · subst hn
          rw [if_pos rfl]
          have e3 : (k + (0 + 1)) * sizeof_arith P t
              = k * sizeof_arith P t + sizeof_arith P t := by ring
          rw [e3]
          omega
        · rw [if_neg hn, e1, e2]
          omega

/-- C13. In an indexable field registered at byte offset `o`, child `i` is the item
`register_field` produces for the type of element `i` at offset `o + (offset of element
i)`, and a grandchild is classified at the sum of the three offsets. For a fixed array of
`N ≥ 1` arithmetic elements of size `s` that ends inside the `2 ^ 64` bits a `size_t` can
number, child `i` has the range `[8*(o+i*s), 8*(o+(i+1)*s) - 1]` and the array item itself
the range `[8*o, 8*(o+N*s) - 1]`. -/
theorem element_placement (P : platform) (C : class_t) (es : List (Nat × field_t))
    (st st1 : class_state) (o : Nat) (cn : String) (fn : c_str) (ud : Nat) (file : String)
    (line : Nat)
    (hrun : register_field P C (.container es) st o cn fn ud file line = some (true, st1)) :
    ∃ info, map_find fn st1.layout.fields = some info
      ∧ (∀ (i off : Nat) (F : field_t), es[i]? = some (off, F) →
          ∃ child l2 l3, info.item.items[i]? = some child
            ∧ register_item P F (size_add o off) item_t.default l2 = some (child, l3)
            ∧ ∀ (es2 : List (Nat × field_t)), F = .container es2 →
                ∀ (j off2 : Nat) (F2 : field_t), es2[j]? = some (off2, F2) →
                  ∃ grandchild l4 l5, child.items[j]? = some grandchild
                    ∧ register_item P F2 (size_add (size_add o off) off2) item_t.default l4
                        = some (grandchild, l5))
      ∧ (∀ (N : Nat) (t : arith_t), es = array_elems N (sizeof_arith P t) t → 1 ≤ N →
          1 ≤ sizeof_arith P t → 8 * (o + N * sizeof_arith P t) ≤ 2 ^ 64 →
          info.item.ranges = [8 * o, 8 * (o + N * sizeof_arith P t) - 1]
            ∧ info.item.items.length = N
            ∧ ∀ i, i < N → ∃ child, info.item.items[i]? = some child
                ∧ child.ranges = [8 * (o + i * sizeof_arith P t),
                    8 * (o + (i + 1) * sizeof_arith P t) - 1]) := by
  cases hf : map_find fn st.layout.fields with
  | some v =>
    obtain ⟨st2, h1, -, -⟩ := setup_class_field_present C st cn fn ud file line v hf
    simp [register_field, h1] at hrun
  | none =>
    obtain ⟨-, -, -, it, l, hi, hfind⟩ :=
      register_field_fresh P C _ st st1 o cn fn ud file line true hf hrun
    obtain ⟨ly, hch⟩ := register_item_children P es o _ it _ l hi
    have hplace := register_container_placement P es o _ ly it.items hch
    refine ⟨_, hfind, ?_, ?_⟩
    · intro i off F hget
      obtain ⟨child, l2, l3, hc1, hc2⟩ := hplace i off F hget
      refine ⟨child, l2, l3, hc1, hc2, ?_⟩
      intro es2 hF j off2 F2 hget2
      subst hF
      obtain ⟨lz, hz⟩ := register_item_children P es2 _ _ child _ l3 hc2
      exact register_container_placement P es2 _ _ lz child.items hz j off2 F2 hget2
    · intro N t hes hN hs hfit
      subst hes
      have hshape := (register_item_shape P _ o _ it l hi).1
      simp only [indexable_shape] at hshape
      obtain ⟨-, -, hlen, -, -, -⟩ := hshape
      have hlenN : (array_elems N (sizeof_arith P t) t).length = N := by simp [array_elems]
      have hmax := array_children_max P t o N 0 _ ly it.items 0
        (by simpa using hfit) hs
        (by simpa [array_elems, List.range_eq_range'] using hch)
      have hranges : it.ranges = [size_mul o 8, get_max_bit_loop 0 it.items] := by
        simp only [register_item] at hi
        split at hi
        · cases hi
        · cases hi
          simp [item_t.ranges, item_t.items, item_t.default, set_back, get_max_bit]
      have hNs : 1 ≤ N * sizeof_arith P t := Nat.mul_pos hN hs
      have hmul : size_mul o 8 = 8 * o := by
        simp only [size_mul]
        rw [Nat.mod_eq_of_lt (by norm_num at hfit ⊢; omega)]
        omega
      refine ⟨?_, by rw [hlen, hlenN], ?_⟩
      · show it.ranges = _
        rw [hranges, hmax, hmul]
        simp only [Nat.zero_add]
        rw [if_neg (by omega)]
        simp
      · intro i hiN
        obtain ⟨child, l2, l3, hc1, hc2⟩ :=
          hplace i _ _ (array_elems_get N (sizeof_arith P t) t i hiN)
        refine ⟨child, hc1, ?_⟩
        have hle : (i + 1) * sizeof_arith P t ≤ N * sizeof_arith P t :=
          Nat.mul_le_mul_right _ hiN
        have e1 : (i + 1) * sizeof_arith P t = i * sizeof_arith P t + sizeof_arith P t := by
          ring
        have hoff : size_add o (i * sizeof_arith P t) = o + i * sizeof_arith P t := by
          simp only [size_add]
          apply Nat.mod_eq_of_lt
          norm_num at hfit ⊢
          omega
        obtain ⟨hr1, -⟩ := register_item_plain P (.arithmetic t) _ (sizeof_arith P t) _ _
          child rfl hc2
        rw [hr1, hoff, byte_range_eq _ _ hs (by omega)]
        simp only [List.cons.injEq, and_true, true_and]
        omega

set_option maxRecDepth 100000 in
/-- C13 at `char a[4]`, the only member of `four_chars`, at offset 0: the children have the
ranges `[0,7]`, `[8,15]`, `[16,23]`, `[24,31]` and the array item has the range `[0,31]`. -/
theorem element_placement_witness :
    ∃ info,
      map_find ⟨5100, "a"⟩ (state_of (register_field lp64 four_chars
          (.container (array_elems 4 1 .char)) class_state.init 0 "four_chars" ⟨5100, "a"⟩ 0
          "main.cpp" 300)).layout.fields = some info
      ∧ info.item.ranges = [0, 31]
      ∧ info.item.items.length = 4
      ∧ (∃ child, info.item.items[0]? = some child ∧ child.ranges = [0, 7])
      ∧ (∃ child, info.item.items[1]? = some child ∧ child.ranges = [8, 15])
      ∧ (∃ child, info.item.items[2]? = some child ∧ child.ranges = [16, 23])
      ∧ (∃ child, info.item.items[3]? = some child ∧ child.ranges = [24, 31]) := by
  obtain ⟨info, hfind, -, harr⟩ := element_placement lp64 four_chars (array_elems 4 1 .char)
    class_state.init
    (state_of (register_field lp64 four_chars (.container (array_elems 4 1 .char))
      class_state.init 0 "four_chars" ⟨5100, "a"⟩ 0 "main.cpp" 300))
    0 "four_chars" ⟨5100, "a"⟩ 0 "main.cpp" 300 rfl
  obtain ⟨hr, hlen, hch⟩ := harr 4 .char rfl (by decide) (by decide) (by decide)
  exact ⟨info, hfind, hr, hlen, hch 0 (by decide), hch 1 (by decide), hch 2 (by decide),
    hch 3 (by decide)⟩

/-! ## C21: which class id a type gets -/

theorem exact_ids_perm (t1 t2 : List id_binding) (T : type_id) (h : List.Perm t1 t2) :
    List.Perm (exact_ids t1 T) (exact_ids t2 T) :=
  List.Perm.filterMap _ h

theorem conditional_ids_perm (t1 t2 : List id_binding) (T : type_id) (h : List.Perm t1 t2) :
    List.Perm (conditional_ids t1 T) (conditional_ids t2 T) :=
  List.Perm.filterMap _ h

/-- The selection made by `id_of` reads the two lists of candidates up to their order. -/
theorem id_of_congr (t1 t2 : List id_binding) (T : type_id)
    (he : List.Perm (exact_ids t1 T) (exact_ids t2 T))
    (hc : List.Perm (conditional_ids t1 T) (conditional_ids t2 T)) :
    id_of t1 T = id_of t2 T := by
  unfold id_of
  rcases h1 : exact_ids t1 T with _ | ⟨a, _ | ⟨b, r⟩⟩
  · rw [h1] at he
    rw [List.perm_nil.mp he.symm]
    rcases h2 : conditional_ids t1 T with _ | ⟨c, _ | ⟨d, r2⟩⟩
    · rw [h2] at hc
      rw [List.perm_nil.mp hc.symm]
    · rw [h2] at hc
      rw [List.perm_singleton.mp hc.symm]
    · rw [h2] at hc
      have hl := hc.length_eq
      rcases h3 : conditional_ids t2 T with _ | ⟨c2, _ | ⟨d2, r3⟩⟩
      · rw [h3] at hl; simp at hl
      · rw [h3] at hl; simp at hl
      · rfl
  · rw [h1] at he
    rw [List.perm_singleton.mp he.symm]
  · rw [h1] at he
    have hl := he.length_eq
    rcases h3 : exact_ids t2 T with _ | ⟨a2, _ | ⟨b2, r3⟩⟩
    · rw [h3] at hl; simp at hl
    · rw [h3] at hl; simp at hl
    · rfl

theorem matching_from_ge (T : type_id) (table : List id_binding) :
    ∀ (i : Nat), ∀ c ∈ matching_from T i table, i ≤ c.1 := by
  induction table with
  | nil => intro i c hc; cases hc
  | cons b rest ih =>
    intro i c hc
    cases b with
    | exact U id =>
      simp only [matching_from] at hc
      exact Nat.le_of_succ_le (ih (i + 1) c hc)
    | conditional applies id =>
      simp only [matching_from] at hc
      split at hc
      · rcases List.mem_cons.mp hc with h | h
        · rw [h]
        · exact Nat.le_of_succ_le (ih (i + 1) c h)
      · exact Nat.le_of_succ_le (ih (i + 1) c hc)

theorem matching_from_pairwise (T : type_id) (table : List id_binding) :
    ∀ (i : Nat), List.Pairwise (fun c d => c.1 < d.1) (matching_from T i table) := by
  induction table with
  | nil => intro i; exact List.Pairwise.nil
  | cons b rest ih =>
    intro i
    cases b with
    | exact U id =>
      simp only [matching_from]
      exact ih (i + 1)
    | conditional applies id =>
      simp only [matching_from]
      split
      · exact List.Pairwise.cons (fun d hd => matching_from_ge T rest (i + 1) d hd) (ih (i + 1))
      · exact ih (i + 1)

theorem matching_from_ids (T : type_id) (table : List id_binding) :
    ∀ (i : Nat), (matching_from T i table).map (fun c => c.2) = conditional_ids table T := by
  induction table with
  | nil => intro i; rfl
  | cons b rest ih =>
    intro i
    cases b with
    | exact U id =>
      simp only [matching_from, conditional_ids, List.filterMap_cons]
      exact ih (i + 1)
    | conditional applies id =>
      simp only [matching_from, conditional_ids, List.filterMap_cons]
      split
      · rename_i h
        simp only [h, if_true, List.map_cons]
        exact congrArg _ (ih (i + 1))
      · rename_i h
        simp only [h]
        exact ih (i + 1)

/-- In a list with increasing positions, a test passed by `m` and failed at every other
position keeps `m` alone. -/
theorem filter_eq_singleton (p : Nat × Nat → Bool) (l : List (Nat × Nat))
    (hl : List.Pairwise (fun c d => c.1 < d.1) l) (m : Nat × Nat) (hm : m ∈ l)
    (hpm : p m = true) (hp : ∀ d ∈ l, d.1 ≠ m.1 → p d = false) : l.filter p = [m] := by
  induction l with
  | nil => cases hm
  | cons x rest ih =>
    obtain ⟨hx, hrest⟩ := List.pairwise_cons.mp hl
    rcases List.mem_cons.mp hm with h | h
    · subst h
      have hnil : rest.filter p = [] := by
        apply List.filter_eq_nil_iff.mpr
        intro d hd
        have := hp d (List.mem_cons_of_mem _ hd) (Nat.ne_of_gt (hx d hd))
        simp [this]
      rw [List.filter_cons_of_pos hpm, hnil]
    · have hxm : x.1 ≠ m.1 := Nat.ne_of_lt (hx m h)
      have hpx : p x = false := hp x (List.mem_cons_self _ _) hxm
      rw [List.filter_cons_of_neg (by simp [hpx])]
      exact ih hrest h (fun d hd => hp d (List.mem_cons_of_mem _ hd))

/-- In a list of at least two entries with increasing positions every entry has another
one beside it. -/
theorem exists_other_position (l : List (Nat × Nat))
    (hl : List.Pairwise (fun c d => c.1 < d.1) l) (h2 : 2 ≤ l.length) :
    ∀ c ∈ l, ∃ d ∈ l, c.1 ≠ d.1 := by
  rcases l with _ | ⟨a, _ | ⟨b, r⟩⟩
  · simp at h2
  · simp at h2
  · intro c _
    have hab : a.1 < b.1 :=
      (List.pairwise_cons.mp hl).1 b (List.mem_cons_self _ _)
    by_cases hc : c.1 = a.1
    · exact ⟨b, List.mem_cons_of_mem _ (List.mem_cons_self _ _), by omega⟩
    · exact ⟨a, List.mem_cons_self _ _, hc⟩

theorem most_specialized_of_top (ms : Nat → Nat → Bool) (l : List (Nat × Nat))
    (hl : List.Pairwise (fun c d => c.1 < d.1) l) (m : Nat × Nat) (hm : m ∈ l)
    (htop : ∀ d ∈ l, d.1 ≠ m.1 → ms m.1 d.1 = true ∧ ms d.1 m.1 = false) :
    most_specialized ms l = [m] := by
  unfold most_specialized
  apply filter_eq_singleton _ l hl m hm
  · apply List.all_eq_true.mpr
    intro d hd
    by_cases hdm : d.1 = m.1
    · simp [hdm]
    · simp [(htop d hd hdm).1]
  · intro d hd hdm
    apply Bool.eq_false_iff.mpr
    intro hall
    have := List.all_eq_true.mp hall m hm
    simp only [Bool.or_eq_true, beq_iff_eq] at this
    rcases this with h | h
    · exact hdm h.symm
    · rw [(htop d hd hdm).2] at h
      cases h

theorem most_specialized_of_unordered (ms : Nat → Nat → Bool) (l : List (Nat × Nat))
    (hl : List.Pairwise (fun c d => c.1 < d.1) l) (h2 : 2 ≤ l.length)
    (hun : ∀ c ∈ l, ∀ d ∈ l, c.1 ≠ d.1 → ms c.1 d.1 = false) :
    most_specialized ms l = [] := by
  unfold most_specialized
  apply List.filter_eq_nil_iff.mpr
  intro c hc hall
  obtain ⟨d, hd, hcd⟩ := exists_other_position l hl h2 c hc
  have := List.all_eq_true.mp hall d hd
  simp only [Bool.or_eq_true, beq_iff_eq] at this
  rcases this with h | h
  · exact hcd h.symm
  · rw [hun c hc d hd hcd] at h
    cases h

theorem id_of_ordered_single (ms : Nat → Nat → Bool) (table : List id_binding) (T : type_id)
    (m : Nat × Nat) (he : exact_ids table T = []) (hm : matching_positions table T = [m]) :
    id_of_ordered ms table T = some m.2 := by
  have h : most_specialized ms [m] = [m] := by
    simp [most_specialized]
  simp only [id_of_ordered, he, hm, h]

theorem id_of_ordered_unordered (table : List id_binding) (T : type_id) :
    id_of_ordered unordered table T = id_of table T := by
  have hids := matching_from_ids T table 0
  have hpw := matching_from_pairwise T table 0
  unfold id_of_ordered id_of
  rcases he : exact_ids table T with _ | ⟨a, _ | ⟨b, r⟩⟩
  · simp only
    change (matching_positions table T).map (fun c => c.2) = conditional_ids table T at hids
    change List.Pairwise (fun c d => c.1 < d.1) (matching_positions table T) at hpw
    rcases hm : matching_positions table T with _ | ⟨c, _ | ⟨d, r2⟩⟩
    · rw [hm] at hids
      rw [← hids]
      rfl
    · rw [hm] at hids
      rw [← hids]
      have h : most_specialized unordered [c] = [c] := by
        simp [most_specialized]
      simp only [h, List.map_cons, List.map_nil]
    · rw [hm] at hids hpw
      rw [← hids]
      have h : most_specialized unordered (c :: d :: r2) = [] :=
        most_specialized_of_unordered unordered _ hpw (by simp) (fun _ _ _ _ _ => rfl)
      simp only [h, List.map_cons]
  · rfl
  · rfl

theorem probe_loop_counted_state (P : platform) (C : class_t) (F : arith_t)
    (g : List Nat → Int) (s : List Nat → Int → List Nat) :
    ∀ (left offset : Nat) (ps : probe_state),
      (probe_loop_counted P C F g s left offset ps).1 = probe_loop P C F g s left offset ps := by
  intro left
  induction left with
  | zero => intro offset ps; rfl
  | succ left ih =>
    intro offset ps
    simp only [probe_loop_counted, probe_loop]
    split
    · rfl
    · split
      · split
        · exact ih _ _
        · exact ih _ _
      · exact ih _ _

theorem probe_loop_counted_le (P : platform) (C : class_t) (F : arith_t)
    (g : List Nat → Int) (s : List Nat → Int → List Nat) :
    ∀ (left offset : Nat) (ps : probe_state),
      (probe_loop_counted P C F g s left offset ps).2 ≤ left := by
  intro left
  induction left with
  | zero => intro offset ps; simp [probe_loop_counted]
  | succ left ih =>
    intro offset ps
    simp only [probe_loop_counted]
    split
    · exact Nat.succ_le_succ (Nat.zero_le _)
    · split
      · split
        · exact Nat.succ_le_succ (ih _ _)
        · exact Nat.succ_le_succ (ih _ _)
      · exact Nat.succ_le_succ (ih _ _)

/-- C22. For every storage type of width `W = 8 * sizeof(FIELD)` and every getter and
setter, one call of `register_bitfield` enters the scan loop at most `W - 1` times and so
calls the setter at most `W` times and the getter at most `W - 1` times; the ranges it
stores are those of the state in which the counted loop ends. -/
theorem probe_terminates (P : platform) (C : class_t) (F : arith_t) (st : class_state)
    (cn : String) (fn : c_str) (ud : Nat) (g : List Nat → Int) (s : List Nat → Int → List Nat)
    (file : String) (line : Nat) (hW : 1 ≤ sizeof_arith P F) :
    (register_bitfield_calls P C F st cn fn ud g s file line).iterations
        ≤ 8 * sizeof_arith P F - 1
      ∧ (register_bitfield_calls P C F st cn fn ud g s file line).setter_calls
        ≤ 8 * sizeof_arith P F
      ∧ (register_bitfield_calls P C F st cn fn ud g s file line).getter_calls
        ≤ 8 * sizeof_arith P F - 1
      ∧ ∀ first_bit, probe_ranges P C F g s first_bit
          = final_ranges (probe_loop_counted P C F g s (8 * sizeof_arith P F - 1) 1
              { curr_bit := first_bit, last_bit := first_bit, ranges := [] }).1 := by
  have hle := probe_loop_counted_le P C F g s (8 * sizeof_arith P F - 1) 1
  refine ⟨?_, ?_, ?_, ?_⟩
  · simp only [register_bitfield_calls]
    split
    · exact Nat.zero_le _
    · split
      · exact Nat.zero_le _
      · exact hle _
  · simp only [register_bitfield_calls]
    split
    · exact Nat.zero_le _
    · split
      · show 1 ≤ 8 * sizeof_arith P F
        omega
      · refine Nat.le_trans (Nat.add_le_add_left (hle _) 1) ?_
        omega
  · simp only [register_bitfield_calls]
    split
    · exact Nat.zero_le _
    · split
      · exact Nat.zero_le _
      · exact hle _
  · intro first_bit
    rw [probe_loop_counted_state]
    rfl

set_option maxRecDepth 1000000 in
/-- C22 at the 3-bit unsigned field on bits 2 to 4 of `with_bitfields`, kept in an
`unsigned char` (`W = 8`): three iterations, four setter calls, three getter calls. -/
theorem probe_terminates_witness :
    register_bitfield_calls lp64 with_bitfields .unsigned_char class_state.init
        "with_bitfields" ⟨4200, "b"⟩ 0xF00D (bitfield_getter false (contiguous 2 3))
        (bitfield_setter (contiguous 2 3)) "main.cpp" 222
      = { iterations := 3, setter_calls := 4, getter_calls := 3 }
    ∧ (register_bitfield_calls lp64 with_bitfields .unsigned_char class_state.init
        "with_bitfields" ⟨4200, "b"⟩ 0xF00D (bitfield_getter false (contiguous 2 3))
        (bitfield_setter (contiguous 2 3)) "main.cpp" 222).iterations ≤ 7
    ∧ (register_bitfield_calls lp64 with_bitfields .unsigned_char class_state.init
        "with_bitfields" ⟨4200, "b"⟩ 0xF00D (bitfield_getter false (contiguous 2 3))
        (bitfield_setter (contiguous 2 3)) "main.cpp" 222).setter_calls ≤ 8
    ∧ (register_bitfield_calls lp64 with_bitfields .unsigned_char class_state.init
        "with_bitfields" ⟨4200, "b"⟩ 0xF00D (bitfield_getter false (contiguous 2 3))
        (bitfield_setter (contiguous 2 3)) "main.cpp" 222).getter_calls ≤ 7 :=
  ⟨by decide,
    (probe_terminates lp64 with_bitfields .unsigned_char class_state.init
      "with_bitfields" ⟨4200, "b"⟩ 0xF00D (bitfield_getter false (contiguous 2 3))
      (bitfield_setter (contiguous 2 3)) "main.cpp" 222 (by decide)).1,
    (probe_terminates lp64 with_bitfields .unsigned_char class_state.init
      "with_bitfields" ⟨4200, "b"⟩ 0xF00D (bitfield_getter false (contiguous 2 3))
      (bitfield_setter (contiguous 2 3)) "main.cpp" 222 (by decide)).2.1,
    (probe_terminates lp64 with_bitfields .unsigned_char class_state.init
      "with_bitfields" ⟨4200, "b"⟩ 0xF00D (bitfield_getter false (contiguous 2 3))
      (bitfield_setter (contiguous 2 3)) "main.cpp" 222 (by decide)).2.2.1⟩

/-! ## C23: members declared as references -/

/-- C23 as stated fails: the call for the member `int& r` of `with_reference` does not
return `false`; the instantiation is rejected when the program is compiled, so there is
no call and no return value. -/
theorem reference_call_returns_nothing :
    register_field_declared lp64 with_reference (.reference (.arithmetic .int))
        class_state.init 8 "with_reference" ⟨5200, "r"⟩ 0 "main.cpp" 1 = none
      ∧ register_field_declared lp64 with_reference (.reference (.arithmetic .int))
        class_state.init 8 "with_reference" ⟨5200, "r"⟩ 0 "main.cpp" 1
          ≠ some (false, class_state.init) := by
  constructor
  · rfl
  · intro h
    cases h

/-- C23, amended. A registration whose `FIELD` is a reference is rejected when the
program is compiled, by `register_field` and by `register_bitfield` alike: no such call
exists at run time, so none returns a value or changes a layout or an error list. A
`FIELD` that is not a reference is registered by the overload of its kind. -/
theorem reference_rejected (P : platform) (C : class_t) (F : field_t) (A : arith_t)
    (st : class_state) (o : Nat) (cn : String) (fn : c_str) (ud : Nat)
    (g : List Nat → Int) (s : List Nat → Int → List Nat) (file : String) (line : Nat) :
    register_field_declared P C (.reference F) st o cn fn ud file line = none
      ∧ register_bitfield_declared P C (.reference A) st cn fn ud g s file line = none
      ∧ register_field_declared P C (.object F) st o cn fn ud file line
          = register_field P C F st o cn fn ud file line
      ∧ register_bitfield_declared P C (.object A) st cn fn ud g s file line
          = register_bitfield P C A st cn fn ud g s file line := by
  exact ⟨rfl, rfl, rfl, rfl⟩

/-! ## C24: decoding a descriptor -/

theorem sizeof_arith_admissible (P : platform) (hP : usual_sizes P) (t : arith_t) :
    admissible_size t (sizeof_arith P t) = true := by
  obtain ⟨hw, hl, hld⟩ := hP
  cases t <;> simp only [sizeof_arith, admissible_size] <;>
    first
    | rfl
    | (rcases hw with h | h <;> rw [h] <;> rfl)
    | (rcases hl with h | h <;> rw [h] <;> rfl)
    | (rcases hld with h | h <;> rw [h] <;> rfl)

theorem decode_descriptor (t : arith_t) (signed : Bool) (size : Nat)
    (hsize : size ∈ [1, 2, 4, 8, 16]) (h : admissible_size t size = true) :
    (descriptor_of t signed size).map decode_arithmetic = some (decoded_name t signed size)
      ∧ decoded_name t signed size ≠ "undefined" ∧ decoded_name t signed size ≠ "char8_t" := by
  simp only [List.mem_cons, List.mem_singleton, List.not_mem_nil, or_false] at hsize
  revert h
  rcases hsize with h | h | h | h | h <;> subst h <;> cases t <;> cases signed <;> decide

/-- C24 as stated fails: the descriptor of `unsigned char` is decoded as `"uint8_t"`, and
where plain `char` is unsigned (AArch64) the descriptor of `char` is decoded as
`"unsigned char"`. -/
theorem unsigned_char_decodes_as_uint8 :
    get_encoded_arithmetic lp64 .unsigned_char = some 0b00000110
      ∧ (get_encoded_arithmetic lp64 .unsigned_char).map decode_arithmetic = some "uint8_t"
      ∧ (get_encoded_arithmetic lp64 .unsigned_char).map decode_arithmetic
          ≠ some "unsigned char"
      ∧ (get_encoded_arithmetic aarch64 .char).map decode_arithmetic = some "unsigned char" := by
  refine ⟨by decide, by decide, by decide, by decide⟩

/-- C24, amended. On a target with the usual sizes, the descriptor of every arithmetic
type is decoded to the name `decoded_name` gives: `unsigned char` comes back as
`"uint8_t"` and `signed char` as `"int8_t"`, plain `char` as `"char"` where it is signed
and as `"unsigned char"` where it is not, a `long double` of 8 bytes as `"double"`, every
other type under its own name or its `intN_t` / `uintN_t` name; the result is never
`"undefined"` or `"char8_t"`. -/
theorem decode_round_trip (P : platform) (t : arith_t) (enc : Nat) (hP : usual_sizes P)
    (h : get_encoded_arithmetic P t = some enc) :
    decode_arithmetic enc = decoded_name t (is_signed P t) (sizeof_arith P t)
      ∧ decode_arithmetic enc ≠ "undefined" ∧ decode_arithmetic enc ≠ "char8_t" := by
  rw [get_encoded_arithmetic_eq] at h
  have hs := descriptor_of_size _ _ _ _ h
  obtain ⟨h1, h2, h3⟩ := decode_descriptor t (is_signed P t) (sizeof_arith P t) hs
    (sizeof_arith_admissible P hP t)
  rw [h] at h1
  simp only [Option.map_some', Option.some.injEq] at h1
  rw [h1]
  exact ⟨rfl, h2, h3⟩

/-- C24, amended, at `wchar_t` on x86-64 (descriptor `0b00010001`), with the names of all
eighteen arithmetic types on that target. -/
theorem decode_round_trip_witness :
    (decode_arithmetic 0b00010001 = "wchar_t"
      ∧ decode_arithmetic 0b00010001 ≠ "undefined" ∧ decode_arithmetic 0b00010001 ≠ "char8_t")
    ∧ all_arith.map (fun t => (get_encoded_arithmetic lp64 t).map decode_arithmetic)
      = [some "bool", some "char", some "int8_t", some "uint8_t", some "wchar_t",
         some "char16_t", some "char32_t", some "int16_t", some "uint16_t", some "int32_t",
         some "uint32_t", some "int64_t", some "uint64_t", some "int64_t", some "uint64_t",
         some "float", some "double", some "long double"] :=
  ⟨decode_round_trip lp64 .wchar_t 0b00010001 (by decide) (by decide), by decide⟩

/-! ## C25: the scan for the first set bit -/

set_option maxRecDepth 100000 in
theorem byte_scan_ok_all : ∀ val < 256, byte_scan_ok val = true := by
  decide

theorem first_bit_of_byte_zero : first_bit_of_byte 0 = none := by decide

theorem first_bit_of_byte_least (val : Nat) (hval : val < 256) (hne : val ≠ 0) :
    ∃ i, i < 8 ∧ first_bit_of_byte val = some i ∧ val.testBit i = true
      ∧ ∀ j < i, val.testBit j = false := by
  have h := byte_scan_ok_all val hval
  unfold byte_scan_ok at h
  cases hf : first_bit_of_byte val with
  | none =>
    rw [hf] at h
    simp only [beq_iff_eq] at h
    exact absurd h hne
  | some i =>
    rw [hf] at h
    simp only [Bool.and_eq_true, List.all_eq_true, List.mem_range, Bool.not_eq_true'] at h
    exact ⟨i, first_bit_of_byte_lt val i hf, rfl, h.1.2, h.2⟩

/-- The scan from byte `pc` on: either every byte is zero and the result is `-1`, or the
result is the index of the lowest set bit of the first byte that is not zero. -/
theorem scan_bytes_least (buf : List Nat) :
    ∀ pc : Nat, (∀ b ∈ buf, b < 256) →
      ((∀ b ∈ buf, b = 0) ∧ scan_bytes buf pc buf.length = -1)
      ∨ ∃ j i, j < buf.length ∧ i < 8
          ∧ scan_bytes buf pc buf.length = (((pc + j) * 8 + i : Nat) : Int)
          ∧ (buf.getD j 0).testBit i = true
          ∧ (∀ j2 < j, buf.getD j2 0 = 0)
          ∧ ∀ i2 < i, (buf.getD j 0).testBit i2 = false := by
  induction buf with
  | nil => intro pc _; left; exact ⟨by simp, by simp [scan_bytes]⟩
  | cons val rest ih =>
    intro pc hb
    have hval : val < 256 := hb val (List.mem_cons_self _ _)
    have hrest : ∀ b ∈ rest, b < 256 := fun b hb2 => hb b (List.mem_cons_of_mem _ hb2)
    by_cases hz : val = 0
    · subst hz
      have hstep : scan_bytes (0 :: rest) pc (0 :: rest).length
          = scan_bytes rest (pc + 1) rest.length := by
        simp [scan_bytes]
      rcases ih (pc + 1) hrest with ⟨hall, hres⟩ | ⟨j, i, hj, hi, hres, hbit, hzero, hlow⟩
      · left
        refine ⟨?_, by rw [hstep, hres]⟩
        intro b hb2
        rcases List.mem_cons.mp hb2 with h | h
        · exact h
        · exact hall b h
      · right
        refine ⟨j + 1, i, by simpa using hj, hi, ?_, by simpa using hbit, ?_, by simpa using hlow⟩
        · rw [hstep, hres]
          congr 1
          ring
        · intro j2 hj2
          cases j2 with
          | zero => rfl
          | succ j3 => simpa using hzero j3 (by omega)
    · right
      obtain ⟨i, hi, hf, hbit, hlow⟩ := first_bit_of_byte_least val hval hz
      refine ⟨0, i, by simp, hi, ?_, by simpa using hbit, by intro j2 hj2; omega,
        by simpa using hlow⟩
      simp [scan_bytes, hz, hf]

/-- C25. For a buffer of bytes, `get_first_bit_position(buffer, n)` with `n` the length of
the buffer is `-1` exactly when every byte is zero; otherwise it is `8*j + i` for a set
bit `i` of byte `j`, and no bit with a smaller index is set. -/
theorem first_set_bit_scan (buf : List Nat) (hbytes : ∀ b ∈ buf, b < 256) :
    (get_first_bit_position buf buf.length = -1 ↔ ∀ b ∈ buf, b = 0)
      ∧ (get_first_bit_position buf buf.length = -1
        ∨ ∃ j i, j < buf.length ∧ i < 8
            ∧ get_first_bit_position buf buf.length = ((8 * j + i : Nat) : Int)
            ∧ bit_set buf (8 * j + i) = true
            ∧ ∀ k < 8 * j + i, bit_set buf k = false) := by
  have hscan : get_first_bit_position buf buf.length = scan_bytes buf 0 buf.length := by
    simp [get_first_bit_position]
  rw [hscan]
  rcases scan_bytes_least buf 0 hbytes with ⟨hall, hres⟩
    | ⟨j, i, hj, hi, hres, hbit, hzero, hlow⟩
  · exact ⟨⟨fun _ => hall, fun _ => hres⟩, Or.inl hres⟩
  · have hdiv : (8 * j + i) / 8 = j := by omega
    have hmod : (8 * j + i) % 8 = i := by omega
    have hval : scan_bytes buf 0 buf.length = ((8 * j + i : Nat) : Int) := by
      rw [hres]
      congr 1
      ring
    refine ⟨⟨?_, ?_⟩, Or.inr ⟨j, i, hj, hi, hval, ?_, ?_⟩⟩
    · intro h
      rw [hval] at h
      omega
    · intro hall
      have hmem : buf.getD j 0 ∈ buf := by
        rw [List.getD_eq_getElem _ _ hj]
        exact List.getElem_mem _
      rw [hall _ hmem] at hbit
      simp at hbit
    · simp only [bit_set, hdiv, hmod]
      exact hbit
    · intro k hk
      simp only [bit_set]
      by_cases hkj : k / 8 < j
      · rw [hzero _ hkj]
        simp
      · have hkj2 : k / 8 = j := by omega
        rw [hkj2]
        exact hlow _ (by omega)

/-- C25 on the two bytes `0, 0b00010100`: the first set bit is bit 2 of byte 1, index 10;
on two zero bytes the result is `-1`. -/
theorem first_set_bit_scan_witness :
    ((get_first_bit_position [0, 0b00010100] 2 = -1 ↔ ∀ b ∈ [0, 0b00010100], b = 0)
      ∧ (get_first_bit_position [0, 0b00010100] 2 = -1
        ∨ ∃ j i, j < [0, 0b00010100].length ∧ i < 8
            ∧ get_first_bit_position [0, 0b00010100] 2 = ((8 * j + i : Nat) : Int)
            ∧ bit_set [0, 0b00010100] (8 * j + i) = true
            ∧ ∀ k < 8 * j + i, bit_set [0, 0b00010100] k = false))
    ∧ get_first_bit_position [0, 0b00010100] 2 = 10
    ∧ get_first_bit_position [0, 0] 2 = -1 :=
  ⟨first_set_bit_scan [0, 0b00010100] (by decide), by decide, by decide⟩

/-! ## C26: when a bit-field registration fails -/

/-- `register_bitfield` returns `false` exactly when the name is already in the field map
or the scan after the first write finds no set bit. -/
theorem register_bitfield_fails_iff (P : platform) (C : class_t) (F : arith_t)
    (st st1 : class_state) (cn : String) (fn : c_str) (ud : Nat) (g : List Nat → Int)
    (s : List Nat → Int → List Nat) (file : String) (line : Nat) (b : Bool)
    (hrun : register_bitfield P C F st cn fn ud g s file line = some (b, st1)) :
    b = false ↔ ((∃ v, map_find fn st.layout.fields = some v)
      ∨ get_first_bit_position (s (zeroed C) (static_cast P F 1)) (to_signed 32 C.sizeof)
          = -1) := by
  simp only [register_bitfield] at hrun
  split at hrun
  · cases hrun
  · split at hrun
    · cases hrun
    · cases hf : map_find fn st.layout.fields with
      | some v =>
        obtain ⟨st2, h1, -, -⟩ := setup_class_field_present C st cn fn ud file line v hf
        rw [h1] at hrun
        simp only [Option.some.injEq, Prod.mk.injEq] at hrun
        exact ⟨fun _ => Or.inl ⟨v, rfl⟩, fun _ => hrun.1.symm⟩
      | none =>
        obtain ⟨st2, h1, -, -⟩ := setup_class_field_absent C st cn fn ud file line hf
        rw [h1] at hrun
        simp only at hrun
        split at hrun
        · rename_i hpos
          simp only [Option.some.injEq, Prod.mk.injEq] at hrun
          exact ⟨fun _ => Or.inr hpos, fun _ => hrun.1.symm⟩
        · rename_i hpos
          simp only [Option.some.injEq, Prod.mk.injEq] at hrun
          constructor
          · intro hb
            rw [hb] at hrun
            exact absurd hrun.1 (by decide)
          · intro h
            rcases h with ⟨v, hv⟩ | h
            · cases hv
            · exact absurd h hpos

set_option maxRecDepth 1000000 in
/-- C26 fails on the code: after the bit-field `a` of `with_bitfields` was registered, a
bit-field registration under the name `z` whose first write sets no bit returns `false`
and logs nothing, `firstbit` and `lastbit` stay at 0 and 1, but the field map has gained
the entry `z`, classified as a bit-field without ranges. -/
theorem inconclusive_probe_keeps_entry :
    flag_of (bitfield_a.run lp64 with_bitfields class_state.init) = true
      ∧ layout_summary (state_of (bitfield_a.run lp64 with_bitfields class_state.init))
          = ("with_bitfields", 0, 0, 1, 1)
      ∧ flag_of (dead_z.run lp64 with_bitfields
          (state_of (bitfield_a.run lp64 with_bitfields class_state.init))) = false
      ∧ layout_summary (state_of (dead_z.run lp64 with_bitfields
          (state_of (bitfield_a.run lp64 with_bitfields class_state.init))))
          = ("with_bitfields", 0, 0, 1, 2)
      ∧ field_summary (state_of (dead_z.run lp64 with_bitfields
          (state_of (bitfield_a.run lp64 with_bitfields class_state.init))))
          = [("a", 0, .bitfield, [0, 1]), ("z", 0, .bitfield, [])]
      ∧ (state_of (dead_z.run lp64 with_bitfields
          (state_of (bitfield_a.run lp64 with_bitfields class_state.init)))).errors.length
          = 0 := by
  refine ⟨?_, ?_, ?_, ?_, ?_, ?_⟩ <;> rfl

/-! ## C27: the class id of a layout and the user data of its fields -/

/-- The id of the layout after a call is the id the first-touch test left. -/
theorem run_layout_id (P : platform) (C : class_t) (st st1 : class_state)
    (r : registration) (b : Bool) (hrun : r.run P C st = some (b, st1)) :
    st1.layout.id = (first_touch C st.layout r.classname).id := by
  cases r with
  | field F o cn fn ud file line =>
    simp only [registration.run, register_field] at hrun
    cases hf : map_find fn st.layout.fields with
    | some v =>
      rw [setup_class_field_present_layout C st cn fn ud file line v hf] at hrun
      cases hrun
      rfl
    | none =>
      rw [setup_class_field_absent_layout C st cn fn ud file line hf] at hrun
      simp only at hrun
      split at hrun
      · cases hrun
      · rename_i it l hi
        cases hrun
        exact (register_item_name P F _ _ _ _ _ hi).2
  | bitfield F cn fn ud g s file line =>
    simp only [registration.run, register_bitfield] at hrun
    split at hrun
    · cases hrun
    · split at hrun
      · cases hrun
      · cases hf : map_find fn st.layout.fields with
        | some v =>
          rw [setup_class_field_present_layout C st cn fn ud file line v hf] at hrun
          cases hrun
          rfl
        | none =>
          rw [setup_class_field_absent_layout C st cn fn ud file line hf] at hrun
          simp only at hrun
          split at hrun
          · cases hrun
            rfl
          · cases hrun
            exact update_extent_id _ _

theorem run_id_eq (P : platform) (C : class_t) (st st1 : class_state)
    (r : registration) (b : Bool) (hrun : r.run P C st = some (b, st1))
    (h : st.layout.name = "" ∨ st.layout.id = C.id) : st1.layout.id = C.id := by
  rw [run_layout_id P C st st1 r b hrun]
  unfold first_touch
  split
  · rfl
  · rcases h with h | h
    · contradiction
    · exact h

theorem run_all_id (P : platform) (C : class_t) (rs : List registration) :
    ∀ (st st1 : class_state) (bs : List Bool),
      run_all P C st rs = some (bs, st1) → st.layout.id = C.id → st1.layout.id = C.id := by
  induction rs with
  | nil =>
    intro st st1 bs h hid
    simp only [run_all, Option.some.injEq, Prod.mk.injEq] at h
    rw [← h.2]
    exact hid
  | cons r rest ih =>
    intro st st1 bs h hid
    simp only [run_all] at h
    split at h
    · cases h
    · rename_i b st2 hr
      split at h
      · cases h
      · rename_i bs2 st3 hrest
        cases h
        exact ih st2 _ bs2 hrest (run_id_eq P C st st2 r b hr (Or.inr hid))

theorem run_all_append (P : platform) (C : class_t) (rs1 rs2 : List registration) :
    ∀ (st st2 : class_state) (bs : List Bool),
      run_all P C st (rs1 ++ rs2) = some (bs, st2) →
      ∃ bs1 bs2 st1, run_all P C st rs1 = some (bs1, st1)
        ∧ run_all P C st1 rs2 = some (bs2, st2) := by
  induction rs1 with
  | nil =>
    intro st st2 bs h
    exact ⟨[], bs, st, rfl, h⟩
  | cons r rest ih =>
    intro st st2 bs h
    simp only [List.cons_append, run_all] at h
    split at h
    · cases h
    · rename_i b stm hr
      split at h
      · cases h
      · rename_i bs2 st3 hrest
        cases h
        obtain ⟨b1, b2, s1, h1, h2⟩ := ih stm _ bs2 hrest
        refine ⟨b :: b1, b2, s1, ?_, h2⟩
        simp only [run_all, hr, h1]

theorem run_all_find_other (P : platform) (C : class_t) (rs : List registration) (k : c_str) :
    ∀ (st st1 : class_state) (bs : List Bool),
      run_all P C st rs = some (bs, st1) → (∀ y ∈ rs, y.fieldname.addr ≠ k.addr) →
      map_find k st1.layout.fields = map_find k st.layout.fields := by
  induction rs with
  | nil =>
    intro st st1 bs h _
    simp only [run_all, Option.some.injEq, Prod.mk.injEq] at h
    rw [← h.2]
  | cons r rest ih =>
    intro st st1 bs h hne
    simp only [run_all] at h
    split at h
    · cases h
    · rename_i b st2 hr
      split at h
      · cases h
      · rename_i bs2 st3 hrest
        cases h
        rw [ih st2 _ bs2 hrest (fun y hy => hne y (List.mem_cons_of_mem _ hy))]
        exact run_find_other P C st st2 r b k hr (hne r (List.mem_cons_self _ _))

/-- The first call under a name stores its user data with the new entry. -/
theorem run_user_data (P : platform) (C : class_t) (st st1 : class_state)
    (r : registration) (b : Bool) (hrun : r.run P C st = some (b, st1))
    (hnew : map_find r.fieldname st.layout.fields = none) :
    ∃ info, map_find r.fieldname st1.layout.fields = some info
      ∧ info.user_data = r.user_data := by
  cases r with
  | field F o cn fn ud file line =>
    simp only [registration.run] at hrun
    simp only [registration.fieldname] at hnew
    obtain ⟨-, -, -, it, l, -, hfind⟩ :=
      register_field_fresh P C F st st1 o cn fn ud file line b hnew hrun
    exact ⟨_, hfind, rfl⟩
  | bitfield F cn fn ud g s file line =>
    simp only [registration.fieldname] at hnew
    simp only [registration.run, register_bitfield] at hrun
    have hplace := map_find_place_self fn { user_data := ud, item := item_t.default }
      st.layout.fields hnew
    split at hrun
    · cases hrun
    · split at hrun
      · cases hrun
      · rw [setup_class_field_absent_layout C st cn fn ud file line hnew] at hrun
        simp only at hrun
        split at hrun
        · cases hrun
          exact ⟨_, map_find_set_self fn _ _ _ hplace, rfl⟩
        · cases hrun
          exact ⟨_, map_find_set_self fn _ _ { user_data := ud, item := item_t.default } hplace,
            rfl⟩

/-- C27. After any sequence of at least one registration call for a class whose
`id_of` value is `id`, the layout has the id `id` (which is 0 when no class id was
declared for the class), and the entry of every field holds the user data passed by the
first call made under the name of that field. -/
theorem class_identity_of_layout (P : platform) (table : List id_binding) (T : type_id)
    (size id : Nat) (pre : List registration) (x : registration) (post : List registration)
    (flags : List Bool) (st1 : class_state)
    (hid : id_of table T = some id)
    (hfirst : ∀ y ∈ pre, y.fieldname.addr ≠ x.fieldname.addr)
    (hrun : run_all P { sizeof := size, id := id } class_state.init (pre ++ x :: post)
      = some (flags, st1)) :
    (get_layout st1).id = id
      ∧ (exact_ids table T = [] → conditional_ids table T = [] → (get_layout st1).id = 0)
      ∧ ∃ info, map_find x.fieldname (get_layout st1).fields = some info
          ∧ info.user_data = x.user_data := by
  have hlayout : (get_layout st1).id = id := by
    cases hrs : pre ++ x :: post with
    | nil => simp at hrs
    | cons r rest =>
      rw [hrs] at hrun
      simp only [run_all] at hrun
      split at hrun
      · cases hrun
      · rename_i b st2 hr
        split at hrun
        · cases hrun
        · rename_i bs2 st3 hrest
          cases hrun
          exact run_all_id P _ rest st2 _ bs2 hrest
            (run_id_eq P _ class_state.init st2 r b hr (Or.inl rfl))
  refine ⟨hlayout, ?_, ?_⟩
  · intro he hc
    rw [hlayout]
    simp only [id_of, he, hc, Option.some.injEq] at hid
    exact hid.symm
  · obtain ⟨bs1, bs2, stm, h1, h2⟩ := run_all_append P _ pre (x :: post) _ _ _ hrun
    have hnone : map_find x.fieldname stm.layout.fields = none := by
      rw [run_all_find_other P _ pre x.fieldname _ _ _ h1 hfirst]
      rfl
    simp only [run_all] at h2
    split at h2
    · cases h2
    · rename_i b st2 hr
      split at h2
      · cases h2
      · rename_i bs3 st3 hrest
        cases h2
        obtain ⟨info, hinfo, hud⟩ := run_user_data P _ stm st2 x b hr hnone
        exact ⟨info, run_all_keeps P _ post st2 _ bs3 x.fieldname info hrest hinfo, hud⟩

/-- C27 at `all_mixed`, with the calls for its fields `g` and `h`: the layout has the id
`0xABAC0` and the entry of `h` has the user data `0xfabada`. -/
theorem class_identity_of_layout_witness :
    (get_layout (state_of (all_mixed_h.run lp64 all_mixed
        (state_of (all_mixed_g.run lp64 all_mixed class_state.init))))).id = 0xABAC0
      ∧ (exact_ids example_ids all_mixed_id = [] → conditional_ids example_ids all_mixed_id = [] →
          (get_layout (state_of (all_mixed_h.run lp64 all_mixed
            (state_of (all_mixed_g.run lp64 all_mixed class_state.init))))).id = 0)
      ∧ ∃ info, map_find all_mixed_h.fieldname (get_layout (state_of (all_mixed_h.run lp64
            all_mixed (state_of (all_mixed_g.run lp64 all_mixed class_state.init))))).fields
          = some info
        ∧ info.user_data = 0xfabada :=
  class_identity_of_layout lp64 example_ids all_mixed_id 624 0xABAC0 [all_mixed_g] all_mixed_h []
    [true, true]
    (state_of (all_mixed_h.run lp64 all_mixed
      (state_of (all_mixed_g.run lp64 all_mixed class_state.init))))
    (by decide) (by decide) rfl

/-! ## C28: what the diagnostic of a duplicate says -/

/-- C29 fails on the code: `simple_types::b` registered under the name `"b"` twice, the
two strings having the same characters and lying at different addresses. Both calls return
`true`, no error is logged, and the field map holds two entries named `b`. -/
theorem same_characters_two_entries :
    dup_first.fieldname.text = dup_elsewhere.fieldname.text
      ∧ dup_first.fieldname.addr ≠ dup_elsewhere.fieldname.addr
      ∧ calls_report (run_all lp64 simple_types class_state.init [dup_first, dup_elsewhere])
        = some ([true, true],
            [("b", 0, .arithmetic, [32, 39]), ("b", 0, .arithmetic, [32, 39])], 0) := by
  refine ⟨rfl, by decide, rfl⟩

/-! ## C30: the range of an indexable item -/

theorem le_max_end_bit (d : item_t) (its : List item_t) (h : d ∈ its) :
    d.end_bit ≤ max_end_bit its := by
  induction its with
  | nil => cases h
  | cons x rest ih =>
    rw [max_end_bit_cons]
    rcases List.mem_cons.mp h with h1 | h1
    · rw [h1]
      exact Nat.le_max_left _ _
    · exact Nat.le_trans (ih h1) (Nat.le_max_right _ _)

/-- No item below a registered item ends after it. -/
theorem descendant_end_inside (P : platform) (F : field_t) (o : Nat) (l l1 : class_layout)
    (it : item_t) (h : register_item P F o item_t.default l = some (it, l1)) :
    ∀ d ∈ it.descendants, d.end_bit ≤ it.end_bit := by
  intro d hd
  exact Nat.le_trans (le_max_end_bit d _ hd) (register_item_shape P F o l it l1 h).2.2

/-- C30 fails on the code: a member of type `std::tuple<>` (arity 0) at byte offset 4 is
registered with the range `[32, 0]`, whose start lies after its end. -/
theorem empty_container_range :
    flag_of (empty_tuple_t.run lp64 with_empty_tuple class_state.init) = true
      ∧ field_summary (state_of (empty_tuple_t.run lp64 with_empty_tuple class_state.init))
        = [("t", 0, .container, [32, 0])]
      ∧ layout_summary (state_of (empty_tuple_t.run lp64 with_empty_tuple class_state.init))
        = ("with_empty_tuple", 0, 32, 0, 1)
      ∧ ¬ (32 : Nat) ≤ 0 := by
  refine ⟨rfl, rfl, rfl, by decide⟩

/-! ## C31: the recursive maximum and the maximum over one level -/

theorem get_max_bit_loop_children (its : List item_t)
    (h : ∀ c ∈ its, get_max_bit 0 c = c.end_bit) :
    get_max_bit_loop 0 its = max_end_bit its := by
  induction its with
  | nil => rfl
  | cons c rest ih =>
    have hc := h c (List.mem_cons_self _ _)
    have hrest := ih (fun d hd => h d (List.mem_cons_of_mem _ hd))
    have h3 : (if get_max_bit 0 c > 0 then get_max_bit 0 c else 0) = get_max_bit 0 c := by
      split <;> omega
    simp only [get_max_bit_loop]
    rw [h3, get_max_bit_loop_max rest (get_max_bit 0 c), hc, hrest, max_end_bit_cons]

theorem register_container_children_end (P : platform) (es : List (Nat × field_t)) :
    ∀ (o : Nat) (l l1 : class_layout) (its : List item_t),
      register_container P es o l = some (its, l1) →
      ∀ c ∈ its, get_max_bit 0 c = c.end_bit := by
  induction es with
  | nil =>
    intro o l l1 its h c hc
    simp only [register_container, Option.some.injEq, Prod.mk.injEq] at h
    rw [← h.1] at hc
    cases hc
  | cons e rest ih =>
    intro o l l1 its h c hc
    obtain ⟨eo, t⟩ := e
    simp only [register_container] at h
    split at h
    · cases h
    · rename_i child l2 hi
      split at h
      · cases h
      · rename_i children l3 hr
        cases h
        rcases List.mem_cons.mp hc with h1 | h1
        · rw [h1]
          exact (register_item_shape P t _ l child l2 hi).2.1
        · exact ih o l2 l1 children hr c h1

theorem container_max_one_level (P : platform) (es : List (Nat × field_t)) (o : Nat)
    (l l1 : class_layout) (it : item_t)
    (h : register_item P (.container es) o item_t.default l = some (it, l1)) :
    it.category = .container ∧ get_max_bit 0 it = one_level_max it := by
  simp only [register_item] at h
  split at h
  · cases h
  · rename_i items l2 hc
    cases h
    refine ⟨rfl, ?_⟩
    show get_max_bit_loop 0 items = max_end_bit items
    exact get_max_bit_loop_children items (register_container_children_end P es o l l2 items hc)

mutual
theorem register_item_levels (P : platform) :
    ∀ (F : field_t) (o : Nat) (l : class_layout) (it : item_t) (l1 : class_layout),
      register_item P F o item_t.default l = some (it, l1) →
      ∀ d ∈ it :: it.descendants, d.category = .container →
        get_max_bit 0 d = one_level_max d ∧ d.end_bit = one_level_max d
  | .arithmetic t, o, l, it, l1, h => by
    simp only [register_item] at h
    split at h
    · cases h
    · cases h
      intro d hd hcat
      rcases List.mem_cons.mp hd with h1 | h1
      · rw [h1] at hcat
        cases hcat
      · cases h1
  | .pointer, o, l, it, l1, h => by
    simp only [register_item] at h
    cases h
    intro d hd hcat
    rcases List.mem_cons.mp hd with h1 | h1
    · rw [h1] at hcat
      cases hcat
    · cases h1
  | .klass sz id, o, l, it, l1, h => by
    simp only [register_item] at h
    cases h
    intro d hd hcat
    rcases List.mem_cons.mp hd with h1 | h1
    · rw [h1] at hcat
      cases hcat
    · cases h1
  | .container elems, o, l, it, l1, h => by
    have htop := container_max_one_level P elems o l l1 it h
    have hend := (register_item_shape P (.container elems) o l it l1 h).2.1
    simp only [register_item] at h
    split at h
    · cases h
    · rename_i items l2 hc
      cases h
      intro d hd hcat
      rcases List.mem_cons.mp hd with h1 | h1
      · rw [h1]
        exact ⟨htop.2, hend.symm.trans htop.2⟩
      · exact register_container_levels P elems o l items l2 hc d h1 hcat
theorem register_container_levels (P : platform) :
    ∀ (es : List (Nat × field_t)) (o : Nat) (l : class_layout) (its : List item_t)
      (l1 : class_layout), register_container P es o l = some (its, l1) →
      ∀ d ∈ descendants_of its, d.category = .container →
        get_max_bit 0 d = one_level_max d ∧ d.end_bit = one_level_max d
  | [], o, l, its, l1, h => by
    simp only [register_container] at h
    cases h
    intro d hd
    cases hd
  | (eo, t) :: rest, o, l, its, l1, h => by
    simp only [register_container] at h
    split at h
    · cases h
    · rename_i child l2 hi
      split at h
      · cases h
      · rename_i children l3 hr
        cases h
        intro d hd hcat
        have hd2 : d ∈ (child :: child.descendants) ++ descendants_of children := hd
        rcases List.mem_append.mp hd2 with h1 | h1
        · exact register_item_levels P t _ l child l2 hi d h1 hcat
        · exact register_container_levels P rest o l2 children l1 hr d h1 hcat
end

/-- C31. For the item of a registered field of indexable type, and for every indexable
item below it, `get_max_bit(0, item)`, which recurses down to the leaves, is the maximum
over the direct children of the end bit each child has stored (0 without children), and
that is the end bit the item has stored for itself. -/
theorem one_level_max_agrees (P : platform) (C : class_t) (elems : List (Nat × field_t))
    (st st1 : class_state) (o : Nat) (cn : String) (fn : c_str) (ud : Nat) (file : String)
    (line : Nat)
    (hrun : register_field P C (.container elems) st o cn fn ud file line = some (true, st1)) :
    ∃ info, map_find fn st1.layout.fields = some info
      ∧ get_max_bit 0 info.item = one_level_max info.item
      ∧ info.item.end_bit = one_level_max info.item
      ∧ ∀ d ∈ info.item.descendants, d.category = .container →
          get_max_bit 0 d = one_level_max d ∧ d.end_bit = one_level_max d := by
  cases hf : map_find fn st.layout.fields with
  | some v =>
    obtain ⟨st2, h1, -, -⟩ := setup_class_field_present C st cn fn ud file line v hf
    simp [register_field, h1] at hrun
  | none =>
    obtain ⟨-, -, -, it, l, hi, hfind⟩ :=
      register_field_fresh P C _ st st1 o cn fn ud file line true hf hrun
    have hall := register_item_levels P (.container elems) o _ it l hi
    have htop := hall it (List.mem_cons_self _ _)
      (container_max_one_level P elems o _ l it hi).1
    exact ⟨_, hfind, htop.1, htop.2,
      fun d hd hcat => hall d (List.mem_cons_of_mem _ hd) hcat⟩

set_option maxRecDepth 100000 in
/-- C31 at `complex_types::b` of type `pair<tuple<char, float, double>, tuple<short>>` at
offset 24: both maxima are 335, the end bit of the `short`. -/
theorem one_level_max_agrees_witness :
    (∃ info,
      map_find ⟨5000, "b"⟩ (state_of (register_field lp64 complex_types pair_of_tuples
          class_state.init 24 "complex_types" ⟨5000, "b"⟩ 0 "main.cpp" 272)).layout.fields
        = some info
      ∧ get_max_bit 0 info.item = one_level_max info.item
      ∧ info.item.end_bit = one_level_max info.item
      ∧ ∀ d ∈ info.item.descendants, d.category = .container →
          get_max_bit 0 d = one_level_max d ∧ d.end_bit = one_level_max d)
    ∧ (map_find ⟨5000, "b"⟩ (state_of (register_field lp64 complex_types pair_of_tuples
          class_state.init 24 "complex_types" ⟨5000, "b"⟩ 0 "main.cpp" 272)).layout.fields).map
        (fun info => (get_max_bit 0 info.item, one_level_max info.item,
          info.item.items.map item_t.end_bit))
      = some (335, 335, [295, 335]) :=
  ⟨one_level_max_agrees lp64 complex_types
    [ (0, .container
        [(12, .arithmetic .char), (8, .arithmetic .float), (0, .arithmetic .double)]),
      (16, .container [(0, .arithmetic .short)]) ]
    class_state.init
    (state_of (register_field lp64 complex_types pair_of_tuples
      class_state.init 24 "complex_types" ⟨5000, "b"⟩ 0 "main.cpp" 272))
    24 "complex_types" ⟨5000, "b"⟩ 0 "main.cpp" 272 rfl, rfl⟩

/-! ## C32: the two decoders of a descriptor -/

set_option maxRecDepth 100000 in
/-- C32. `get_arithmetic_type` of `tojson.cpp` and `details::decode_arithmetic` of
`map_layout.h` return the same name for every byte; for the bytes `0b00010010`,
`0b00000110`, `0b01001101` and `0b00111111` that name is `"int32_t"`, `"uint8_t"`,
`"char16_t"` and `"undefined"`. -/
theorem decoders_agree :
    (∀ enc < 256, get_arithmetic_type enc = decode_arithmetic enc)
      ∧ [0b00010010, 0b00000110, 0b01001101, 0b00111111].map get_arithmetic_type
        = ["int32_t", "uint8_t", "char16_t", "undefined"]
      ∧ [0b00010010, 0b00000110, 0b01001101, 0b00111111].map decode_arithmetic
        = ["int32_t", "uint8_t", "char16_t", "undefined"] := by
  refine ⟨by decide, by decide, by decide⟩

/-- C32 at the descriptor `0b00010010` of `int` on x86-64. -/
theorem decoders_agree_witness :
    get_arithmetic_type 0b00010010 = decode_arithmetic 0b00010010 :=
  decoders_agree.1 0b00010010 (by decide)

/-! ## C33: the size that is rendered for an item -/

/-- With at least one entry in `ranges`, the loop reads inside the vector and ends. -/
theorem size_loop_in_bounds (ranges : List Nat) (h1 : 1 ≤ ranges.length)
    (h2 : ranges.length < 2 ^ 32) :
    ∀ (fuel i size : Nat), ranges.length ≤ fuel + i →
      ∃ v, size_loop ranges fuel i size = .value v := by
  have hb : size_sub ranges.length 1 = ranges.length - 1 := by
    simp only [size_sub]
    norm_num at h2 ⊢
    omega
  intro fuel
  induction fuel with
  | zero =>
    intro i size h
    simp only [size_loop, hb]
    rw [if_neg (by omega)]
    exact ⟨size, rfl⟩
  | succ fuel ih =>
    intro i size h
    simp only [size_loop, hb]
    by_cases hi : i < ranges.length - 1
    · rw [if_pos hi]
      have hlt1 : i + 1 < ranges.length := by omega
      have hlt0 : i < ranges.length := by omega
      rw [List.getElem?_eq_getElem hlt1, List.getElem?_eq_getElem hlt0]
      have hmod : (i + 2) % 2 ^ 32 = i + 2 := by
        apply Nat.mod_eq_of_lt
        norm_num at h2 ⊢
        omega
      simp only [hmod]
      exact ih (i + 2) _ (by omega)
    · rw [if_neg hi]
      exact ⟨size, rfl⟩

set_option maxRecDepth 1000000 in
/-- C33 fails on the code: the bit-field registration `z` of `with_bitfields` whose first
write sets no bit leaves an item without ranges in the field map of a layout that has a
name, and for that item the size loop of `to_json` reads `ranges[1]` of an empty vector.
For the bit-field `a` (ranges `[0, 1]`) the same loop gives 2 bits, and for the `int` at
offset 0 of `simple_types` 4 bytes. -/
theorem rendering_reads_past_empty_ranges :
    (get_layout (state_of (dead_z.run lp64 with_bitfields class_state.init))).name
        = "with_bitfields"
      ∧ (item_of (state_of (dead_z.run lp64 with_bitfields class_state.init))
          ⟨4500, "z"⟩).map (fun it => (it.category, it.ranges, to_json_size it))
        = some (.bitfield, [], .out_of_bounds 1)
      ∧ (item_of (state_of (bitfield_a.run lp64 with_bitfields class_state.init))
          ⟨4300, "a"⟩).map (fun it => (it.category, it.ranges, to_json_size it))
        = some (.bitfield, [0, 1], .value ("bits", 2))
      ∧ (item_of (state_of (unnamed_first.run lp64 simple_types class_state.init))
          ⟨4090, "a"⟩).map (fun it => (it.category, it.ranges, to_json_size it))
        = some (.arithmetic, [0, 31], .value ("bytes", 4)) := by
  refine ⟨rfl, rfl, rfl, rfl⟩

/-! ## C34: the separators between the classes of a report -/

/-- The class objects of a report are those of the listed types whose layout has a name,
in list order. -/
theorem type_iterator_classes (reg : registry) (TS : List type_id) :
    class_objects (type_iterator reg TS)
      = (TS.filter (fun T => decide ((get_layout (reg T)).name ≠ ""))).map
          (fun T => (get_layout (reg T)).name) := by
  induction TS with
  | nil => rfl
  | cons T rest ih =>
    simp only [type_iterator, class_objects, List.filterMap_append] at ih ⊢
    by_cases hn : (get_layout (reg T)).name ≠ ""
    · rw [if_pos hn, List.filter_cons_of_pos (by simpa using hn)]
      by_cases hl : rest.length ≠ 0
      · rw [if_pos hl]
        simp only [List.filterMap_cons, List.filterMap_nil, List.map_cons, List.singleton_append]
        rw [ih]
      · rw [if_neg hl]
        simp only [List.filterMap_cons, List.filterMap_nil, List.map_cons, List.singleton_append]
        rw [ih]
    · rw [if_neg hn, List.filter_cons_of_neg (by simpa using hn)]
      simp only [List.filterMap_nil, List.nil_append]
      rw [ih]

/-- C34 fails on the code: for the type list `simple_types, anonymous_struct`, of which
only the first has registered fields, the report holds the object of `simple_types`
followed by a separator; there is one separator for one class, and it comes last. For the
list in the opposite order there is no separator. -/
theorem separator_after_last_class :
    type_iterator only_simple_types [simple_types_id, anonymous_struct_id]
        = [.class_object "simple_types", .separator]
      ∧ (type_iterator only_simple_types [simple_types_id, anonymous_struct_id]).count
          .separator = 1
      ∧ (class_objects
          (type_iterator only_simple_types [simple_types_id, anonymous_struct_id])).length = 1
      ∧ type_iterator only_simple_types [anonymous_struct_id, simple_types_id]
        = [.class_object "simple_types"] := by
  refine ⟨by decide, by decide, by decide, by decide⟩

/-! ## C35: the display name of a class -/

/-- C35 fails on the code: of the qualified name `ns::widget` only `ns` is kept, and a
template argument list that contains template arguments is cut after the first `>`. The
class names of `example/main.cpp` come out whole. -/
theorem qualified_or_nested_name_is_cut :
    get_filtered_classname "ns::widget" = "ns"
      ∧ get_filtered_classname "ML_WRAP(outer<inner<int>, 2>)" = "outer<inner<int>"
      ∧ get_filtered_classname "ML_WRAP(class2<double, int, 2>)" = "class2<double, int, 2>"
      ∧ get_filtered_classname "ML_WRAP(ML_WRAP(class3<int>))" = "class3<int>"
      ∧ get_filtered_classname "simple_types" = "simple_types" := by
  refine ⟨by decide, by decide, by decide, by decide, by decide⟩

end map_layout
